import Mathlib

/-!
# LeanOpenQNX descriptor tools: embedding and verified properties

Shallow embedding of the XML descriptor tools of the repository
(`tools/moduleclassifier`, `tools/modulenavigator1`, `tools/modulexmlcollector`)
and of its two makefile tools (`tools/makevaranalyzer`, `tools/commonanalyzer`),
and proofs about them.

Modelling conventions
* `QString` is a list of characters; `operator<` is the lexicographic order.
* `QMap<K, V>` is a list of entries kept strictly ascending by key, which is
  the order in which a `QMap` is iterated.
* An `int` is an integer in the 32-bit range; the result of `+` and `++` on
  `int` is reduced to that range by `wrapInt` (two's complement, which is what
  the compiled code does; the C++ standard leaves signed overflow undefined).
  The theorems on counts are stated for counters that stay below `INT_MAX`.
* `QXmlStreamReader` is a cursor over the list of tokens the reader reports for
  a file; the end of the list stands for a premature end of the document.
* A `QTextStream` on standard output is the list of lines written to it.
* A `QSet<QString>` is a list without repetitions; its order is the order
  `toList` returns, which `qSort` replaces by the ascending one.
* The `QRegExp` patterns of the makefile tools are written out as matchers on
  character lists.
* `QTreeWidgetItem::sortChildren` is a parameter of `buildTree`, known only to
  reorder the items it is given.
-/

namespace LeanOpenQNX

/-! ## QString -/

/-- A `QString`: a sequence of characters, compared lexicographically. -/
abbrev QString := List Char

/-! ## QMap -/

section QMapEntries

variable {K V : Type} [LinearOrder K]

/-- Insertion of `(k, v)` into an ascending entry list; an entry with an equal
key is replaced (`QMap::insert`, `map[k] = v`). -/
def insertEntry (k : K) (v : V) : List (K × V) → List (K × V)
  | [] => [(k, v)]
  | e :: rest =>
    if k < e.1 then (k, v) :: e :: rest
    else if e.1 < k then e :: insertEntry k v rest
    else (k, v) :: rest

/-- Value stored under `k` in an entry list, if any. -/
def lookupEntry (k : K) : List (K × V) → Option V
  | [] => none
  | e :: rest => if e.1 = k then some e.2 else lookupEntry k rest

/-- Keys of an inserted list are the new key or old keys. -/
theorem mem_insertEntry {k : K} {v : V} {l : List (K × V)} {x : K × V}
    (hx : x ∈ insertEntry k v l) : x.1 = k ∨ x ∈ l := by
  induction l with
  | nil =>
    simp only [insertEntry, List.mem_singleton] at hx
    exact Or.inl (by rw [hx])
  | cons e rest ih =>
    simp only [insertEntry] at hx
    split_ifs at hx with h1 h2
    · rcases List.mem_cons.1 hx with h | h
      · exact Or.inl (by rw [h])
      · exact Or.inr h
    · rcases List.mem_cons.1 hx with h | h
      · exact Or.inr (by rw [h]; exact List.mem_cons_self _ _)
      · rcases ih h with h3 | h3
        · exact Or.inl h3
        · exact Or.inr (List.mem_cons_of_mem _ h3)
    · rcases List.mem_cons.1 hx with h | h
      · exact Or.inl (by rw [h])
      · exact Or.inr (List.mem_cons_of_mem _ h)

/-- Insertion keeps an entry list strictly ascending by key. -/
theorem insertEntry_pairwise (k : K) (v : V) {l : List (K × V)}
    (hl : l.Pairwise (fun a b => a.1 < b.1)) :
    (insertEntry k v l).Pairwise (fun a b => a.1 < b.1) := by
  induction l with
  | nil => simp [insertEntry]
  | cons e rest ih =>
    have hrest := (List.pairwise_cons.1 hl).2
    have hhead := (List.pairwise_cons.1 hl).1
    simp only [insertEntry]
    split_ifs with h1 h2
    · refine List.pairwise_cons.2 ⟨?_, hl⟩
      intro x hx
      rcases List.mem_cons.1 hx with h | h
      · rw [h]; exact h1
      · exact lt_trans h1 (hhead x h)
    · refine List.pairwise_cons.2 ⟨?_, ih hrest⟩
      intro x hx
      rcases mem_insertEntry hx with h | h
      · rw [h]; exact h2
      · exact hhead x h
    · have hk : k = e.1 := le_antisymm (not_lt.1 h2) (not_lt.1 h1)
      refine List.pairwise_cons.2 ⟨?_, hrest⟩
      intro x hx
      show k < x.1
      rw [hk]; exact hhead x hx

end QMapEntries

/-- A `QMap<K, V>`: entries in strictly ascending key order. -/
structure QMap (K V : Type) [LinearOrder K] where
  /-- Entries in iteration order (`constBegin` to `constEnd`). -/
  entries : List (K × V)
  /-- Keys are unique and ascending. -/
  ordered : entries.Pairwise (fun a b => a.1 < b.1)

namespace QMap

variable {K V : Type} [LinearOrder K]

/-- The default-constructed, empty map. -/
def empty : QMap K V := ⟨[], List.Pairwise.nil⟩

/-- Model of `QMap::contains`. -/
def contains (m : QMap K V) (k : K) : Bool := (lookupEntry k m.entries).isSome

/-- Model of `QMap::value(key, defaultValue)`; also the value read through
`operator[]`, where `dflt` is the default-constructed value. -/
def value (m : QMap K V) (k : K) (dflt : V) : V := (lookupEntry k m.entries).getD dflt

/-- Model of `QMap::insert` and of the assignment `map[k] = v`. -/
def insert (m : QMap K V) (k : K) (v : V) : QMap K V :=
  ⟨insertEntry k v m.entries, insertEntry_pairwise k v m.ordered⟩

/-- Model of `QMap::size`. -/
def size (m : QMap K V) : Nat := m.entries.length

/-- Keys in iteration order (`QMap::keys`). -/
def keys (m : QMap K V) : List K := m.entries.map Prod.fst

instance [DecidableEq V] : DecidableEq (QMap K V) := fun a b =>
  decidable_of_iff (a.entries = b.entries) (by cases a; cases b; simp)

end QMap

/-! ## The type int -/

/-- The `int` that an arithmetic result is stored as: the integer reduced to
the 32-bit two's complement range, from -2147483648 to 2147483647
(`INT_MAX`). -/
def wrapInt (x : Int) : Int := (x + 2147483648) % 4294967296 - 2147483648

/-! ## moduleclassifier: the four-level hierarchy -/

/-- Type of `QMap<QString, int>`: module name to count. -/
abbrev ModuleMap := QMap QString Int
/-- Type of `QMap<QString, QMap<QString, int> >`: type to module map. -/
abbrev TypeMap := QMap QString ModuleMap
/-- Type of the classification level: classification to type map. -/
abbrev ClassificationMap := QMap QString TypeMap
/-- Type of `ModuleAnalyzer::hierarchy`: GroupOwner to classification map. -/
abbrev Hierarchy := QMap QString ClassificationMap

/-- Model of `ModuleAnalyzer::addToHierarchy`. The C++ references into the
nested maps are written back level by level. -/
def addToHierarchy (hierarchy : Hierarchy)
    (groupOwner classification type moduleName : QString) : Hierarchy :=
  let hierarchy :=
    if !hierarchy.contains groupOwner then hierarchy.insert groupOwner QMap.empty
    else hierarchy
  let classificationMap := hierarchy.value groupOwner QMap.empty
  let classificationMap :=
    if !classificationMap.contains classification then
      classificationMap.insert classification QMap.empty
    else classificationMap
  let typeMap := classificationMap.value classification QMap.empty
  let typeMap :=
    if !typeMap.contains type then typeMap.insert type QMap.empty else typeMap
  let moduleMap := typeMap.value type QMap.empty
  let moduleMap :=
    if moduleMap.contains moduleName then
      moduleMap.insert moduleName (wrapInt (moduleMap.value moduleName 0 + 1))
    else moduleMap.insert moduleName 1
  hierarchy.insert groupOwner
    (classificationMap.insert classification (typeMap.insert type moduleMap))

/-- Model of `calculateTotal(const QMap<QString, int>&)`. -/
def calculateTotal1 (map : ModuleMap) : Int :=
  map.entries.foldl (fun total e => wrapInt (total + e.2)) 0

/-- Model of `calculateTotal(const QMap<QString, QMap<QString, int> >&)`. -/
def calculateTotal2 (map : TypeMap) : Int :=
  map.entries.foldl (fun total e => wrapInt (total + calculateTotal1 e.2)) 0

/-- Model of the three-level overload of `calculateTotal`. -/
def calculateTotal3 (map : ClassificationMap) : Int :=
  map.entries.foldl (fun total e => wrapInt (total + calculateTotal2 e.2)) 0

/-- A classification key tuple: owner, classification, type, module name. -/
abbrev KeyTuple := QString × QString × QString × QString

/-- One insertion, with the key tuple as a single argument. -/
def addTuple (hierarchy : Hierarchy) (k : KeyTuple) : Hierarchy :=
  addToHierarchy hierarchy k.1 k.2.1 k.2.2.1 k.2.2.2

/-- The hierarchy after the calls `addToHierarchy` for `ks`, in order. -/
def addAll (hierarchy : Hierarchy) (ks : List KeyTuple) : Hierarchy :=
  ks.foldl addTuple hierarchy

/-- Sum over all group owners of `calculateTotal` of the owner's map. -/
def grandTotal (hierarchy : Hierarchy) : Int :=
  (hierarchy.entries.map (fun e => calculateTotal3 e.2)).sum


/-! ## QString and QChar helpers -/

/-- Model of `QChar::isSpace`: space, the controls U+0009..U+000D, NEL, and the
Unicode separator characters (categories Zs, Zl, Zp). -/
def isSpace (c : Char) : Bool :=
  let u := c.toNat
  u == 0x20 || (0x09 ≤ u && u ≤ 0x0d) || u == 0x85 || u == 0xa0 || u == 0x1680 ||
    (0x2000 ≤ u && u ≤ 0x200a) || u == 0x2028 || u == 0x2029 || u == 0x202f ||
    u == 0x205f || u == 0x3000

/-- Model of `QString::trimmed`: whitespace removed from both ends. -/
def trimmed (s : QString) : QString :=
  ((s.dropWhile isSpace).reverse.dropWhile isSpace).reverse

/-- Model of `QString::chop(n)`: the last `n` characters are removed. -/
def chop (s : QString) (n : Nat) : QString := s.take (s.length - n)

/-! ## QXmlStreamReader -/

/-- Model of `QXmlStreamAttributes`: the attributes of a start element in
document order, each a (qualified name, value) pair. -/
abbrev QXmlStreamAttributes := List (QString × QString)

/-- Model of `QXmlStreamAttributes::hasAttribute`. -/
def hasAttribute (attributes : QXmlStreamAttributes) (name : QString) : Bool :=
  attributes.any (fun a => a.1 == name)

/-- Model of `QXmlStreamAttributes::value`: the value of the first attribute
with the given name, the empty string when there is none. -/
def attributeValue (attributes : QXmlStreamAttributes) (name : QString) : QString :=
  match attributes.find? (fun a => a.1 == name) with
  | some a => a.2
  | none => []

/-- The tokens a `QXmlStreamReader` reports (`QXmlStreamReader::TokenType`),
with the data the tools read from each. -/
inductive Token where
  | noToken
  | invalid
  | startDocument
  | endDocument
  | startElement (name : QString) (attributes : QXmlStreamAttributes)
  | endElement (name : QString)
  | characters (text : QString)
  | comment
  | dtd
  | entityReference (name text : QString)
  | processingInstruction
  deriving DecidableEq

/-- State of a `QXmlStreamReader`: the current token and the tokens of the file
that have not been read. A file that breaks off, or whose markup is malformed,
has a token list that ends without `endDocument` (or holds `invalid`). -/
structure QXmlStreamReader where
  /-- The token last returned by `readNext`. -/
  token : Token
  /-- The tokens still to come. -/
  pending : List Token
  deriving DecidableEq

namespace QXmlStreamReader

/-- A reader on a freshly opened file. -/
def onFile (tokens : List Token) : QXmlStreamReader := ⟨Token.noToken, tokens⟩

/-- Model of `readNext`: once `Invalid`, the reader stays there; reading past
the last token raises the premature-end error. -/
def readNext (xml : QXmlStreamReader) : QXmlStreamReader :=
  match xml.token with
  | Token.invalid => xml
  | _ =>
    match xml.pending with
    | [] => ⟨Token.invalid, []⟩
    | t :: ts => ⟨t, ts⟩

/-- Model of `hasError`: raising an error sets the token to `Invalid`. -/
def hasError (xml : QXmlStreamReader) : Bool :=
  match xml.token with
  | Token.invalid => true
  | _ => false

/-- Model of `atEnd`: the document end was read or an error stopped reading. -/
def atEnd (xml : QXmlStreamReader) : Bool :=
  match xml.token with
  | Token.invalid => true
  | Token.endDocument => true
  | _ => false

/-- Model of `isStartElement`. -/
def isStartElement (xml : QXmlStreamReader) : Bool :=
  match xml.token with
  | Token.startElement _ _ => true
  | _ => false

/-- Model of `isEndElement`. -/
def isEndElement (xml : QXmlStreamReader) : Bool :=
  match xml.token with
  | Token.endElement _ => true
  | _ => false

/-- Model of `isCharacters`. -/
def isCharacters (xml : QXmlStreamReader) : Bool :=
  match xml.token with
  | Token.characters _ => true
  | _ => false

/-- Model of `text`. -/
def text (xml : QXmlStreamReader) : QString :=
  match xml.token with
  | Token.characters t => t
  | Token.entityReference _ t => t
  | _ => []

/-- Model of `isWhitespace`: character data made of XML white space only
(space, tab, line feed, carriage return). Character data from a CDATA section
is not told apart; the callers trim the text and test it for emptiness, which
gives the same outcome for it. -/
def isWhitespace (xml : QXmlStreamReader) : Bool :=
  xml.isCharacters &&
    xml.text.all (fun c => c == ' ' || c == '\t' || c == '\n' || c == '\r')

/-- Model of `name`: the name of a start or end element, else empty. -/
def name (xml : QXmlStreamReader) : QString :=
  match xml.token with
  | Token.startElement n _ => n
  | Token.endElement n => n
  | _ => []

/-- Model of `attributes`. -/
def attributes (xml : QXmlStreamReader) : QXmlStreamAttributes :=
  match xml.token with
  | Token.startElement _ as => as
  | _ => []

/-- The loop of `readElementText` (behaviour `ErrorOnUnexpectedElement`): each
round reads one token; character data and entity references are appended,
comments and processing instructions skipped, the end element returns, and
anything else (a child element, the end of the input) raises an error. -/
def readElementTextLoop : List Token → QString → QString × QXmlStreamReader
  | [], result => (result, ⟨Token.invalid, []⟩)
  | t :: ts, result =>
    match t with
    | Token.characters text => readElementTextLoop ts (result ++ text)
    | Token.entityReference _ text => readElementTextLoop ts (result ++ text)
    | Token.endElement _ => (result, ⟨t, ts⟩)
    | Token.processingInstruction => readElementTextLoop ts result
    | Token.comment => readElementTextLoop ts result
    | _ => (result, ⟨Token.invalid, ts⟩)

/-- Model of `readElementText`: the text read and the reader afterwards. -/
def readElementText (xml : QXmlStreamReader) : QString × QXmlStreamReader :=
  if xml.isStartElement then readElementTextLoop xml.pending [] else ([], xml)

end QXmlStreamReader

/-! ## moduleclassifier: analyzeFile -/

/-- The four local strings of `ModuleAnalyzer::analyzeFile`. -/
structure Fields where
  groupOwner : QString
  classification : QString
  type : QString
  moduleName : QString
  deriving DecidableEq

/-- The `while (!xml.atEnd())` loop of `ModuleAnalyzer::analyzeFile`; `fuel`
bounds the number of rounds. -/
def analyzeLoop : Nat → QXmlStreamReader → Fields → QXmlStreamReader × Fields
  | 0, xml, f => (xml, f)
  | fuel + 1, xml, f =>
    if xml.atEnd then (xml, f)
    else
      let xml := xml.readNext
      if xml.isStartElement then
        let elementName := xml.name
        if elementName = "GroupOwner".toList then
          let r := xml.readElementText
          analyzeLoop fuel r.2 { f with groupOwner := trimmed r.1 }
        else if elementName = "classification".toList then
          let r := xml.readElementText
          analyzeLoop fuel r.2 { f with classification := trimmed r.1 }
        else if elementName = "type".toList then
          let r := xml.readElementText
          analyzeLoop fuel r.2 { f with type := trimmed r.1 }
        else if elementName = "module".toList then
          let attributes := xml.attributes
          if hasAttribute attributes "name".toList then
            analyzeLoop fuel xml
              { f with moduleName := trimmed (attributeValue attributes "name".toList) }
          else analyzeLoop fuel xml f
        else analyzeLoop fuel xml f
      else analyzeLoop fuel xml f

/-- The reader and the four strings when the loop of `analyzeFile` has run
over a file with the given tokens. One round reads at least one token, so
`tokens.length + 1` rounds are enough. -/
def scanFile (tokens : List Token) : QXmlStreamReader × Fields :=
  analyzeLoop (tokens.length + 1) (QXmlStreamReader.onFile tokens) ⟨[], [], [], []⟩

/-- State of a `ModuleAnalyzer`. -/
structure ModuleAnalyzer where
  hierarchy : Hierarchy
  incompleteCount : Int
  deriving DecidableEq

/-- The constructor `ModuleAnalyzer()`. -/
def ModuleAnalyzer.new : ModuleAnalyzer := ⟨QMap.empty, 0⟩

/-- The placeholder substitution of `analyzeFile` for one field: the value and
the `hasIssues` flag after the `if (field.isEmpty())` block. -/
def orPlaceholder (field placeholder : QString) (hasIssues : Bool) : QString × Bool :=
  if field.isEmpty then (placeholder, true) else (field, hasIssues)

/-- Model of `ModuleAnalyzer::analyzeFile`. `file` is `none` when the file
cannot be opened, else the tokens the reader reports for it. The warnings
written to `stderr` are left out. -/
def ModuleAnalyzer.analyzeFile (self : ModuleAnalyzer) (file : Option (List Token)) :
    ModuleAnalyzer :=
  match file with
  | none => self
  | some tokens =>
    let f := (scanFile tokens).2
    let hasIssues := false
    let g := orPlaceholder f.groupOwner "(no GroupOwner)".toList hasIssues
    let c := orPlaceholder f.classification "(no classification)".toList g.2
    let t := orPlaceholder f.type "(no type)".toList c.2
    let m := orPlaceholder f.moduleName "(no module name)".toList t.2
    let incompleteCount :=
      if m.2 then wrapInt (self.incompleteCount + 1) else self.incompleteCount
    { hierarchy := addToHierarchy self.hierarchy g.1 c.1 t.1 m.1,
      incompleteCount := incompleteCount }

/-- The key tuple `analyzeFile` passes to `addToHierarchy` for a file. -/
def keyTuple (tokens : List Token) : KeyTuple :=
  let f := (scanFile tokens).2
  ((orPlaceholder f.groupOwner "(no GroupOwner)".toList false).1,
   (orPlaceholder f.classification "(no classification)".toList false).1,
   (orPlaceholder f.type "(no type)".toList false).1,
   (orPlaceholder f.moduleName "(no module name)".toList false).1)

/-- Running `analyzeFile` over a list of files, in order. -/
def ModuleAnalyzer.analyzeFiles (self : ModuleAnalyzer) (files : List (Option (List Token))) :
    ModuleAnalyzer :=
  files.foldl ModuleAnalyzer.analyzeFile self

/-- The stored count at a full key path, zero when the path does not exist. -/
def leafCount (h : Hierarchy) (k : KeyTuple) : Int :=
  (((h.value k.1 QMap.empty).value k.2.1 QMap.empty).value k.2.2.1 QMap.empty).value k.2.2.2 0

/-! ## modulenavigator: document tree and parser -/

/-- Model of class `XmlElement`; a node owns its children. -/
inductive XmlElement where
  | mk (name : QString) (text : QString) (attributes : QMap QString QString)
      (children : List XmlElement)

namespace XmlElement

/-- Field `name`. -/
def name : XmlElement → QString
  | mk n _ _ _ => n

/-- Field `text`. -/
def text : XmlElement → QString
  | mk _ t _ _ => t

/-- Field `attributes`. -/
def attributes : XmlElement → QMap QString QString
  | mk _ _ a _ => a

/-- Field `children`. -/
def children : XmlElement → List XmlElement
  | mk _ _ _ c => c

/-- The assignment `element->text = text`. -/
def setText : XmlElement → QString → XmlElement
  | mk n _ a c, t => mk n t a c

/-- The call `element->children.append(child)`. -/
def appendChild : XmlElement → XmlElement → XmlElement
  | mk n t a c, child => mk n t a (c ++ [child])

end XmlElement

/-- The attribute map built by the `for` loop of `parseXmlElement`: of two
attributes with one name the later one stays. -/
def attributeMap (attrs : QXmlStreamAttributes) : QMap QString QString :=
  attrs.foldl (fun m a => m.insert a.1 a.2) QMap.empty

/-- The element `parseXmlElement` creates before its loop. -/
def newElement (xml : QXmlStreamReader) : XmlElement :=
  XmlElement.mk xml.name [] (attributeMap xml.attributes) []

/-- The `while (!xml.atEnd())` loop of `parseXmlElement`, on the element built
so far. The recursive call of `parseXmlElement` for a child is the loop on a
new element. `fuel` bounds the number of rounds, nested ones included. -/
def parseXmlElementLoop : Nat → QXmlStreamReader → XmlElement → XmlElement × QXmlStreamReader
  | 0, xml, element => (element, xml)
  | fuel + 1, xml, element =>
    if xml.atEnd then (element, xml)
    else
      let xml := xml.readNext
      if xml.isEndElement then (element, xml)
      else if xml.isStartElement then
        let r := parseXmlElementLoop fuel xml (newElement xml)
        parseXmlElementLoop fuel r.2 (element.appendChild r.1)
      else if xml.isCharacters && !xml.isWhitespace then
        let text := trimmed xml.text
        if !text.isEmpty then parseXmlElementLoop fuel xml (element.setText text)
        else parseXmlElementLoop fuel xml element
      else parseXmlElementLoop fuel xml element

/-- Model of `ModuleViewer::parseXmlElement`, called with the reader on a start
element: the element and the reader afterwards. One round reads at least one
token, so `pending.length + 1` rounds are enough. -/
def parseXmlElement (xml : QXmlStreamReader) : XmlElement × QXmlStreamReader :=
  parseXmlElementLoop (xml.pending.length + 1) xml (newElement xml)

/-- Model of class `ModuleData`; `rootElement` is `none` for the null pointer. -/
structure ModuleData where
  groupOwner : QString
  classification : QString
  moduleName : QString
  relativePath : QString
  rootElement : Option XmlElement

/-- Model of `ModuleViewer::extractTopLevelFields`. -/
def extractTopLevelFields (root : Option XmlElement) (data : ModuleData) : ModuleData :=
  match root with
  | none => data
  | some root =>
    root.children.foldl
      (fun data child =>
        if child.name = "GroupOwner".toList then { data with groupOwner := child.text }
        else if child.name = "classification".toList then
          { data with classification := child.text }
        else data)
      data

/-- The `while (!xml.atEnd())` loop of `parseModuleFile`; it is left at the
first start element named `module`. -/
def parseModuleLoop : Nat → QXmlStreamReader → ModuleData → ModuleData
  | 0, _, data => data
  | fuel + 1, xml, data =>
    if xml.atEnd then data
    else
      let xml := xml.readNext
      if xml.isStartElement then
        let elementName := xml.name
        if elementName = "module".toList then
          let rootElement := (parseXmlElement xml).1
          let data := { data with rootElement := some rootElement }
          let data :=
            if rootElement.attributes.contains "name".toList then
              { data with moduleName := rootElement.attributes.value "name".toList [] }
            else data
          extractTopLevelFields data.rootElement data
        else parseModuleLoop fuel xml data
      else parseModuleLoop fuel xml data

/-- The part of the state of a `ModuleViewer` that `parseModuleFile` writes. -/
structure ModuleViewer where
  modules : List ModuleData

/-- The `ModuleData` that `parseModuleFile` builds for an opened file:
`relativeFilePath` is the path of the file relative to the root directory. -/
def parseModuleData (relativeFilePath : QString) (tokens : List Token) : ModuleData :=
  let data : ModuleData :=
    { groupOwner := [], classification := [], moduleName := [],
      relativePath := chop relativeFilePath 12, rootElement := none }
  let data := parseModuleLoop (tokens.length + 1) (QXmlStreamReader.onFile tokens) data
  let data :=
    if data.groupOwner.isEmpty then { data with groupOwner := "(no GroupOwner)".toList }
    else data
  let data :=
    if data.classification.isEmpty then
      { data with classification := "(no classification)".toList }
    else data
  if data.moduleName.isEmpty then { data with moduleName := "(no name)".toList } else data

/-- Model of `ModuleViewer::parseModuleFile`; `file` is `none` when the file
cannot be opened. -/
def ModuleViewer.parseModuleFile (self : ModuleViewer) (relativeFilePath : QString)
    (file : Option (List Token)) : ModuleViewer :=
  match file with
  | none => self
  | some tokens => { modules := self.modules ++ [parseModuleData relativeFilePath tokens] }

/-! ## Auxiliary definitions: writes and sums on a QMap -/

/-- Sum of a weight `f` over the values of an entry list. -/
def sumBy {K V : Type} (f : V → Int) (l : List (K × V)) : Int :=
  (l.map (fun e => f e.2)).sum

/-- The write `map[k] = f(map[k])`, reading the default `dflt` for a key
that is not in the map. -/
def QMap.update {K V : Type} [LinearOrder K] (m : QMap K V) (k : K) (dflt : V) (f : V → V) :
    QMap K V :=
  m.insert k (f (m.value k dflt))

/-- The value of an `int` counter that held `v` after `n` increments. -/
def counted (v : Int) (n : Nat) : Int := if n = 0 then v else wrapInt (v + n)

/-- An `int` that holds `v` can be incremented `n` times without leaving the
range of `int`: `v` is in the range and `v + n` is at most `INT_MAX`. -/
def hasRoom (v : Int) (n : Nat) : Prop := -2147483648 ≤ v ∧ v + n ≤ 2147483647

instance (v : Int) (n : Nat) : Decidable (hasRoom v n) := by
  unfold hasRoom
  infer_instance

/-- A key tuple used in examples. -/
def sampleTuple : KeyTuple :=
  ("hw".toList, "Driver".toList, "Element".toList, "devc".toList)

/-- Another key tuple used in examples. -/
def otherTuple : KeyTuple :=
  ("os".toList, "Runtime".toList, "Element".toList, "libc".toList)

/-- The increment `addToHierarchy` applies to the module map of a type. -/
def bumpModule (moduleName : QString) (mm : ModuleMap) : ModuleMap :=
  mm.update moduleName 0 (fun n => wrapInt (n + 1))

/-- The change `addToHierarchy` makes to the type map of a classification. -/
def bumpType (type moduleName : QString) (tm : TypeMap) : TypeMap :=
  tm.update type QMap.empty (bumpModule moduleName)

/-- The change `addToHierarchy` makes to the classification map of an owner. -/
def bumpClass (classification type moduleName : QString) (cm : ClassificationMap) :
    ClassificationMap :=
  cm.update classification QMap.empty (bumpType type moduleName)

/-! ## Auxiliary definitions: totals at the levels of the hierarchy -/

/-- Total below an owner: `calculateTotal(hierarchy[o])`. -/
def ownerTotal (h : Hierarchy) (o : QString) : Int :=
  calculateTotal3 (h.value o QMap.empty)

/-- Total below a classification: `calculateTotal(hierarchy[o][c])`. -/
def classTotal (h : Hierarchy) (o c : QString) : Int :=
  calculateTotal2 ((h.value o QMap.empty).value c QMap.empty)

/-- Total below a type: `calculateTotal(hierarchy[o][c][t])`. -/
def typeTotal (h : Hierarchy) (o c t : QString) : Int :=
  calculateTotal1 (((h.value o QMap.empty).value c QMap.empty).value t QMap.empty)

/-! ## Auxiliary definitions: classes of tokens -/

/-- A token after which reading goes on: neither `Invalid` nor `EndDocument`. -/
def Token.live : Token → Bool
  | Token.invalid => false
  | Token.endDocument => false
  | _ => true

/-- A start element with the given name. -/
def Token.isStartOf (name : QString) : Token → Bool
  | Token.startElement n _ => decide (n = name)
  | _ => false

/-- A start element of any name. -/
def Token.isStart : Token → Bool
  | Token.startElement _ _ => true
  | _ => false

/-- A token that the scan of `analyzeFile` reads without touching the owner,
classification or type string and without stopping. -/
def Token.inert (t : Token) : Bool :=
  t.live && !t.isStartOf "GroupOwner".toList && !t.isStartOf "classification".toList &&
    !t.isStartOf "type".toList

/-! ## Example descriptors -/

/-- The descriptor `<module name="foo"/>`: a root without children. -/
def fooDoc : List Token :=
  [Token.startDocument,
   Token.startElement "module".toList [("name".toList, "foo".toList)],
   Token.endElement "module".toList,
   Token.endDocument]

/-- A descriptor with a `GroupOwner` element two levels below the root:
`<module name="m"><supports><GroupOwner>deep</GroupOwner></supports></module>`. -/
def nestedOwnerDoc : List Token :=
  [Token.startDocument,
   Token.startElement "module".toList [("name".toList, "m".toList)],
   Token.startElement "supports".toList [],
   Token.startElement "GroupOwner".toList [],
   Token.characters "deep".toList,
   Token.endElement "GroupOwner".toList,
   Token.endElement "supports".toList,
   Token.endElement "module".toList,
   Token.endDocument]

/-- The same descriptor without the nested `GroupOwner` element:
`<module name="m"><supports></supports></module>`. -/
def noOwnerDoc : List Token :=
  [Token.startDocument,
   Token.startElement "module".toList [("name".toList, "m".toList)],
   Token.startElement "supports".toList [],
   Token.endElement "supports".toList,
   Token.endElement "module".toList,
   Token.endDocument]

/-- A complete descriptor:
`<module name="devc-ser"><type>Element</type><classification>Driver</classification>
<GroupOwner>hw</GroupOwner></module>`. -/
def completeDoc : List Token :=
  [Token.startDocument,
   Token.startElement "module".toList [("name".toList, "devc-ser".toList)],
   Token.startElement "type".toList [],
   Token.characters "Element".toList,
   Token.endElement "type".toList,
   Token.startElement "classification".toList [],
   Token.characters "Driver".toList,
   Token.endElement "classification".toList,
   Token.startElement "GroupOwner".toList [],
   Token.characters "hw".toList,
   Token.endElement "GroupOwner".toList,
   Token.endElement "module".toList,
   Token.endDocument]

/-- A descriptor that breaks off inside a tag,
`<module name="libc"><GroupOwner>os</Gro`: the reader reports the tokens up to
the text and then a premature end of the document. -/
def truncatedDoc : List Token :=
  [Token.startDocument,
   Token.startElement "module".toList [("name".toList, "libc".toList)],
   Token.startElement "GroupOwner".toList [],
   Token.characters "os".toList]

/-! ## Auxiliary definitions: the navigator -/

/-- The element with its child list replaced. -/
def XmlElement.setChildren : XmlElement → List XmlElement → XmlElement
  | XmlElement.mk n t a _, c => XmlElement.mk n t a c

/-- The loop body of `extractTopLevelFields`. -/
def extractStep (data : ModuleData) (child : XmlElement) : ModuleData :=
  if child.name = "GroupOwner".toList then { data with groupOwner := child.text }
  else if child.name = "classification".toList then
    { data with classification := child.text }
  else data

/-- A descriptor that breaks off inside the second child of the root:
`<module name="foo"><GroupOwner>hw</GroupOwner><classification>Dri`. -/
def brokenModuleDoc : List Token :=
  [Token.startDocument,
   Token.startElement "module".toList [("name".toList, "foo".toList)],
   Token.startElement "GroupOwner".toList [],
   Token.characters "hw".toList,
   Token.endElement "GroupOwner".toList,
   Token.startElement "classification".toList [],
   Token.characters "Dri".toList]

/-- The `ModuleData` as `parseModuleFile` creates it, before the file is read. -/
def blankData (relativeFilePath : QString) : ModuleData :=
  { groupOwner := [], classification := [], moduleName := [],
    relativePath := chop relativeFilePath 12, rootElement := none }

/-- The element `parseXmlElement` returns for a `module` start element with
the attributes `attrs`, followed by the tokens `post`. -/
def moduleRoot (attrs : QXmlStreamAttributes) (post : List Token) : XmlElement :=
  (parseXmlElement ⟨Token.startElement "module".toList attrs, post⟩).1

/-! ## Well-nested element content -/

/-- Well-nested element content as it stands in a file: a character-data run,
a comment, or a child element with its own content. -/
inductive Item where
  | text (s : QString)
  | comment
  | elem (name : QString) (attrs : QXmlStreamAttributes) (content : List Item)

mutual
/-- The tokens the reader reports for an item. -/
def Item.tokens : Item → List Token
  | Item.text s => [Token.characters s]
  | Item.comment => [Token.comment]
  | Item.elem n as c => Token.startElement n as :: (Item.tokensList c ++ [Token.endElement n])
/-- The tokens the reader reports for a content list. -/
def Item.tokensList : List Item → List Token
  | [] => []
  | i :: is => i.tokens ++ Item.tokensList is
end

/-- A character-data run that `parseXmlElement` stores: not XML white space
only, and not empty after trimming. -/
def significant (s : QString) : Bool :=
  !(s.all (fun c => c == ' ' || c == '\t' || c == '\n' || c == '\r')) && !(trimmed s).isEmpty

mutual
/-- The element after one item of its content has been read. -/
def Item.absorb : Item → XmlElement → XmlElement
  | Item.text s, element => if significant s then element.setText (trimmed s) else element
  | Item.comment, element => element
  | Item.elem n as c, element =>
    element.appendChild (Item.absorbList c (XmlElement.mk n [] (attributeMap as) []))
/-- The element after a content list has been read. -/
def Item.absorbList : List Item → XmlElement → XmlElement
  | [], element => element
  | i :: is, element => Item.absorbList is (i.absorb element)
end

/-- The last token the reader reports for an item. -/
def Item.endToken : Item → Token
  | Item.text s => Token.characters s
  | Item.comment => Token.comment
  | Item.elem n _ _ => Token.endElement n

/-- The current token of the reader after a content list has been read. -/
def Item.lastToken : Token → List Item → Token
  | tok, [] => tok
  | _, i :: is => Item.lastToken i.endToken is

/-- An item that is a character-data run `parseXmlElement` stores. -/
def Item.isRun : Item → Bool
  | Item.text s => significant s
  | _ => false

/-! ## modulexmlcollector: analyzeFile -/

/-- State of an `XmlAnalyzer`: the four maps of the schema index. -/
structure XmlAnalyzer where
  elementCounts : QMap QString Int
  attributeCounts : QMap QString Int
  elementChildren : QMap QString (QMap QString Int)
  elementAttributes : QMap QString (QMap QString Int)
  deriving DecidableEq

/-- The constructor `XmlAnalyzer()`. -/
def XmlAnalyzer.new : XmlAnalyzer := ⟨QMap.empty, QMap.empty, QMap.empty, QMap.empty⟩

/-- The counting pattern of `XmlAnalyzer::analyzeFile`:
`if (map.contains(k)) map[k] = map[k] + 1; else map[k] = 1;`. -/
def countOne (map : QMap QString Int) (k : QString) : QMap QString Int :=
  if map.contains k then map.insert k (wrapInt (map.value k 0 + 1)) else map.insert k 1

/-- The counting pattern on an inner map: the inner map of `outer` is created
when it is missing, then `inner` is counted in it through the reference. -/
def countPair (map : QMap QString (QMap QString Int)) (outer inner : QString) :
    QMap QString (QMap QString Int) :=
  let map := if !map.contains outer then map.insert outer QMap.empty else map
  let innerMap := map.value outer QMap.empty
  map.insert outer (countOne innerMap inner)

/-- One round of the attribute loop of `XmlAnalyzer::analyzeFile`. -/
def XmlAnalyzer.countAttribute (elementName : QString) (self : XmlAnalyzer)
    (attr : QString × QString) : XmlAnalyzer :=
  let attrName := attr.1
  { self with
    attributeCounts := countOne self.attributeCounts attrName,
    elementAttributes := countPair self.elementAttributes elementName attrName }

/-- The body of the `while` loop of `XmlAnalyzer::analyzeFile` after
`readNext`, on the element stack (top first) and the analyzer. -/
def XmlAnalyzer.analyzeToken (xml : QXmlStreamReader)
    (state : List QString × XmlAnalyzer) : List QString × XmlAnalyzer :=
  let elementStack := state.1
  let self := state.2
  if xml.isStartElement then
    let elementName := xml.name
    let self := { self with elementCounts := countOne self.elementCounts elementName }
    let self :=
      match elementStack with
      | [] => self
      | parentElement :: _ =>
        { self with
          elementChildren := countPair self.elementChildren parentElement elementName }
    let self := xml.attributes.foldl (XmlAnalyzer.countAttribute elementName) self
    (elementName :: elementStack, self)
  else if xml.isEndElement then
    match elementStack with
    | [] => (elementStack, self)
    | _ :: rest => (rest, self)
  else (elementStack, self)

/-- The `while (!xml.atEnd())` loop of `XmlAnalyzer::analyzeFile`; `fuel`
bounds the number of rounds. -/
def xmlAnalyzeLoop : Nat → QXmlStreamReader → List QString × XmlAnalyzer →
    List QString × XmlAnalyzer
  | 0, _, state => state
  | fuel + 1, xml, state =>
    if xml.atEnd then state
    else
      let xml := xml.readNext
      xmlAnalyzeLoop fuel xml (XmlAnalyzer.analyzeToken xml state)

/-- Model of `XmlAnalyzer::analyzeFile`. `file` is `none` when the file cannot
be opened, else the tokens the reader reports for it. One round reads one
token, so `tokens.length + 1` rounds are enough. -/
def XmlAnalyzer.analyzeFile (self : XmlAnalyzer) (file : Option (List Token)) : XmlAnalyzer :=
  match file with
  | none => self
  | some tokens =>
    (xmlAnalyzeLoop (tokens.length + 1) (QXmlStreamReader.onFile tokens) ([], self)).2

/-- Running `XmlAnalyzer::analyzeFile` over a list of files, in order. -/
def XmlAnalyzer.analyzeFiles (self : XmlAnalyzer) (files : List (Option (List Token))) :
    XmlAnalyzer :=
  files.foldl XmlAnalyzer.analyzeFile self

/-- The document `<a><b/><b/></a>` as the reader reports it. -/
def abbDoc : List Token :=
  [Token.startDocument,
   Token.startElement "a".toList [],
   Token.startElement "b".toList [], Token.endElement "b".toList,
   Token.startElement "b".toList [], Token.endElement "b".toList,
   Token.endElement "a".toList,
   Token.endDocument]

/-! ## Auxiliary definitions: the schema index -/

/-- The tokens a `while (!xml.atEnd())` loop reads one per round: those before
the first `Invalid` or `EndDocument`. -/
def readTokens (tokens : List Token) : List Token := tokens.takeWhile Token.live

/-- The loop body of `XmlAnalyzer::analyzeFile` as a function of the token
read. -/
def observe (state : List QString × XmlAnalyzer) (t : Token) : List QString × XmlAnalyzer :=
  XmlAnalyzer.analyzeToken ⟨t, []⟩ state

/-- The tokens of a well-formed document with the content `doc` (the root
element, possibly among comments). -/
def documentTokens (doc : List Item) : List Token :=
  Token.startDocument :: (Item.tokensList doc ++ [Token.endDocument])

mutual
/-- Number of elements named `n` in an item, the item itself included. -/
def Item.countElements (n : QString) : Item → Nat
  | Item.text _ => 0
  | Item.comment => 0
  | Item.elem n' _ c => (if n' = n then 1 else 0) + Item.countElementsList n c
/-- Number of elements named `n` in a content list. -/
def Item.countElementsList (n : QString) : List Item → Nat
  | [] => 0
  | i :: is => i.countElements n + Item.countElementsList n is
end

mutual
/-- Number of elements named `c` in an item whose immediate parent is named
`p`; `parent` is the name of the element that holds the item, if any. -/
def Item.countPairs (p c : QString) : Option QString → Item → Nat
  | _, Item.text _ => 0
  | _, Item.comment => 0
  | parent, Item.elem n _ content =>
    (if parent = some p ∧ n = c then 1 else 0) + Item.countPairsList p c (some n) content
/-- The same count over a content list. -/
def Item.countPairsList (p c : QString) : Option QString → List Item → Nat
  | _, [] => 0
  | parent, i :: is => i.countPairs p c parent + Item.countPairsList p c parent is
end

/-- The count stored for the pair parent `p`, child `c`:
`elementChildren[p][c]`, zero when there is no entry. -/
def XmlAnalyzer.pairCount (self : XmlAnalyzer) (p c : QString) : Int :=
  (self.elementChildren.value p QMap.empty).value c 0

/-- Number of attributes named `a` on a token. -/
def Token.attributeCount (a : QString) : Token → Nat
  | Token.startElement _ as => as.countP (fun x => decide (x.1 = a))
  | _ => 0

/-- Number of attribute occurrences named `a` on the tokens read of a file. -/
def attributeOccurrences (a : QString) (file : Option (List Token)) : Nat :=
  match file with
  | none => 0
  | some tokens => ((readTokens tokens).map (Token.attributeCount a)).sum

/-- The content of the document `<a><b/><b/></a>`. -/
def abbContent : List Item :=
  [Item.elem "a".toList [] [Item.elem "b".toList [] [], Item.elem "b".toList [] []]]

/-- Sum over all element names `e` of `elementAttributes[e][a]`. -/
def XmlAnalyzer.attributeSum (self : XmlAnalyzer) (a : QString) : Int :=
  sumBy (fun m : QMap QString Int => m.value a 0) self.elementAttributes.entries

/-- The content of a document with a root `a` that holds `n` empty elements
`b`: `<a><b/>...<b/></a>`. -/
def wideContent (n : Nat) : List Item :=
  [Item.elem "a".toList [] (List.replicate n (Item.elem "b".toList [] []))]

/-- The counts of the attribute `a` agree: no count of `a` is negative, and
the global count is the sum of the counts per element. -/
def XmlAnalyzer.agrees (self : XmlAnalyzer) (a : QString) : Prop :=
  0 ≤ self.attributeCounts.value a 0 ∧
  self.attributeSum a = self.attributeCounts.value a 0 ∧
  ∀ e ∈ self.elementAttributes.entries, 0 ≤ e.2.value a 0

/-! ## Auxiliary definitions: incomplete documents -/

/-- A document without a `module` element: `<project></project>`. -/
def noModuleDoc : List Token :=
  [Token.startDocument,
   Token.startElement "project".toList [],
   Token.endElement "project".toList,
   Token.endDocument]

/-! ## Auxiliary definitions: element trees as token streams -/

mutual
/-- The start/characters/end token stream of an element tree: the start
element with the attributes of the node, its text as one character-data run
(none when the text is empty), the streams of the children in order, and the
end element. -/
def XmlElement.tokens : XmlElement → List Token
  | XmlElement.mk n t a cs =>
    Token.startElement n a.entries ::
      ((if t.isEmpty then [] else [Token.characters t]) ++
        (XmlElement.tokensOfList cs ++ [Token.endElement n]))
/-- The token streams of a list of element trees, one after the other. -/
def XmlElement.tokensOfList : List XmlElement → List Token
  | [] => []
  | c :: cs => c.tokens ++ XmlElement.tokensOfList cs
end

mutual
/-- An element tree as well-nested content. -/
def XmlElement.toItem : XmlElement → Item
  | XmlElement.mk n t a cs =>
    Item.elem n a.entries ((if t.isEmpty then [] else [Item.text t]) ++ XmlElement.toItems cs)
/-- A list of element trees as a content list. -/
def XmlElement.toItems : List XmlElement → List Item
  | [] => []
  | c :: cs => c.toItem :: XmlElement.toItems cs
end

mutual
/-- The tree with the text of every node as `parseXmlElement` stores it:
trimmed, and empty when the run is white space only. -/
def XmlElement.stored : XmlElement → XmlElement
  | XmlElement.mk n t a cs =>
    XmlElement.mk n (if significant t then trimmed t else []) a (XmlElement.storedList cs)
/-- The stored form of a list of element trees. -/
def XmlElement.storedList : List XmlElement → List XmlElement
  | [] => []
  | c :: cs => c.stored :: XmlElement.storedList cs
end

mutual
/-- A tree in which the text of every node is empty or a trimmed run that is
not white space only. -/
def XmlElement.normal : XmlElement → Bool
  | XmlElement.mk _ t _ cs =>
    (t.isEmpty || (significant t && decide (trimmed t = t))) && XmlElement.normalList cs
/-- All trees of a list are normal. -/
def XmlElement.normalList : List XmlElement → Bool
  | [] => true
  | c :: cs => c.normal && XmlElement.normalList cs
end

/-- The element `<a> x </a>`: one text run with white space around it. -/
def paddedElement : XmlElement :=
  XmlElement.mk "a".toList " x ".toList QMap.empty []

/-- The element `<module name="m"><type>Element</type><GroupOwner>hw</GroupOwner></module>`. -/
def sampleElement : XmlElement :=
  XmlElement.mk "module".toList [] (attributeMap [("name".toList, "m".toList)])
    [XmlElement.mk "type".toList "Element".toList QMap.empty [],
     XmlElement.mk "GroupOwner".toList "hw".toList QMap.empty []]

/-! ## Auxiliary definitions: white space in content -/

/-- A character-data item the reader reports as white space only. -/
def Item.isWhitespace : Item → Bool
  | Item.text s => s.all (fun c => c == ' ' || c == '\t' || c == '\n' || c == '\r')
  | _ => false

/-- A character-data item. -/
def Item.isText : Item → Bool
  | Item.text _ => true
  | _ => false

mutual
/-- The item without the whitespace-only character data inside it. -/
def Item.strip : Item → Item
  | Item.text s => Item.text s
  | Item.comment => Item.comment
  | Item.elem n as c => Item.elem n as (Item.stripList c)
/-- The content list without its whitespace-only character data, at every
depth. -/
def Item.stripList : List Item → List Item
  | [] => []
  | i :: is => if i.isWhitespace then Item.stripList is else i.strip :: Item.stripList is
end

/-! ## Reports

`printHierarchy` of the classifier and `printResults` of the collector write
to a `QTextStream` on standard output.  The stream is modelled by the list of
lines it has received; a member function that is not `const` returns the
object it leaves behind next to its output. -/

/-- Decimal text a `QTextStream` writes for an `int`. -/
def number (n : Int) : QString := (toString n).toList

/-- Text written under `qSetFieldWidth(width) << left`: padded with spaces on
the right up to the field width. -/
def leftField (width : Nat) (s : QString) : QString :=
  s ++ List.replicate (width - s.length) ' '

/-- The string `QString(n, c)`. -/
def fill (n : Nat) (c : Char) : QString := List.replicate n c

/-- The non-const `QMap::operator[]`: a reference to the value stored under
`k`, after a default-constructed value has been inserted when the key was
absent.  The map it leaves behind is returned next to the value. -/
def QMap.index {K V : Type} [LinearOrder K] (m : QMap K V) (k : K) (dflt : V) :
    V × QMap K V :=
  if m.contains k then (m.value k dflt, m) else (dflt, m.insert k dflt)

/-- `ModuleAnalyzer::printHierarchy` (moduleclassifier.cpp, lines 97-171):
the lines written and the analyzer afterwards. -/
def ModuleAnalyzer.printHierarchy (self : ModuleAnalyzer) : List QString × ModuleAnalyzer :=
  let out : List QString :=
    if self.incompleteCount > 0 then
      [[], "WARNING: Found ".toList ++ number self.incompleteCount
            ++ " file(s) with incomplete data (see warnings above).".toList, []]
    else []
  let out := out ++ [fill 80 '=', "MODULE HIERARCHY".toList, fill 80 '=', []]
  let out := self.hierarchy.entries.foldl (fun out ownerIter =>
    let groupOwner := ownerIter.1
    let classificationMap := ownerIter.2
    let ownerTotal := calculateTotal3 classificationMap
    let out := out ++ [groupOwner ++ " [".toList ++ number ownerTotal ++ "]".toList]
    let out := classificationMap.entries.foldl (fun out classIter =>
      let classification := classIter.1
      let typeMap := classIter.2
      let classTotal := calculateTotal2 typeMap
      let out := out ++ ["  ".toList ++ classification ++ " [".toList ++ number classTotal
        ++ "]".toList]
      typeMap.entries.foldl (fun out typeIter =>
        let type := typeIter.1
        let moduleMap := typeIter.2
        let typeTotal := calculateTotal1 moduleMap
        let out := out ++ ["    ".toList ++ type ++ " [".toList ++ number typeTotal
          ++ "]".toList]
        moduleMap.entries.foldl (fun out moduleIter =>
          let moduleName := moduleIter.1
          let count := moduleIter.2
          out ++ ["      ".toList ++ moduleName ++ " [".toList ++ number count
            ++ "]".toList]) out) out) out
    out ++ [[]]) out
  (out ++ [fill 80 '='], self)

/-- One `name: n instances` line of `printResults`, the name written in a
left-aligned field after the given lead. -/
def countLine (lead : QString) (width : Nat) (e : QString × Int) : QString :=
  lead ++ leftField width e.1 ++ ": ".toList ++ number e.2 ++ " instances".toList

/-- `XmlAnalyzer::printResults` (modulexmlcollector.cpp, lines 103-208): the
lines written and the analyzer afterwards.  `elementAttributes[parentElement]`
is the non-const `operator[]`, so the map is threaded through the loop. -/
def XmlAnalyzer.printResults (self : XmlAnalyzer) : List QString × XmlAnalyzer :=
  let out : List QString := [fill 70 '=', "XML ANALYSIS RESULTS".toList, fill 70 '=', []]
  let out := out ++ ["ALL XML ELEMENTS DISCOVERED:".toList, fill 70 '-']
  let out := self.elementCounts.entries.foldl (fun out elemIter =>
    out ++ [countLine [] 40 elemIter]) out
  let out := out ++ [[]]
  let out := out ++ ["ALL ATTRIBUTES DISCOVERED:".toList, fill 70 '-']
  let out := self.attributeCounts.entries.foldl (fun out attrIter =>
    out ++ [countLine [] 40 attrIter]) out
  let out := out ++ [[]]
  let out := out ++ ["HIERARCHICAL STRUCTURE:".toList, fill 70 '-']
  let state := self.elementChildren.entries.foldl
    (fun (state : List QString × QMap QString (QMap QString Int)) parentIter =>
      let out := state.1
      let elementAttributes := state.2
      let parentElement := parentIter.1
      let children := parentIter.2
      let out := out ++ [[], "Element: ".toList ++ parentElement]
      let out :=
        if ¬ children.entries.isEmpty then
          children.entries.foldl (fun out childIter =>
            out ++ [countLine "    - ".toList 35 childIter])
            (out ++ ["  Contains child elements:".toList])
        else out
      if elementAttributes.contains parentElement then
        let indexed := elementAttributes.index parentElement QMap.empty
        let attrs := indexed.1
        let elementAttributes := indexed.2
        let out :=
          if ¬ attrs.entries.isEmpty then
            attrs.entries.foldl (fun out attrIt =>
              out ++ [countLine "    @ ".toList 35 attrIt])
              (out ++ ["  Has attributes:".toList])
          else out
        (out, elementAttributes)
      else (out, elementAttributes))
    (out, self.elementAttributes)
  let out := state.1
  let elementAttributes := state.2
  let out := elementAttributes.entries.foldl (fun out parentIter =>
    let elementName := parentIter.1
    if self.elementChildren.contains elementName then out
    else
      let attrs := parentIter.2
      let out := out ++ [[], "Element: ".toList ++ elementName]
      if ¬ attrs.entries.isEmpty then
        attrs.entries.foldl (fun out attrIt =>
          out ++ [countLine "    @ ".toList 35 attrIt])
          (out ++ ["  Has attributes:".toList])
      else out) out
  let out := out ++ [[], fill 70 '=', "SUMMARY:".toList,
    "  Total unique elements: ".toList ++ number self.elementCounts.size,
    "  Total unique attributes: ".toList ++ number self.attributeCounts.size,
    fill 70 '=']
  (out, { self with elementAttributes := elementAttributes })

/-- Line written for one module name under a type. -/
def moduleLine (e : QString × Int) : QString :=
  "      ".toList ++ e.1 ++ " [".toList ++ number e.2 ++ "]".toList

/-- Lines written for one type: its own line, then its module names. -/
def typeBlock (e : QString × ModuleMap) : List QString :=
  ("    ".toList ++ e.1 ++ " [".toList ++ number (calculateTotal1 e.2) ++ "]".toList)
    :: e.2.entries.map moduleLine

/-- Lines written for one classification: its own line, then its types. -/
def classBlock (e : QString × TypeMap) : List QString :=
  ("  ".toList ++ e.1 ++ " [".toList ++ number (calculateTotal2 e.2) ++ "]".toList)
    :: e.2.entries.flatMap typeBlock

/-- Lines written for one group owner: its own line, its classifications, and
the blank line closing the group. -/
def ownerBlock (e : QString × ClassificationMap) : List QString :=
  (e.1 ++ " [".toList ++ number (calculateTotal3 e.2) ++ "]".toList)
    :: (e.2.entries.flatMap classBlock ++ [[]])

/-- Lines written before the first group owner. -/
def reportHead (incompleteCount : Int) : List QString :=
  (if incompleteCount > 0 then
    [[], "WARNING: Found ".toList ++ number incompleteCount
          ++ " file(s) with incomplete data (see warnings above).".toList, []]
  else []) ++ [fill 80 '=', "MODULE HIERARCHY".toList, fill 80 '=', []]
/-- Keys listed in strictly ascending order, hence each of them once. -/
def ascendingOnce (keys : List QString) : Prop :=
  keys.Pairwise (fun a b => a < b) ∧ keys.Nodup

instance (keys : List QString) : Decidable (ascendingOnce keys) := by
  unfold ascendingOnce
  infer_instance

/-! ## modulenavigator: the navigation tree -/

/-- Model of class `XmlTreeItem`.  The back pointer `treeItem` is left out:
the record is kept with the item it is registered for. -/
structure XmlTreeItem where
  elementName : QString
  elementValue : QString
  attributes : QMap QString QString

/-- A `QTreeWidgetItem` of the navigation tree: the texts of its three
columns, the `XmlTreeItem` that `itemMap` holds for it, and its child items. -/
inductive QTreeWidgetItem where
  | mk (text0 text1 text2 : QString) (itemData : XmlTreeItem)
      (children : List QTreeWidgetItem)

namespace QTreeWidgetItem

/-- Text of column 0. -/
def text0 : QTreeWidgetItem → QString
  | mk t _ _ _ _ => t

/-- Text of column 1. -/
def text1 : QTreeWidgetItem → QString
  | mk _ t _ _ _ => t

/-- Text of column 2. -/
def text2 : QTreeWidgetItem → QString
  | mk _ _ t _ _ => t

/-- The record `itemMap[item]`. -/
def itemData : QTreeWidgetItem → XmlTreeItem
  | mk _ _ _ d _ => d

/-- The child items. -/
def children : QTreeWidgetItem → List QTreeWidgetItem
  | mk _ _ _ _ c => c

/-- What an item shows and carries by itself, without its child items. -/
def label (item : QTreeWidgetItem) : QString × QString × QString × XmlTreeItem :=
  (item.text0, item.text1, item.text2, item.itemData)

end QTreeWidgetItem

mutual
/-- The item `addXmlElementsToTree` creates for one child element, with the
items of its descendants. -/
def childItem : XmlElement → QTreeWidgetItem
  | XmlElement.mk name text attributes children =>
    QTreeWidgetItem.mk name text
      (if ¬ attributes.entries.isEmpty then number attributes.size else [])
      { elementName := name, elementValue := text, attributes := attributes }
      (childItems children)
/-- The loop of `addXmlElementsToTree` over a child list. -/
def childItems : List XmlElement → List QTreeWidgetItem
  | [] => []
  | child :: rest => childItem child :: childItems rest
end

/-- Model of `ModuleViewer::addXmlElementsToTree`: the items created under
`parentItem` for the children of `xmlElement`. -/
def addXmlElementsToTree (xmlElement : XmlElement) : List QTreeWidgetItem :=
  childItems xmlElement.children

/-- The local map `hierarchy` of `buildTree`. -/
abbrev ModuleIndex := QMap QString (QMap QString (List ModuleData))

/-- The statement `hierarchy[mod->groupOwner][mod->classification].append(mod)`
of `buildTree`; both subscripts are the non-const `operator[]`, and the
references are written back level by level. -/
def appendModule (hierarchy : ModuleIndex) (mod : ModuleData) : ModuleIndex :=
  let owner := hierarchy.index mod.groupOwner QMap.empty
  let classification := owner.1.index mod.classification []
  owner.2.insert mod.groupOwner
    (classification.2.insert mod.classification (classification.1 ++ [mod]))

/-- The item `buildTree` creates for a module, with the items of its
document tree beneath it. -/
def moduleItem (mod : ModuleData) : QTreeWidgetItem :=
  QTreeWidgetItem.mk mod.moduleName "module".toList mod.relativePath
    { elementName := "module".toList, elementValue := mod.moduleName,
      attributes :=
        match mod.rootElement with
        | some root => root.attributes
        | none => QMap.empty }
    (match mod.rootElement with
     | some root => addXmlElementsToTree root
     | none => [])

/-- Model of `ModuleViewer::buildTree` (modulenavigator.cpp, lines 325-397):
the top-level items of the tree widget.  `sortChildren` stands for
`QTreeWidgetItem::sortChildren(0, Qt::AscendingOrder)` of the Qt library,
applied to the module items of a classification. -/
def ModuleViewer.buildTree (sortChildren : List QTreeWidgetItem → List QTreeWidgetItem)
    (self : ModuleViewer) : List QTreeWidgetItem :=
  let hierarchy : ModuleIndex := self.modules.foldl appendModule QMap.empty
  hierarchy.entries.map (fun ownerIt =>
    let groupOwner := ownerIt.1
    let classifications := ownerIt.2
    QTreeWidgetItem.mk groupOwner "GroupOwner".toList []
      { elementName := "GroupOwner".toList, elementValue := groupOwner,
        attributes := QMap.empty }
      (classifications.entries.map (fun classIt =>
        let classification := classIt.1
        let moduleList := classIt.2
        QTreeWidgetItem.mk classification "classification".toList []
          { elementName := "classification".toList, elementValue := classification,
            attributes := QMap.empty }
          (sortChildren (moduleList.map moduleItem)))))

/-- What `sortChildren` is known to do: it reorders the items it is given (and
possibly their descendants) and keeps what each item shows and carries. -/
def reorders (sortChildren : List QTreeWidgetItem → List QTreeWidgetItem) : Prop :=
  ∀ items, ((sortChildren items).map QTreeWidgetItem.label).Perm
    (items.map QTreeWidgetItem.label)

/-- A sort of items by the text of column 0, by insertion. -/
def sortByText (items : List QTreeWidgetItem) : List QTreeWidgetItem :=
  items.insertionSort (fun a b => a.text0 ≤ b.text0)

/-- The module-level items of a navigation tree with the texts of the owner
and classification items above them. -/
def placements (tree : List QTreeWidgetItem) :
    List (QString × QString × QString × QString × QString × XmlTreeItem) :=
  tree.flatMap (fun ownerItem =>
    ownerItem.children.flatMap (fun classItem =>
      classItem.children.map (fun modItem =>
        (ownerItem.text0, classItem.text0, modItem.label))))

/-- The entries of the local map of `buildTree`, one per stored module. -/
def ModuleIndex.flat (hierarchy : ModuleIndex) : List (QString × QString × ModuleData) :=
  hierarchy.entries.flatMap (fun ownerIt =>
    ownerIt.2.entries.flatMap (fun classIt =>
      classIt.2.map (fun mod => (ownerIt.1, classIt.1, mod))))

/-- Three modules of two owners, the first and third in the same
classification. -/
def sampleModules : List ModuleData :=
  [{ groupOwner := "hw".toList, classification := "Driver".toList,
     moduleName := "devc-ser".toList, relativePath := "hw/devc".toList,
     rootElement := some sampleElement },
   { groupOwner := "os".toList, classification := "Runtime".toList,
     moduleName := "libc".toList, relativePath := "lib/c".toList, rootElement := none },
   { groupOwner := "hw".toList, classification := "Driver".toList,
     moduleName := "devb-eide".toList, relativePath := "hw/devb".toList,
     rootElement := none }]
/-- The attribute map `buildTree` copies into the record of a module item. -/
def rootAttributes (mod : ModuleData) : QMap QString QString :=
  match mod.rootElement with
  | some root => root.attributes
  | none => QMap.empty

/-- A descriptor with two `GroupOwner` children of the root, the second one
empty: `<module><GroupOwner>hw</GroupOwner><GroupOwner></GroupOwner></module>`. -/
def doubleOwnerDoc : List Token :=
  [Token.startDocument,
   Token.startElement "module".toList [],
   Token.startElement "GroupOwner".toList [],
   Token.characters "hw".toList,
   Token.endElement "GroupOwner".toList,
   Token.startElement "GroupOwner".toList [],
   Token.endElement "GroupOwner".toList,
   Token.endElement "module".toList,
   Token.endDocument]

/-! ## makevaranalyzer

The contents of a makefile are a `QString`; `none` stands for a file that
cannot be opened.  The two `QRegExp` patterns of `analyzeFile` are written out
as matchers.  The sets of commands are left out: nothing read for the
variable report depends on them. -/

/-- The character class `[A-Za-z0-9_]`. -/
def isNameChar (c : Char) : Bool :=
  ('A' ≤ c && c ≤ 'Z') || ('a' ≤ c && c ≤ 'z') || ('0' ≤ c && c ≤ '9') || c == '_'

/-- Membership in the language of `[A-Za-z0-9_]+`. -/
def isName (v : QString) : Bool := !v.isEmpty && v.all isNameChar

/-- The rest of one alternative of `varPattern` after its opening bracket:
`([A-Za-z0-9_]+)` and the closing bracket.  The result is the captured text
and the length of the whole match. -/
def matchVarTail (close : Char) (rest : List Char) : Option (QString × Nat) :=
  let name := rest.takeWhile isNameChar
  match rest.dropWhile isNameChar with
  | c :: _ => if c = close ∧ name ≠ [] then some (name, name.length + 3) else none
  | [] => none

/-- A match of `varPattern`, `\$\(([A-Za-z0-9_]+)\)|\$\{([A-Za-z0-9_]+)\}`,
at the start of `s`: the non-empty one of `cap(1)` and `cap(2)`, and
`matchedLength()`. -/
def matchVarAt (s : List Char) : Option (QString × Nat) :=
  match s with
  | '$' :: '(' :: rest => matchVarTail ')' rest
  | '$' :: '{' :: rest => matchVarTail '}' rest
  | _ => none

/-- The search of `varPattern.indexIn` through `s`: the number of characters
before the first match, the captured name and the matched length. -/
def findVar : List Char → Option (Nat × QString × Nat)
  | [] => none
  | c :: rest =>
    match matchVarAt (c :: rest) with
    | some (var, len) => some (0, var, len)
    | none =>
      match findVar rest with
      | some (skipped, var, len) => some (skipped + 1, var, len)
      | none => none

/-- Model of `varPattern.indexIn(content, pos)`: position of the first match
at or after `pos`, with the captured name and the matched length; `none` for
the result `-1`. -/
def indexInVar (content : QString) (pos : Nat) : Option (Nat × QString × Nat) :=
  match findVar (content.drop pos) with
  | some (skipped, var, len) => some (pos + skipped, var, len)
  | none => none

/-- A match of `defPattern`, `^([A-Za-z0-9_]+)\s*[:?]?=`, at position 0 of
`line`: the captured name. -/
def matchDef (line : QString) : Option QString :=
  let name := line.takeWhile isNameChar
  if name = [] then none
  else
    match (line.dropWhile isNameChar).dropWhile isSpace with
    | '=' :: _ => some name
    | ':' :: '=' :: _ => some name
    | '?' :: '=' :: _ => some name
    | _ => none

/-- Model of `QString::split(sep)`, keeping empty parts. -/
def split (sep : Char) : List Char → List QString
  | [] => [[]]
  | c :: rest =>
    if c = sep then [] :: split sep rest
    else
      match split sep rest with
      | part :: parts => (c :: part) :: parts
      | [] => [[c]]

/-- Appending an element that is not in a duplicate-free list. -/
theorem nodup_append_new {α : Type} {l : List α} {x : α} (hl : l.Nodup) (hx : x ∉ l) :
    (l ++ [x]).Nodup := by
  rw [List.nodup_append]
  refine ⟨hl, List.nodup_singleton x, ?_⟩
  intro a ha hb
  rw [List.mem_singleton] at hb
  exact hx (hb ▸ ha)

/-- A `QSet<QString>`: its elements, in the order `toList` gives them, each
once. -/
structure QSet where
  /-- The elements as `toList` returns them. -/
  elems : List QString
  /-- An element is held once. -/
  nodup : elems.Nodup

namespace QSet

/-- The empty set. -/
def empty : QSet := ⟨[], List.nodup_nil⟩

/-- Model of `QSet::contains`. -/
def contains (s : QSet) (x : QString) : Bool := decide (x ∈ s.elems)

/-- Model of `QSet::insert`. -/
def insert (s : QSet) (x : QString) : QSet :=
  if h : x ∈ s.elems then s else ⟨s.elems ++ [x], nodup_append_new s.nodup h⟩

/-- Model of `QSet::remove`. -/
def remove (s : QSet) (x : QString) : QSet :=
  ⟨s.elems.filter (fun y => decide (y ≠ x)), s.nodup.filter _⟩

/-- Model of `QSet::subtract`. -/
def subtract (s other : QSet) : QSet :=
  ⟨s.elems.filter (fun y => !other.contains y), s.nodup.filter _⟩

/-- Model of `QSet::size`. -/
def size (s : QSet) : Nat := s.elems.length

/-- Model of `QSet::toList`. -/
def toList (s : QSet) : List QString := s.elems

end QSet

/-- Model of `qSort` on a `QStringList`: ascending by `operator<`. -/
def qSort (l : List QString) : List QString := l.insertionSort (fun a b => a ≤ b)

/-- The state of a `MakefileAnalyzer` that the variable report reads. -/
structure MakefileAnalyzer where
  variablesUsed : QSet
  variablesDefined : QSet

/-- The constructor `MakefileAnalyzer()`. -/
def MakefileAnalyzer.new : MakefileAnalyzer := ⟨QSet.empty, QSet.empty⟩

/-- The loop `while ((pos = varPattern.indexIn(content, pos)) != -1)` of
`analyzeFile`; the fuel bounds the number of matches. -/
def varLoop : Nat → QString → Nat → QSet → QSet
  | 0, _, _, variablesUsed => variablesUsed
  | fuel + 1, content, pos, variablesUsed =>
    match indexInVar content pos with
    | none => variablesUsed
    | some (pos, var, matchedLength) =>
      varLoop fuel content (pos + matchedLength) (variablesUsed.insert var)

/-- The body of the loop over the lines of `analyzeFile`, as far as it writes
`variablesDefined`. -/
def defStep (variablesDefined : QSet) (rawLine : QString) : QSet :=
  let line := trimmed rawLine
  if line.head? = some '#' then variablesDefined
  else
    match matchDef line with
    | some var => variablesDefined.insert var
    | none => variablesDefined

/-- Model of `MakefileAnalyzer::analyzeFile` (makevaranalyzer.cpp, lines
16-72). -/
def MakefileAnalyzer.analyzeFile (self : MakefileAnalyzer) (file : Option QString) :
    MakefileAnalyzer :=
  match file with
  | none => self
  | some content =>
    let variablesUsed := varLoop (content.length + 1) content 0 self.variablesUsed
    let lines := split '\n' content
    let variablesDefined := lines.foldl defStep self.variablesDefined
    { variablesUsed := variablesUsed, variablesDefined := variablesDefined }

/-- Running `analyzeFile` over a list of files, in order. -/
def MakefileAnalyzer.analyzeFiles (self : MakefileAnalyzer) (files : List (Option QString)) :
    MakefileAnalyzer :=
  files.foldl MakefileAnalyzer.analyzeFile self

/-- The list `builtins` of `printReport`. -/
def builtins : List QString :=
  ["MAKE".toList, "MAKEFILE_LIST".toList, "MAKEFLAGS".toList, "SHELL".toList,
   "CC".toList, "CXX".toList, "LD".toList, "AR".toList, "AS".toList, "CPP".toList,
   "CFLAGS".toList, "CXXFLAGS".toList, "LDFLAGS".toList, "ARFLAGS".toList,
   "TARGET".toList, "CURDIR".toList, ".DEFAULT_GOAL".toList]

/-- The part of `MakefileAnalyzer::printReport` that reports the undefined
variables (makevaranalyzer.cpp, lines 88-112): the number written in the
heading `UNDEFINED VARIABLES (n):` and the names written beneath it. -/
def MakefileAnalyzer.printReport (self : MakefileAnalyzer) : Nat × List QString :=
  let undefined := self.variablesUsed
  let undefined := undefined.subtract self.variablesDefined
  let undefined := builtins.foldl (fun undefined builtin => undefined.remove builtin) undefined
  let undefinedList := qSort undefined.toList
  (undefined.size, undefinedList)

/-- The set `undefined` of `printReport` when it is reported. -/
def undefinedSet (self : MakefileAnalyzer) : QSet :=
  builtins.foldl (fun undefined builtin => undefined.remove builtin)
    (self.variablesUsed.subtract self.variablesDefined)

/-- The text `$(v)`. -/
def refParen (v : QString) : QString := '$' :: '(' :: (v ++ [')'])

/-- The text `${v}`. -/
def refBrace (v : QString) : QString := '$' :: '{' :: (v ++ ['}'])

/-- The text of a file refers to `v` as `$(v)` or as `${v}`. -/
def references (content v : QString) : Prop :=
  refParen v <:+: content ∨ refBrace v <:+: content

instance (content v : QString) : Decidable (references content v) := by
  unfold references
  infer_instance

/-- The names defined in a file: the captures of `defPattern` on its lines
that are not comments. -/
def definitions (content : QString) : List QString :=
  (split '\n' content).filterMap (fun rawLine =>
    if (trimmed rawLine).head? = some '#' then none else matchDef (trimmed rawLine))

/-- A makefile that defines `NAME` and refers to `NAME`, `foo-bar`, `OUT` and
the built-in `CC`. -/
def sampleMakefile : QString :=
  "NAME = demo\nall: $(NAME) $(foo-bar) $\x7bOUT\x7d $(CC)\n".toList

/-! ## commonanalyzer

`parseFile` reads a `common.mk`, cleans its lines, joins continuation lines
and hands each resulting line to `parseVariable`.  The model gives the lines
handed over, in order. -/

/-- Model of `line.endsWith("\\")`. -/
def endsWithBackslash (line : QString) : Bool := line.getLast? == some '\\'

/-- The body of the first loop of `parseFile` for one line: the comment is cut
off and the rest trimmed. -/
def cleanLine (line : QString) : QString :=
  let commentPos : Int := if '#' ∈ line then ((List.indexOf '#' line : Nat) : Int) else -1
  let line := if commentPos ≥ 0 then line.take commentPos.toNat else line
  trimmed line

/-- The list `cleanLines` of `parseFile` (commonanalyzer.cpp, lines 47-64). -/
def cleanLines (content : QString) : List QString :=
  (split '\n' content).foldl (fun cleanLines line =>
    let line := cleanLine line
    if ¬ line.isEmpty then cleanLines ++ [line] else cleanLines) []

/-- The loop `while (line.endsWith("\\") && i + 1 < cleanLines.size())` of
`parseFile`: `pending` holds the clean lines after index `i`; the result is
the joined line and the clean lines after the last one joined. -/
def joinContinuation : QString → List QString → QString × List QString
  | line, [] => (line, [])
  | line, next :: pending =>
    if endsWithBackslash line then
      joinContinuation (trimmed line.dropLast ++ " ".toList ++ trimmed next) pending
    else (line, next :: pending)

/-- The loop `for (int i = 0; i < cleanLines.size(); ++i)` of `parseFile`: the
arguments of the successive calls of `parseVariable`.  Every round takes at
least one clean line, which the fuel counts. -/
def parseLoop : Nat → List QString → List QString
  | 0, _ => []
  | _ + 1, [] => []
  | fuel + 1, line :: pending =>
    (joinContinuation line pending).1 :: parseLoop fuel (joinContinuation line pending).2

/-- Model of `CommonMkParser::parseFile` (commonanalyzer.cpp, lines 47-78), as
far as the lines it passes to `parseVariable` go. -/
def parseFile (content : QString) : List QString :=
  parseLoop (cleanLines content).length (cleanLines content)

/-- The maximal runs of a list of lines: a run ends with the first line that
does not end with a backslash, or with the last line. -/
def runs : List QString → List (List QString)
  | [] => []
  | line :: rest =>
    if endsWithBackslash line then
      match runs rest with
      | [] => [[line]]
      | run :: more => (line :: run) :: more
    else [line] :: runs rest

/-- One piece of a logical line: the line without its trailing backslash,
trimmed. -/
def pieceOf (line : QString) : QString :=
  trimmed (if endsWithBackslash line then line.dropLast else line)

/-- Strings joined with one space between neighbours. -/
def joinSpace : List QString → QString
  | [] => []
  | [piece] => piece
  | piece :: rest => piece ++ " ".toList ++ joinSpace rest

/-- The logical line of a run as the description states it: the pieces of its
lines joined with one space. -/
def logicalLine (run : List QString) : QString := joinSpace (run.map pieceOf)

/-- A run is complete when its last line does not end with a backslash. -/
def completeRun (run : List QString) : Bool :=
  match run.getLast? with
  | some line => !endsWithBackslash line
  | none => false

/-- A `common.mk` with a definition continued over a line that holds a
backslash only. -/
def sparseMakefile : QString := "LIBS = a \\\n\\\nb # last\n\nNAME = x\n".toList

/-- A `common.mk` with a definition continued over three lines. -/
def continuedMakefile : QString := "LIBS = a \\\n  b \\ # more\n  c\nNAME = x\n".toList
/-- A line as the cleaning loop of `parseFile` leaves it: not empty, trimmed,
and without `#`. -/
def isClean (line : QString) : Prop := line ≠ [] ∧ trimmed line = line ∧ '#' ∉ line

instance (line : QString) : Decidable (isClean line) := by
  unfold isClean
  infer_instance

section QMapFacts

variable {K V : Type} [LinearOrder K]

theorem lookupEntry_insertEntry (k k' : K) (v : V) (l : List (K × V)) :
    lookupEntry k' (insertEntry k v l) = if k' = k then some v else lookupEntry k' l := by
  induction l with
  | nil =>
    by_cases h : k' = k
    · simp [insertEntry, lookupEntry, h]
    · have h' : ¬ k = k' := fun e => h e.symm
      simp [insertEntry, lookupEntry, h, h']
  | cons e rest ih =>
    rcases lt_trichotomy k e.1 with h1 | h1 | h1
    · simp only [insertEntry, if_pos h1]
      by_cases hx : k' = k
      · simp [lookupEntry, hx]
      · have h' : ¬ k = k' := fun e => hx e.symm
        simp [lookupEntry, hx, h']
    · have hn1 : ¬ k < e.1 := by rw [h1]; exact lt_irrefl _
      have hn2 : ¬ e.1 < k := by rw [h1]; exact lt_irrefl _
      simp only [insertEntry, if_neg hn1, if_neg hn2]
      by_cases hx : k' = k
      · simp [lookupEntry, hx]
      · have h' : ¬ k = k' := fun e => hx e.symm
        have h'' : ¬ e.1 = k' := by rw [← h1]; exact h'
        simp [lookupEntry, hx, h', h'']
    · simp only [insertEntry, if_neg (not_lt_of_lt h1), if_pos h1]
      by_cases hx : k' = k
      · subst hx
        have h' : ¬ e.1 = k' := ne_of_lt h1
        simp [lookupEntry, h', ih]
      · simp [lookupEntry, hx, ih]

theorem lookupEntry_eq_none {k : K} {l : List (K × V)} (h : ∀ x ∈ l, k < x.1) :
    lookupEntry k l = none := by
  induction l with
  | nil => rfl
  | cons e rest ih =>
    have h1 : ¬ e.1 = k := fun e' => absurd (h e (List.mem_cons_self _ _)) (by rw [e']; exact lt_irrefl _)
    simp only [lookupEntry, h1, if_false]
    exact ih (fun x hx => h x (List.mem_cons_of_mem _ hx))

theorem lookupEntry_some_mem {k : K} {v : V} {l : List (K × V)}
    (h : lookupEntry k l = some v) : (k, v) ∈ l := by
  induction l with
  | nil => simp [lookupEntry] at h
  | cons e rest ih =>
    simp only [lookupEntry] at h
    split_ifs at h with h1
    · have hv : e.2 = v := Option.some.inj h
      have : e = (k, v) := Prod.ext h1 hv
      rw [this]; exact List.mem_cons_self _ _
    · exact List.mem_cons_of_mem _ (ih h)

/-- Two ascending entry lists with the same lookups are the same list. -/
theorem entries_ext {l₁ l₂ : List (K × V)}
    (h₁ : l₁.Pairwise (fun a b => a.1 < b.1)) (h₂ : l₂.Pairwise (fun a b => a.1 < b.1))
    (h : ∀ k, lookupEntry k l₁ = lookupEntry k l₂) : l₁ = l₂ := by
  induction l₁ generalizing l₂ with
  | nil =>
    cases l₂ with
    | nil => rfl
    | cons e rest =>
      have := h e.1
      simp [lookupEntry] at this
  | cons e rest ih =>
    cases l₂ with
    | nil =>
      have := h e.1
      simp [lookupEntry] at this
    | cons e' rest' =>
      have hh₁ := (List.pairwise_cons.1 h₁).1
      have hh₂ := (List.pairwise_cons.1 h₂).1
      have hle : e'.1 ≤ e.1 := by
        have h3 := h e.1
        simp only [lookupEntry, if_true] at h3
        split_ifs at h3 with h4
        · exact le_of_eq h4
        · exact le_of_lt (hh₂ _ (lookupEntry_some_mem h3.symm))
      have hge : e.1 ≤ e'.1 := by
        have h3 := h e'.1
        simp only [lookupEntry, if_true] at h3
        split_ifs at h3 with h4
        · exact le_of_eq h4
        · exact le_of_lt (hh₁ _ (lookupEntry_some_mem h3))
      have hk : e.1 = e'.1 := le_antisymm hge hle
      have hv : e.2 = e'.2 := by
        have h3 := h e.1
        simp only [lookupEntry, if_true, hk] at h3
        exact Option.some.inj h3
      have he : e = e' := Prod.ext hk hv
      subst he
      congr 1
      refine ih (List.pairwise_cons.1 h₁).2 (List.pairwise_cons.1 h₂).2 ?_
      intro k
      by_cases hke : e.1 = k
      · subst hke
        rw [lookupEntry_eq_none hh₁, lookupEntry_eq_none hh₂]
      · have := h k
        simpa [lookupEntry, hke] using this

theorem QMap.ext_lookup {m₁ m₂ : QMap K V}
    (h : ∀ k, lookupEntry k m₁.entries = lookupEntry k m₂.entries) : m₁ = m₂ := by
  cases m₁ with
  | mk l₁ o₁ =>
    cases m₂ with
    | mk l₂ o₂ =>
      have : l₁ = l₂ := entries_ext o₁ o₂ h
      subst this
      rfl

theorem QMap.lookup_insert (m : QMap K V) (k k' : K) (v : V) :
    lookupEntry k' (m.insert k v).entries = if k' = k then some v else lookupEntry k' m.entries :=
  lookupEntry_insertEntry k k' v m.entries

theorem QMap.value_insert (m : QMap K V) (k k' : K) (v d : V) :
    (m.insert k v).value k' d = if k' = k then v else m.value k' d := by
  unfold QMap.value
  rw [QMap.lookup_insert]
  split_ifs <;> rfl

theorem QMap.insert_insert (m : QMap K V) (k : K) (v v' : V) :
    (m.insert k v).insert k v' = m.insert k v' := by
  apply QMap.ext_lookup
  intro x
  simp only [QMap.lookup_insert]
  split_ifs <;> rfl

theorem QMap.insert_comm (m : QMap K V) {k k' : K} (hne : k ≠ k') (v v' : V) :
    (m.insert k v).insert k' v' = (m.insert k' v').insert k v := by
  apply QMap.ext_lookup
  intro x
  simp only [QMap.lookup_insert]
  split_ifs with h1 h2
  · exact absurd (h2.symm.trans h1) hne
  · rfl
  · rfl
  · rfl

theorem QMap.value_of_not_contains {m : QMap K V} {k : K} (h : m.contains k = false) (d : V) :
    m.value k d = d := by
  unfold QMap.contains at h
  unfold QMap.value
  cases hl : lookupEntry k m.entries with
  | none => rfl
  | some v => rw [hl] at h; simp at h

theorem QMap.value_update (m : QMap K V) (k k' : K) (d : V) (f : V → V) :
    (m.update k d f).value k' d = if k' = k then f (m.value k d) else m.value k' d :=
  QMap.value_insert m k k' _ d

/-- Writes through `update` commute when the written functions commute. -/
theorem QMap.update_comm (m : QMap K V) (k k' : K) (d : V) (f g : V → V)
    (hfg : ∀ x, f (g x) = g (f x)) :
    (m.update k d f).update k' d g = (m.update k' d g).update k d f := by
  unfold QMap.update
  by_cases h : k = k'
  · subst h
    simp only [QMap.value_insert, if_true, QMap.insert_insert, hfg]
  · have h' : ¬ k' = k := fun e => h e.symm
    simp only [QMap.value_insert, h, h', if_false]
    exact QMap.insert_comm m h _ _

theorem sumBy_insertEntry (f : V → Int) (k : K) (v : V) {l : List (K × V)}
    (hl : l.Pairwise (fun a b => a.1 < b.1)) :
    sumBy f (insertEntry k v l) = sumBy f l - ((lookupEntry k l).map f).getD 0 + f v := by
  induction l with
  | nil => simp [sumBy, insertEntry, lookupEntry]
  | cons e rest ih =>
    have hrest := (List.pairwise_cons.1 hl).2
    have hhead := (List.pairwise_cons.1 hl).1
    simp only [insertEntry]
    split_ifs with h1 h2
    · have hnone : lookupEntry k (e :: rest) = none := by
        apply lookupEntry_eq_none
        intro x hx
        rcases List.mem_cons.1 hx with h | h
        · rw [h]; exact h1
        · exact lt_trans h1 (hhead x h)
      rw [hnone]
      simp only [sumBy, List.map_cons, List.sum_cons, Option.map_none', Option.getD_none]
      ring
    · have hne : ¬ e.1 = k := ne_of_lt h2
      have ih' := ih hrest
      simp only [sumBy, List.map_cons, List.sum_cons, lookupEntry, hne, if_false] at ih' ⊢
      rw [ih']
      ring
    · have hk : k = e.1 := le_antisymm (not_lt.1 h2) (not_lt.1 h1)
      simp only [sumBy, List.map_cons, List.sum_cons, lookupEntry, hk, if_true,
        Option.map_some', Option.getD_some]
      ring

/-- A write through `update` changes the weighted sum of a map by the change
of the weight of the written value (`dflt` has weight zero). -/
theorem sumBy_update (F : V → Int) (m : QMap K V) (k : K) (d : V) (f : V → V) (hd : F d = 0) :
    sumBy F (m.update k d f).entries
      = sumBy F m.entries + (F (f (m.value k d)) - F (m.value k d)) := by
  unfold QMap.update QMap.insert
  simp only
  rw [sumBy_insertEntry F k _ m.ordered]
  unfold QMap.value
  cases lookupEntry k m.entries with
  | none => simp [hd]
  | some v => simp; ring

end QMapFacts

theorem mem_insertEntry_eq {K V : Type} [LinearOrder K] {k : K} {v : V} {l : List (K × V)}
    {x : K × V} (hx : x ∈ insertEntry k v l) : x = (k, v) ∨ x ∈ l := by
  induction l with
  | nil =>
    simp only [insertEntry, List.mem_singleton] at hx
    exact Or.inl hx
  | cons e rest ih =>
    simp only [insertEntry] at hx
    split_ifs at hx with h1 h2
    · rcases List.mem_cons.1 hx with h | h
      · exact Or.inl h
      · exact Or.inr h
    · rcases List.mem_cons.1 hx with h | h
      · exact Or.inr (by rw [h]; exact List.mem_cons_self _ _)
      · rcases ih h with h3 | h3
        · exact Or.inl h3
        · exact Or.inr (List.mem_cons_of_mem _ h3)
    · rcases List.mem_cons.1 hx with h | h
      · exact Or.inl h
      · exact Or.inr (List.mem_cons_of_mem _ h)

/-- A sum of weights that are not negative is not negative. -/
theorem sumBy_nonneg {K V : Type} (F : V → Int) (l : List (K × V))
    (hl : ∀ e ∈ l, 0 ≤ F e.2) : 0 ≤ sumBy F l := by
  induction l with
  | nil => simp [sumBy]
  | cons e rest ih =>
    have h1 := hl e (List.mem_cons_self _ _)
    have h2 := ih (fun x hx => hl x (List.mem_cons_of_mem _ hx))
    simp only [sumBy, List.map_cons, List.sum_cons] at h2 ⊢
    omega

theorem le_sumBy_of_mem {K V : Type} (F : V → Int) (l : List (K × V))
    (hl : ∀ e ∈ l, 0 ≤ F e.2) {x : K × V} (hx : x ∈ l) : F x.2 ≤ sumBy F l := by
  induction l with
  | nil => cases hx
  | cons e rest ih =>
    have h1 := hl e (List.mem_cons_self _ _)
    have h2 := sumBy_nonneg F rest (fun y hy => hl y (List.mem_cons_of_mem _ hy))
    simp only [sumBy, List.map_cons, List.sum_cons] at h2 ⊢
    rcases List.mem_cons.1 hx with h | h
    · rw [h]
      omega
    · have h3 := ih (fun y hy => hl y (List.mem_cons_of_mem _ hy)) h
      simp only [sumBy] at h3
      omega

/-- Among weights that are not negative, the weight read at a key is at most
the sum of the weights (`dflt` has weight zero). -/
theorem QMap.weight_le_sumBy {K V : Type} [LinearOrder K] (F : V → Int) (m : QMap K V) (k : K)
    (d : V) (hd : F d = 0) (hm : ∀ e ∈ m.entries, 0 ≤ F e.2) :
    0 ≤ F (m.value k d) ∧ F (m.value k d) ≤ sumBy F m.entries := by
  unfold QMap.value
  cases hl : lookupEntry k m.entries with
  | none =>
    simp only [Option.getD_none, hd]
    exact ⟨le_refl 0, sumBy_nonneg F _ hm⟩
  | some v =>
    simp only [Option.getD_some]
    exact ⟨hm (k, v) (lookupEntry_some_mem hl), le_sumBy_of_mem F _ hm (lookupEntry_some_mem hl)⟩

/-! ## The type int: counters -/

/-- An integer in the range of `int` is stored as it is. -/
theorem wrapInt_of_range {x : Int} (h₁ : -2147483648 ≤ x) (h₂ : x ≤ 2147483647) :
    wrapInt x = x := by
  unfold wrapInt
  omega

/-- An `int` lies in the 32-bit range. -/
theorem wrapInt_range (x : Int) : -2147483648 ≤ wrapInt x ∧ wrapInt x ≤ 2147483647 := by
  unfold wrapInt
  omega

theorem wrapInt_add (x y : Int) : wrapInt (wrapInt x + y) = wrapInt (x + y) := by
  unfold wrapInt
  omega

theorem wrapInt_add_diff (s v : Int) :
    wrapInt (s + (wrapInt (v + 1) - v)) = wrapInt (wrapInt s + 1) := by
  unfold wrapInt
  omega

theorem counted_zero (v : Int) : counted v 0 = v := rfl

theorem counted_one (v : Int) : counted v 1 = wrapInt (v + 1) := rfl

theorem counted_ite (v : Int) (p : Prop) [Decidable p] :
    counted v (if p then 1 else 0) = if p then wrapInt (v + 1) else v := by
  split_ifs <;> rfl

/-- Increments add up. -/
theorem counted_counted (v : Int) (a b : Nat) : counted (counted v a) b = counted v (a + b) := by
  unfold counted
  by_cases ha : a = 0
  · subst ha
    simp
  · by_cases hb : b = 0
    · subst hb
      simp [ha]
    · have hab : ¬ a + b = 0 := by omega
      rw [if_neg ha, if_neg hb, if_neg hab, wrapInt_add]
      congr 1
      push_cast
      ring

/-- A counter that has room for `n` increments holds `v + n` after them. -/
theorem counted_of_room {v : Int} {n : Nat} (h : hasRoom v n) : counted v n = v + n := by
  unfold counted
  split_ifs with hn
  · subst hn
    simp
  · exact wrapInt_of_range (by have := h.1; omega) h.2

theorem countP_replicate_eq {α : Type} (p : α → Bool) (a : α) (n : Nat) :
    (List.replicate n a).countP p = if p a then n else 0 := by
  induction n with
  | zero => simp
  | succ n ih =>
    rw [List.replicate_succ, List.countP_cons, ih]
    split_ifs <;> rfl

theorem foldl_wrapInt_eq {K V : Type} (f : V → Int) (l : List (K × V)) (a : Int) :
    l.foldl (fun total e => wrapInt (total + f e.2)) (wrapInt a) = wrapInt (a + sumBy f l) := by
  induction l generalizing a with
  | nil => simp [sumBy]
  | cons e rest ih =>
    rw [List.foldl_cons, wrapInt_add, ih]
    congr 1
    simp only [sumBy, List.map_cons, List.sum_cons]
    ring


/-! ## The hierarchy of moduleclassifier -/

theorem ensure_value {V : Type} (m : QMap QString V) (k : QString) (d : V) :
    (if !m.contains k then m.insert k d else m).value k d = m.value k d := by
  cases h : m.contains k with
  | true => simp
  | false =>
    simp only [Bool.not_false, if_true, QMap.value_insert]
    exact (QMap.value_of_not_contains h d).symm

theorem ensure_insert {V : Type} (m : QMap QString V) (k : QString) (d v : V) :
    (if !m.contains k then m.insert k d else m).insert k v = m.insert k v := by
  cases h : m.contains k with
  | true => simp
  | false => simp only [Bool.not_false, if_true, QMap.insert_insert]

/-- The code of `addToHierarchy` is a nested write along the key path. -/
theorem addToHierarchy_eq (h : Hierarchy) (o c t m : QString) :
    addToHierarchy h o c t m = h.update o QMap.empty (bumpClass c t m) := by
  unfold addToHierarchy
  simp only [ensure_value, ensure_insert]
  unfold QMap.update bumpClass QMap.update bumpType QMap.update bumpModule QMap.update
  congr 3
  cases hc : (((h.value o QMap.empty).value c QMap.empty).value t QMap.empty).contains m with
  | true => simp
  | false =>
    simp only [Bool.false_eq_true, if_false]
    rw [QMap.value_of_not_contains hc]
    rfl

/-- The total of a module map is the sum of its counts, as an `int`. -/
theorem calculateTotal1_eq (mm : ModuleMap) :
    calculateTotal1 mm = wrapInt (sumBy id mm.entries) := by
  have h := foldl_wrapInt_eq (K := QString) id mm.entries 0
  rw [Int.zero_add] at h
  exact h

theorem calculateTotal2_eq (tm : TypeMap) :
    calculateTotal2 tm = wrapInt (sumBy calculateTotal1 tm.entries) := by
  have h := foldl_wrapInt_eq (K := QString) calculateTotal1 tm.entries 0
  rw [Int.zero_add] at h
  exact h

theorem calculateTotal3_eq (cm : ClassificationMap) :
    calculateTotal3 cm = wrapInt (sumBy calculateTotal2 cm.entries) := by
  have h := foldl_wrapInt_eq (K := QString) calculateTotal2 cm.entries 0
  rw [Int.zero_add] at h
  exact h

theorem grandTotal_eq (h : Hierarchy) : grandTotal h = sumBy calculateTotal3 h.entries := rfl

theorem calculateTotal1_bump (m : QString) (mm : ModuleMap) :
    calculateTotal1 (bumpModule m mm) = wrapInt (calculateTotal1 mm + 1) := by
  rw [calculateTotal1_eq, calculateTotal1_eq, bumpModule, sumBy_update id mm m 0 _ rfl]
  exact wrapInt_add_diff _ _

theorem calculateTotal2_bump (t m : QString) (tm : TypeMap) :
    calculateTotal2 (bumpType t m tm) = wrapInt (calculateTotal2 tm + 1) := by
  rw [calculateTotal2_eq, calculateTotal2_eq, bumpType,
    sumBy_update calculateTotal1 tm t QMap.empty _ rfl, calculateTotal1_bump]
  exact wrapInt_add_diff _ _

theorem calculateTotal3_bump (c t m : QString) (cm : ClassificationMap) :
    calculateTotal3 (bumpClass c t m cm) = wrapInt (calculateTotal3 cm + 1) := by
  rw [calculateTotal3_eq, calculateTotal3_eq, bumpClass,
    sumBy_update calculateTotal2 cm c QMap.empty _ rfl, calculateTotal2_bump]
  exact wrapInt_add_diff _ _

/-- One insertion changes the sum of the owners' totals by the change of the
total of the owner of the tuple. -/
theorem grandTotal_addToHierarchy (h : Hierarchy) (o c t m : QString) :
    grandTotal (addToHierarchy h o c t m)
      = grandTotal h + (wrapInt (ownerTotal h o + 1) - ownerTotal h o) := by
  rw [addToHierarchy_eq, grandTotal_eq, grandTotal_eq,
    sumBy_update calculateTotal3 h o QMap.empty _ rfl, calculateTotal3_bump]
  rfl

theorem bumpModule_comm (m m' : QString) (mm : ModuleMap) :
    bumpModule m' (bumpModule m mm) = bumpModule m (bumpModule m' mm) :=
  QMap.update_comm mm m m' 0 _ _ (fun _ => rfl)

theorem bumpType_comm (t m t' m' : QString) (tm : TypeMap) :
    bumpType t' m' (bumpType t m tm) = bumpType t m (bumpType t' m' tm) :=
  QMap.update_comm tm t t' QMap.empty _ _ (fun x => (bumpModule_comm m' m x))

theorem bumpClass_comm (c t m c' t' m' : QString) (cm : ClassificationMap) :
    bumpClass c' t' m' (bumpClass c t m cm) = bumpClass c t m (bumpClass c' t' m' cm) :=
  QMap.update_comm cm c c' QMap.empty _ _ (fun x => (bumpType_comm t' m' t m x))

/-- Two insertions commute. -/
theorem addTuple_comm (h : Hierarchy) (a b : KeyTuple) :
    addTuple (addTuple h a) b = addTuple (addTuple h b) a := by
  simp only [addTuple, addToHierarchy_eq]
  exact QMap.update_comm h _ _ QMap.empty _ _ (fun x => (bumpClass_comm _ _ _ _ _ _ x))

theorem addAll_perm {ks ks' : List KeyTuple} (hp : ks.Perm ks') (h : Hierarchy) :
    addAll h ks = addAll h ks' := by
  induction hp generalizing h with
  | nil => rfl
  | cons k _ ih => exact ih (addTuple h k)
  | swap a b l =>
    show addAll (addTuple (addTuple h b) a) l = addAll (addTuple (addTuple h a) b) l
    rw [addTuple_comm]
  | trans _ _ ih₁ ih₂ => exact (ih₁ h).trans (ih₂ h)

/-- C2. Aggregation is insertion-order-independent: folding `addToHierarchy`
over a list of key tuples and over any permutation of it, from the empty
hierarchy, gives the same hierarchy (same keys and same counts at every
level, since a hierarchy is its ordered entries). -/
theorem insertion_order_independent (ks ks' : List KeyTuple) (hp : ks.Perm ks') :
    addAll QMap.empty ks = addAll QMap.empty ks' :=
  addAll_perm hp QMap.empty

/-- Witness for C2 on three tuples and a rotation of them. -/
theorem insertion_order_independent_witness :
    addAll QMap.empty
        [("hw".toList, "Driver".toList, "Element".toList, "devc".toList),
         ("os".toList, "Runtime".toList, "Element".toList, "libc".toList),
         ("hw".toList, "Driver".toList, "Element".toList, "devc".toList)]
      = addAll QMap.empty
        [("os".toList, "Runtime".toList, "Element".toList, "libc".toList),
         ("hw".toList, "Driver".toList, "Element".toList, "devc".toList),
         ("hw".toList, "Driver".toList, "Element".toList, "devc".toList)] :=
  insertion_order_independent _ _ (List.Perm.swap _ _ _)

theorem value_addTuple (h : Hierarchy) (k : KeyTuple) (o : QString) :
    (addTuple h k).value o QMap.empty
      = if o = k.1 then bumpClass k.2.1 k.2.2.1 k.2.2.2 (h.value k.1 QMap.empty)
        else h.value o QMap.empty := by
  rw [addTuple, addToHierarchy_eq, QMap.value_update]
  split_ifs <;> rfl

theorem value_bumpClass (c t m c' : QString) (cm : ClassificationMap) :
    (bumpClass c t m cm).value c' QMap.empty
      = if c' = c then bumpType t m (cm.value c QMap.empty) else cm.value c' QMap.empty := by
  rw [bumpClass, QMap.value_update]
  split_ifs <;> rfl

theorem value_bumpType (t m t' : QString) (tm : TypeMap) :
    (bumpType t m tm).value t' QMap.empty
      = if t' = t then bumpModule m (tm.value t QMap.empty) else tm.value t' QMap.empty := by
  rw [bumpType, QMap.value_update]
  split_ifs <;> rfl

theorem value_bumpModule (m m' : QString) (mm : ModuleMap) :
    (bumpModule m mm).value m' 0
      = if m' = m then wrapInt (mm.value m 0 + 1) else mm.value m' 0 := by
  rw [bumpModule, QMap.value_update]
  split_ifs <;> rfl

/-- The total below an owner after one insertion. -/
theorem ownerTotal_addTuple (h : Hierarchy) (k : KeyTuple) (o : QString) :
    ownerTotal (addTuple h k) o = counted (ownerTotal h o) (if k.1 = o then 1 else 0) := by
  rw [counted_ite]
  unfold ownerTotal
  rw [value_addTuple]
  by_cases h1 : o = k.1
  · subst h1
    rw [if_pos rfl, if_pos rfl, calculateTotal3_bump]
  · rw [if_neg h1, if_neg (fun e => h1 e.symm)]

/-- The total below a classification after one insertion. -/
theorem classTotal_addTuple (h : Hierarchy) (k : KeyTuple) (o c : QString) :
    classTotal (addTuple h k) o c
      = counted (classTotal h o c) (if k.1 = o ∧ k.2.1 = c then 1 else 0) := by
  rw [counted_ite]
  unfold classTotal
  rw [value_addTuple]
  by_cases h1 : o = k.1
  · subst h1
    rw [if_pos rfl, value_bumpClass]
    by_cases h2 : c = k.2.1
    · subst h2
      rw [if_pos rfl, if_pos ⟨rfl, rfl⟩, calculateTotal2_bump]
    · rw [if_neg h2, if_neg (fun e => h2 e.2.symm)]
  · rw [if_neg h1, if_neg (fun e => h1 e.1.symm)]

/-- The total below a type after one insertion. -/
theorem typeTotal_addTuple (h : Hierarchy) (k : KeyTuple) (o c t : QString) :
    typeTotal (addTuple h k) o c t
      = counted (typeTotal h o c t)
          (if k.1 = o ∧ k.2.1 = c ∧ k.2.2.1 = t then 1 else 0) := by
  rw [counted_ite]
  unfold typeTotal
  rw [value_addTuple]
  by_cases h1 : o = k.1
  · subst h1
    rw [if_pos rfl, value_bumpClass]
    by_cases h2 : c = k.2.1
    · subst h2
      rw [if_pos rfl, value_bumpType]
      by_cases h3 : t = k.2.2.1
      · subst h3
        rw [if_pos rfl, if_pos ⟨rfl, rfl, rfl⟩, calculateTotal1_bump]
      · rw [if_neg h3, if_neg (fun e => h3 e.2.2.symm)]
    · rw [if_neg h2, if_neg (fun e => h2 e.2.1.symm)]
  · rw [if_neg h1, if_neg (fun e => h1 e.1.symm)]

/-- The count of a leaf after one insertion. -/
theorem leafCount_addTuple (h : Hierarchy) (k k' : KeyTuple) :
    leafCount (addTuple h k) k' = counted (leafCount h k') (if k = k' then 1 else 0) := by
  rw [counted_ite]
  obtain ⟨o, c, t, m⟩ := k
  obtain ⟨o', c', t', m'⟩ := k'
  unfold leafCount
  rw [value_addTuple]
  simp only
  by_cases h1 : o' = o
  · subst h1
    rw [if_pos rfl, value_bumpClass]
    by_cases h2 : c' = c
    · subst h2
      rw [if_pos rfl, value_bumpType]
      by_cases h3 : t' = t
      · subst h3
        rw [if_pos rfl, value_bumpModule]
        by_cases h4 : m' = m
        · subst h4
          rw [if_pos rfl, if_pos rfl]
        · rw [if_neg h4, if_neg (fun e => h4 (by simp only [Prod.mk.injEq] at e; exact e.2.2.2.symm))]
      · rw [if_neg h3, if_neg (fun e => h3 (by simp only [Prod.mk.injEq] at e; exact e.2.2.1.symm))]
    · rw [if_neg h2, if_neg (fun e => h2 (by simp only [Prod.mk.injEq] at e; exact e.2.1.symm))]
  · rw [if_neg h1, if_neg (fun e => h1 (by simp only [Prod.mk.injEq] at e; exact e.1.symm))]

/-- A per-key count that is incremented by the matching insertions has been
incremented once for each of them. -/
theorem total_addAll (T : Hierarchy → Int) (p : KeyTuple → Bool)
    (hstep : ∀ h k, T (addTuple h k) = counted (T h) (if p k then 1 else 0))
    (h : Hierarchy) (ks : List KeyTuple) :
    T (addAll h ks) = counted (T h) (ks.countP p) := by
  induction ks generalizing h with
  | nil => rfl
  | cons k ks ih =>
    have : addAll h (k :: ks) = addAll (addTuple h k) ks := rfl
    rw [this, ih, hstep, counted_counted, List.countP_cons, Nat.add_comm]

theorem ownerTotal_addAll (h : Hierarchy) (ks : List KeyTuple) (o : QString) :
    ownerTotal (addAll h ks) o
      = counted (ownerTotal h o) (ks.countP (fun k => decide (k.1 = o))) :=
  total_addAll (fun h => ownerTotal h o) (fun k => decide (k.1 = o))
    (fun h k => by simpa using ownerTotal_addTuple h k o) h ks

theorem classTotal_addAll (h : Hierarchy) (ks : List KeyTuple) (o c : QString) :
    classTotal (addAll h ks) o c
      = counted (classTotal h o c) (ks.countP (fun k => decide (k.1 = o ∧ k.2.1 = c))) :=
  total_addAll (fun h => classTotal h o c) (fun k => decide (k.1 = o ∧ k.2.1 = c))
    (fun h k => by simpa using classTotal_addTuple h k o c) h ks

theorem typeTotal_addAll (h : Hierarchy) (ks : List KeyTuple) (o c t : QString) :
    typeTotal (addAll h ks) o c t
      = counted (typeTotal h o c t)
          (ks.countP (fun k => decide (k.1 = o ∧ k.2.1 = c ∧ k.2.2.1 = t))) :=
  total_addAll (fun h => typeTotal h o c t)
    (fun k => decide (k.1 = o ∧ k.2.1 = c ∧ k.2.2.1 = t))
    (fun h k => by simpa using typeTotal_addTuple h k o c t) h ks

theorem leafCount_addAll (h : Hierarchy) (ks : List KeyTuple) (k : KeyTuple) :
    leafCount (addAll h ks) k
      = counted (leafCount h k) (ks.countP (fun k' => decide (k' = k))) :=
  total_addAll (fun h => leafCount h k) (fun k' => decide (k' = k))
    (fun h k' => by simpa using leafCount_addTuple h k' k) h ks

theorem ownerTotal_ge (h : Hierarchy) (o : QString) : -2147483648 ≤ ownerTotal h o := by
  unfold ownerTotal
  rw [calculateTotal3_eq]
  exact (wrapInt_range _).1

/-- While every owner's total has room for the insertions to come, each
insertion raises the sum of the owners' totals by one. -/
theorem grandTotal_addAll (h : Hierarchy) (ks : List KeyTuple)
    (hroom : ∀ o, ownerTotal h o + ks.length ≤ 2147483647) :
    grandTotal (addAll h ks) = grandTotal h + ks.length := by
  induction ks generalizing h with
  | nil => simp [addAll]
  | cons k ks ih =>
    have hcons : addAll h (k :: ks) = addAll (addTuple h k) ks := rfl
    have hlen : ((k :: ks).length : Int) = ks.length + 1 := by
      simp only [List.length_cons]
      push_cast
      rfl
    have hstep : ∀ o, ownerTotal (addTuple h k) o ≤ ownerTotal h o + 1 := by
      intro o
      rw [ownerTotal_addTuple, counted_ite]
      split_ifs
      · rw [wrapInt_of_range (by have := ownerTotal_ge h o; omega)
          (by have := hroom o; omega)]
      · omega
    have hk : wrapInt (ownerTotal h k.1 + 1) = ownerTotal h k.1 + 1 :=
      wrapInt_of_range (by have := ownerTotal_ge h k.1; omega) (by have := hroom k.1; omega)
    rw [hcons, ih (addTuple h k) (fun o => by have := hstep o; have := hroom o; omega),
      addTuple, grandTotal_addToHierarchy, hk, hlen]
    ring

/-- The sum of the owners' totals after `n` insertions of one tuple. -/
theorem grandTotal_replicate (k : KeyTuple) (n : Nat) (h : Hierarchy) :
    grandTotal (addAll h (List.replicate n k))
      = grandTotal h + (counted (ownerTotal h k.1) n - ownerTotal h k.1) := by
  induction n generalizing h with
  | zero => simp [addAll, counted]
  | succ n ih =>
    have hcons : addAll h (List.replicate (n + 1) k) = addAll (addTuple h k) (List.replicate n k) :=
      rfl
    rw [hcons, ih, ownerTotal_addTuple, if_pos rfl, counted_counted, addTuple,
      grandTotal_addToHierarchy, counted_one, Nat.add_comm 1 n]
    ring

/-- C1, as stated, fails: after 2147483648 calls of `addToHierarchy` for one
tuple the total below its owner, an `int`, has gone from 2147483647 to
-2147483648, and so has the sum over the owners. -/
theorem count_conservation_counterexample :
    grandTotal (addAll QMap.empty (List.replicate 2147483648 sampleTuple)) = -2147483648 ∧
    (List.replicate 2147483648 sampleTuple).length = 2147483648 := by
  refine ⟨?_, List.length_replicate _ _⟩
  rw [grandTotal_replicate]
  decide

/-- C1, amended. Count conservation: from the empty hierarchy, after the calls
of `addToHierarchy` for any list of `n` key tuples with `n` at most `INT_MAX`
(2147483647), the sum over all group owners of `calculateTotal` of the owner's
classification map is `n`. -/
theorem count_conservation (ks : List KeyTuple) (hn : ks.length ≤ 2147483647) :
    grandTotal (addAll QMap.empty ks) = ks.length := by
  have h0 : ∀ o, ownerTotal QMap.empty o = 0 := fun _ => rfl
  rw [grandTotal_addAll QMap.empty ks (fun o => by rw [h0]; omega)]
  simp [grandTotal, QMap.empty]

/-- Witness for C1 (amended): three insertions. -/
theorem count_conservation_witness :
    grandTotal (addAll QMap.empty [sampleTuple, otherTuple, sampleTuple]) = 3 :=
  count_conservation [sampleTuple, otherTuple, sampleTuple] (by decide)

/-- C5, as stated, fails: after 2147483648 insertions of one tuple the total
below its owner and the stored leaf value are -2147483648. -/
theorem subtree_totals_counterexample :
    ownerTotal (addAll QMap.empty (List.replicate 2147483648 sampleTuple)) sampleTuple.1
      = -2147483648 ∧
    leafCount (addAll QMap.empty (List.replicate 2147483648 sampleTuple)) sampleTuple
      = -2147483648 ∧
    (List.replicate 2147483648 sampleTuple).countP (fun k => decide (k = sampleTuple))
      = 2147483648 := by
  refine ⟨?_, ?_, ?_⟩
  · rw [ownerTotal_addAll, countP_replicate_eq]
    decide
  · rw [leafCount_addAll, countP_replicate_eq]
    decide
  · rw [countP_replicate_eq]
    decide

/-- C5, amended. Subtree totals at every level: after the calls of
`addToHierarchy` for any list of at most `INT_MAX` (2147483647) tuples, from
the empty hierarchy, `calculateTotal(hierarchy[o])` is the number of inserted
tuples with first key `o`, `calculateTotal(hierarchy[o][c])` the number with
prefix `(o, c)`, `calculateTotal(hierarchy[o][c][t])` the number with prefix
`(o, c, t)`, and the stored leaf value at `(o, c, t, m)` the number of
inserted tuples equal to `(o, c, t, m)`. -/
theorem subtree_totals (ks : List KeyTuple) (o c t m : QString)
    (hn : ks.length ≤ 2147483647) :
    ownerTotal (addAll QMap.empty ks) o = ks.countP (fun k => decide (k.1 = o)) ∧
    classTotal (addAll QMap.empty ks) o c
      = ks.countP (fun k => decide (k.1 = o ∧ k.2.1 = c)) ∧
    typeTotal (addAll QMap.empty ks) o c t
      = ks.countP (fun k => decide (k.1 = o ∧ k.2.1 = c ∧ k.2.2.1 = t)) ∧
    leafCount (addAll QMap.empty ks) (o, c, t, m)
      = ks.countP (fun k => decide (k = (o, c, t, m))) := by
  have hroom : ∀ p : KeyTuple → Bool, hasRoom 0 (ks.countP p) := by
    intro p
    have := List.countP_le_length p (l := ks)
    exact ⟨by decide, by omega⟩
  have h1 : ownerTotal QMap.empty o = 0 := rfl
  have h2 : classTotal QMap.empty o c = 0 := rfl
  have h3 : typeTotal QMap.empty o c t = 0 := rfl
  have h4 : leafCount QMap.empty (o, c, t, m) = 0 := rfl
  refine ⟨?_, ?_, ?_, ?_⟩
  · rw [ownerTotal_addAll, h1, counted_of_room (hroom _), Int.zero_add]
  · rw [classTotal_addAll, h2, counted_of_room (hroom _), Int.zero_add]
  · rw [typeTotal_addAll, h3, counted_of_room (hroom _), Int.zero_add]
  · rw [leafCount_addAll, h4, counted_of_room (hroom _), Int.zero_add]

/-- Witness for C5 (amended): three insertions, two of them of one tuple. -/
theorem subtree_totals_witness :
    ownerTotal (addAll QMap.empty [sampleTuple, otherTuple, sampleTuple]) "hw".toList = 2 ∧
    leafCount (addAll QMap.empty [sampleTuple, otherTuple, sampleTuple]) sampleTuple = 2 :=
  have h := subtree_totals [sampleTuple, otherTuple, sampleTuple] "hw".toList
    "Driver".toList "Element".toList "devc".toList (by decide)
  ⟨h.1, h.2.2.2⟩

/-! ## The scan of moduleclassifier -/

theorem atEnd_eq (xml : QXmlStreamReader) : xml.atEnd = !xml.token.live := by
  cases xml with
  | mk tok p => cases tok <;> rfl

theorem readNext_live {tok : Token} (h : tok.live = true) (t : Token) (ts : List Token) :
    QXmlStreamReader.readNext ⟨tok, t :: ts⟩ = ⟨t, ts⟩ := by
  cases tok <;> first | rfl | simp [Token.live] at h

theorem readNext_pending_subset (xml : QXmlStreamReader) :
    ∀ t ∈ xml.readNext.pending, t ∈ xml.pending := by
  cases xml with
  | mk tok p =>
    cases p with
    | nil => cases tok <;> simp [QXmlStreamReader.readNext]
    | cons a as =>
      cases tok <;> simp [QXmlStreamReader.readNext] <;> exact fun t ht => Or.inr ht

theorem readNext_token_mem (xml : QXmlStreamReader) :
    xml.readNext.token = xml.token ∨ xml.readNext.token = Token.invalid ∨
      xml.readNext.token ∈ xml.pending := by
  cases xml with
  | mk tok p =>
    cases p with
    | nil => cases tok <;> simp [QXmlStreamReader.readNext]
    | cons a as => cases tok <;> simp [QXmlStreamReader.readNext]

theorem readElementTextLoop_pending_subset (ts : List Token) (acc : QString) :
    ∀ t ∈ (QXmlStreamReader.readElementTextLoop ts acc).2.pending, t ∈ ts := by
  induction ts generalizing acc with
  | nil => simp [QXmlStreamReader.readElementTextLoop]
  | cons a as ih =>
    intro t ht
    cases a <;> simp only [QXmlStreamReader.readElementTextLoop] at ht <;>
      first
        | exact List.mem_cons_of_mem _ ht
        | exact List.mem_cons_of_mem _ (ih _ t ht)

theorem readElementText_pending_subset (xml : QXmlStreamReader) :
    ∀ t ∈ xml.readElementText.2.pending, t ∈ xml.pending := by
  unfold QXmlStreamReader.readElementText
  split_ifs
  · exact readElementTextLoop_pending_subset _ _
  · exact fun t ht => ht

theorem readNext_start_mem (xml : QXmlStreamReader)
    (h : xml.readNext.isStartElement = true) : xml.readNext.token ∈ xml.pending := by
  cases xml with
  | mk tok p =>
    cases p with
    | nil => cases tok <;> simp [QXmlStreamReader.readNext, QXmlStreamReader.isStartElement] at h
    | cons a as =>
      cases tok <;>
        simp [QXmlStreamReader.readNext, QXmlStreamReader.isStartElement] at h ⊢

theorem isStartOf_name (xml : QXmlStreamReader) (h : xml.isStartElement = true) (x : QString) :
    xml.token.isStartOf x = decide (xml.name = x) := by
  cases xml with
  | mk tok p =>
    cases tok
    all_goals first | rfl | simp [QXmlStreamReader.isStartElement] at h

/-- Frame property of the scan: a string of `analyzeFile` is only written at
a start element of its own name. -/
theorem analyzeLoop_frame (sel : Fields → QString) (x : QString)
    (h1 : x ≠ "GroupOwner".toList → ∀ f v, sel { f with groupOwner := v } = sel f)
    (h2 : x ≠ "classification".toList → ∀ f v, sel { f with classification := v } = sel f)
    (h3 : x ≠ "type".toList → ∀ f v, sel { f with type := v } = sel f)
    (h4 : x ≠ "module".toList → ∀ f v, sel { f with moduleName := v } = sel f) :
    ∀ (n : Nat) (xml : QXmlStreamReader) (f : Fields),
      (∀ t ∈ xml.pending, Token.isStartOf x t = false) →
      sel (analyzeLoop n xml f).2 = sel f := by
  intro n
  induction n with
  | zero => intro xml f _; rfl
  | succ n ih =>
    intro xml f hp
    simp only [analyzeLoop]
    by_cases hend : xml.atEnd = true
    · simp [hend]
    · simp only [hend, Bool.false_eq_true, if_false]
      have hp' : ∀ t ∈ xml.readNext.pending, Token.isStartOf x t = false :=
        fun t ht => hp t (readNext_pending_subset xml t ht)
      have hr : ∀ t ∈ xml.readNext.readElementText.2.pending, Token.isStartOf x t = false :=
        fun t ht => hp' t (readElementText_pending_subset _ t ht)
      by_cases hs : xml.readNext.isStartElement = true
      · have hne : xml.readNext.name ≠ x := by
          have h5 := hp _ (readNext_start_mem xml hs)
          rw [isStartOf_name _ hs] at h5
          simpa using h5
        simp only [hs, if_true]
        by_cases hg : xml.readNext.name = "GroupOwner".toList
        · simp only [hg, if_true]
          rw [ih _ _ hr]
          exact h1 (fun e => hne (hg.trans e.symm)) _ _
        · simp only [hg, if_false]
          by_cases hc : xml.readNext.name = "classification".toList
          · simp only [hc, if_true]
            rw [ih _ _ hr]
            exact h2 (fun e => hne (hc.trans e.symm)) _ _
          · simp only [hc, if_false]
            by_cases ht : xml.readNext.name = "type".toList
            · simp only [ht, if_true]
              rw [ih _ _ hr]
              exact h3 (fun e => hne (ht.trans e.symm)) _ _
            · simp only [ht, if_false]
              by_cases hm : xml.readNext.name = "module".toList
              · simp only [hm, if_true]
                split_ifs
                · rw [ih _ _ hp']
                  exact h4 (fun e => hne (hm.trans e.symm)) _ _
                · exact ih _ _ hp'
              · simp only [hm, if_false]
                exact ih _ _ hp'
      · simp only [hs]
        exact ih _ _ hp'

theorem analyzeLoop_groupOwner (n : Nat) (xml : QXmlStreamReader) (f : Fields)
    (h : ∀ t ∈ xml.pending, Token.isStartOf "GroupOwner".toList t = false) :
    (analyzeLoop n xml f).2.groupOwner = f.groupOwner :=
  analyzeLoop_frame (fun f => f.groupOwner) _ (fun h => absurd rfl h) (fun _ _ _ => rfl)
    (fun _ _ _ => rfl) (fun _ _ _ => rfl) n xml f h

theorem analyzeLoop_classification (n : Nat) (xml : QXmlStreamReader) (f : Fields)
    (h : ∀ t ∈ xml.pending, Token.isStartOf "classification".toList t = false) :
    (analyzeLoop n xml f).2.classification = f.classification :=
  analyzeLoop_frame (fun f => f.classification) _ (fun _ _ _ => rfl) (fun h => absurd rfl h)
    (fun _ _ _ => rfl) (fun _ _ _ => rfl) n xml f h

theorem analyzeLoop_type (n : Nat) (xml : QXmlStreamReader) (f : Fields)
    (h : ∀ t ∈ xml.pending, Token.isStartOf "type".toList t = false) :
    (analyzeLoop n xml f).2.type = f.type :=
  analyzeLoop_frame (fun f => f.type) _ (fun _ _ _ => rfl) (fun _ _ _ => rfl)
    (fun h => absurd rfl h) (fun _ _ _ => rfl) n xml f h

theorem analyzeLoop_moduleName (n : Nat) (xml : QXmlStreamReader) (f : Fields)
    (h : ∀ t ∈ xml.pending, Token.isStartOf "module".toList t = false) :
    (analyzeLoop n xml f).2.moduleName = f.moduleName :=
  analyzeLoop_frame (fun f => f.moduleName) _ (fun _ _ _ => rfl) (fun _ _ _ => rfl)
    (fun _ _ _ => rfl) (fun h => absurd rfl h) n xml f h

theorem readElementTextLoop_length (ts : List Token) (acc : QString) :
    (QXmlStreamReader.readElementTextLoop ts acc).2.pending.length ≤ ts.length := by
  induction ts generalizing acc with
  | nil => simp [QXmlStreamReader.readElementTextLoop]
  | cons a as ih =>
    cases a <;> simp only [QXmlStreamReader.readElementTextLoop, List.length_cons] <;>
      first
        | exact Nat.le_succ _
        | exact Nat.le_succ_of_le (ih _)

theorem readElementText_length (xml : QXmlStreamReader) :
    xml.readElementText.2.pending.length ≤ xml.pending.length := by
  unfold QXmlStreamReader.readElementText
  split_ifs
  · exact readElementTextLoop_length _ _
  · exact Nat.le_refl _

theorem readNext_length (xml : QXmlStreamReader) (h : xml.atEnd = false) :
    xml.readNext.atEnd = true ∨ xml.readNext.pending.length + 1 = xml.pending.length := by
  cases xml with
  | mk tok p =>
    cases p with
    | nil => cases tok <;> simp [QXmlStreamReader.readNext, QXmlStreamReader.atEnd] at h ⊢
    | cons a as =>
      cases tok <;> simp [QXmlStreamReader.readNext, QXmlStreamReader.atEnd] at h ⊢

theorem readElementText_atEnd (xml : QXmlStreamReader) (h : xml.atEnd = true) :
    xml.readElementText.2.atEnd = true := by
  cases xml with
  | mk tok p =>
    cases tok <;> simp [QXmlStreamReader.atEnd] at h <;>
      simp [QXmlStreamReader.readElementText, QXmlStreamReader.isStartElement,
        QXmlStreamReader.atEnd]

/-- The loop of `analyzeFile` ends because the reader is at its end, not
because the rounds run out, once there are more rounds than pending tokens. -/
theorem analyzeLoop_atEnd (n : Nat) :
    ∀ (xml : QXmlStreamReader) (f : Fields),
      (xml.pending.length < n ∨ xml.atEnd = true) → (analyzeLoop n xml f).1.atEnd = true := by
  induction n with
  | zero =>
    intro xml f h
    rcases h with h | h
    · exact absurd h (Nat.not_lt_zero _)
    · exact h
  | succ n ih =>
    intro xml f h
    simp only [analyzeLoop]
    cases hend : xml.atEnd with
    | true => simpa using hend
    | false =>
      simp only [Bool.false_eq_true, if_false]
      have hlen : xml.pending.length < n + 1 := by
        rcases h with h | h
        · exact h
        · rw [hend] at h; exact absurd h (by simp)
      have hnext : xml.readNext.pending.length < n ∨ xml.readNext.atEnd = true := by
        rcases readNext_length xml hend with h1 | h1
        · exact Or.inr h1
        · exact Or.inl (by omega)
      have htext : xml.readNext.readElementText.2.pending.length < n ∨
          xml.readNext.readElementText.2.atEnd = true := by
        rcases hnext with h1 | h1
        · exact Or.inl (lt_of_le_of_lt (readElementText_length _) h1)
        · exact Or.inr (readElementText_atEnd _ h1)
      split_ifs <;> first | exact ih _ _ htext | exact ih _ _ hnext

/-- The scan of a file always ends with the reader at its end. -/
theorem scanFile_atEnd (tokens : List Token) : (scanFile tokens).1.atEnd = true :=
  analyzeLoop_atEnd _ _ _ (Or.inl (Nat.lt_succ_self _))

/-- One round of the loop of `analyzeFile` when a token is read. -/
theorem analyzeLoop_step {tok : Token} (htok : tok.live = true) (t : Token) (f : Fields)
    (m : Nat) (ts : List Token) :
      analyzeLoop (m + 1) ⟨tok, t :: ts⟩ f =
        (let xml : QXmlStreamReader := ⟨t, ts⟩
         if xml.isStartElement then
          let elementName := xml.name
          if elementName = "GroupOwner".toList then
            let r := xml.readElementText
            analyzeLoop m r.2 { f with groupOwner := trimmed r.1 }
          else if elementName = "classification".toList then
            let r := xml.readElementText
            analyzeLoop m r.2 { f with classification := trimmed r.1 }
          else if elementName = "type".toList then
            let r := xml.readElementText
            analyzeLoop m r.2 { f with type := trimmed r.1 }
          else if elementName = "module".toList then
            let attributes := xml.attributes
            if hasAttribute attributes "name".toList then
              analyzeLoop m xml
                { f with moduleName := trimmed (attributeValue attributes "name".toList) }
            else analyzeLoop m xml f
          else analyzeLoop m xml f
        else analyzeLoop m xml f) := by
    simp only [analyzeLoop, atEnd_eq, htok, readNext_live htok, Bool.not_true,
      Bool.false_eq_true, if_false]

theorem analyzeLoop_step_inert {tok t : Token} (htok : tok.live = true) (ht : t.inert = true)
    (f : Fields) :
    ∃ f' : Fields, f'.groupOwner = f.groupOwner ∧ f'.classification = f.classification ∧
      f'.type = f.type ∧
      (t.isStart = false → f' = f) ∧
      ∀ (m : Nat) (ts : List Token),
        analyzeLoop (m + 1) ⟨tok, t :: ts⟩ f = analyzeLoop m ⟨t, ts⟩ f' := by
  have hstep := analyzeLoop_step htok t f
  cases t with
  | startElement nm as =>
    simp only [Token.inert, Token.isStartOf, Bool.and_eq_true, Bool.not_eq_true',
      decide_eq_false_iff_not] at ht
    obtain ⟨⟨⟨_, hg⟩, hc⟩, hty⟩ := ht
    by_cases hm : nm = "module".toList
    · by_cases ha : hasAttribute as "name".toList = true
      · refine ⟨{ f with moduleName := trimmed (attributeValue as "name".toList) },
          rfl, rfl, rfl, by simp [Token.isStart], ?_⟩
        intro m ts
        rw [hstep]
        simp only [QXmlStreamReader.isStartElement, QXmlStreamReader.name,
          QXmlStreamReader.attributes, if_true, if_neg hg, if_neg hc, if_neg hty, if_pos hm,
          if_pos ha]
      · refine ⟨f, rfl, rfl, rfl, fun _ => rfl, ?_⟩
        intro m ts
        rw [hstep]
        simp only [QXmlStreamReader.isStartElement, QXmlStreamReader.name,
          QXmlStreamReader.attributes, if_true, if_neg hg, if_neg hc, if_neg hty, if_pos hm,
          if_neg ha]
    · refine ⟨f, rfl, rfl, rfl, fun _ => rfl, ?_⟩
      intro m ts
      rw [hstep]
      simp only [QXmlStreamReader.isStartElement, QXmlStreamReader.name,
        if_true, if_neg hg, if_neg hc, if_neg hty, if_neg hm]
  | invalid => simp [Token.inert, Token.live] at ht
  | endDocument => simp [Token.inert, Token.live] at ht
  | _ =>
    refine ⟨f, rfl, rfl, rfl, fun _ => rfl, ?_⟩
    intro m ts
    rw [hstep]
    simp only [QXmlStreamReader.isStartElement, Bool.false_eq_true, if_false]

/-- The scan reads a run of inert tokens one per round and leaves the owner,
classification and type strings as they are. -/
theorem analyzeLoop_skip (pre : List Token) (hpre : ∀ t ∈ pre, t.inert = true) :
    ∀ (tok : Token) (f : Fields), tok.live = true →
      ∃ (tok' : Token) (f' : Fields), tok'.live = true ∧
        f'.groupOwner = f.groupOwner ∧ f'.classification = f.classification ∧
        f'.type = f.type ∧
        ((∀ t ∈ pre, t.isStart = false) → f' = f) ∧
        ∀ (n : Nat) (rest : List Token),
          analyzeLoop (n + pre.length) ⟨tok, pre ++ rest⟩ f = analyzeLoop n ⟨tok', rest⟩ f' := by
  induction pre with
  | nil =>
    intro tok f htok
    exact ⟨tok, f, htok, rfl, rfl, rfl, fun _ => rfl, fun _ _ => rfl⟩
  | cons t pre ih =>
    intro tok f htok
    have ht : t.inert = true := hpre t (List.mem_cons_self _ _)
    have htl : t.live = true := by
      simp only [Token.inert, Bool.and_eq_true] at ht
      exact ht.1.1.1
    obtain ⟨f₁, hg₁, hc₁, ht₁, hs₁, hstep⟩ := analyzeLoop_step_inert htok ht f
    obtain ⟨tok', f', hl, hg, hc, hty, hs, hrest⟩ :=
      ih (fun x hx => hpre x (List.mem_cons_of_mem _ hx)) t f₁ htl
    refine ⟨tok', f', hl, hg.trans hg₁, hc.trans hc₁, hty.trans ht₁, ?_, ?_⟩
    · intro hall
      rw [hs (fun x hx => hall x (List.mem_cons_of_mem _ hx)),
        hs₁ (hall t (List.mem_cons_self _ _))]
    · intro n rest
      have : n + (t :: pre).length = (n + pre.length) + 1 := by simp [Nat.add_assoc]
      rw [this]
      show analyzeLoop (n + pre.length + 1) ⟨tok, t :: (pre ++ rest)⟩ f = _
      rw [hstep, hrest]

theorem orPlaceholder_fst (field placeholder : QString) (b : Bool) :
    (orPlaceholder field placeholder b).1 = if field = [] then placeholder else field := by
  cases field with
  | nil => rfl
  | cons a as => simp [orPlaceholder]

theorem orPlaceholder_snd (field placeholder : QString) (b : Bool) :
    (orPlaceholder field placeholder b).2 = (decide (field = []) || b) := by
  cases field with
  | nil => rfl
  | cons a as => simp [orPlaceholder]

/-- The hierarchy after `analyzeFile` on an opened file: one insertion of the
key tuple of the file. -/
theorem analyzeFile_hierarchy (self : ModuleAnalyzer) (tokens : List Token) :
    (self.analyzeFile (some tokens)).hierarchy = addTuple self.hierarchy (keyTuple tokens) := by
  simp only [ModuleAnalyzer.analyzeFile, addTuple, keyTuple, orPlaceholder_fst]

/-- The counter after `analyzeFile` on an opened file. -/
theorem analyzeFile_incompleteCount (self : ModuleAnalyzer) (tokens : List Token) :
    (self.analyzeFile (some tokens)).incompleteCount
      = if (scanFile tokens).2.groupOwner = [] ∨ (scanFile tokens).2.classification = [] ∨
            (scanFile tokens).2.type = [] ∨ (scanFile tokens).2.moduleName = []
        then wrapInt (self.incompleteCount + 1) else self.incompleteCount := by
  simp only [ModuleAnalyzer.analyzeFile, orPlaceholder_snd]
  by_cases h1 : (scanFile tokens).2.groupOwner = [] <;>
    by_cases h2 : (scanFile tokens).2.classification = [] <;>
    by_cases h3 : (scanFile tokens).2.type = [] <;>
    by_cases h4 : (scanFile tokens).2.moduleName = [] <;>
    simp [h1, h2, h3, h4]

/-- C4, as stated, fails: for `<module name="foo"/>` the tuple `analyzeFile`
folds has four keys, the third being the type placeholder, so its first three
keys are not `("(no GroupOwner)", "(no classification)", "foo")`. -/
theorem placeholder_scenario_counterexample :
    keyTuple fooDoc
        = ("(no GroupOwner)".toList, "(no classification)".toList, "(no type)".toList,
            "foo".toList) ∧
    ((keyTuple fooDoc).1, (keyTuple fooDoc).2.1, (keyTuple fooDoc).2.2.1)
        ≠ ("(no GroupOwner)".toList, "(no classification)".toList, "foo".toList) := by
  decide

/-- The strings after the scan of a file whose first start element is
`<module name="foo">`, read after a prefix `pre` without start elements. -/
theorem scanFile_module_foo (pre post : List Token)
    (hpre : ∀ t ∈ pre, t.live = true ∧ t.isStart = false) :
    (scanFile (pre ++ Token.startElement "module".toList [("name".toList, "foo".toList)]
        :: post)).2
      = (analyzeLoop (post.length + 1)
          ⟨Token.startElement "module".toList [("name".toList, "foo".toList)], post⟩
          ⟨[], [], [], "foo".toList⟩).2 := by
  have hinert : ∀ t ∈ pre, t.inert = true := by
    intro t ht
    obtain ⟨h1, h2⟩ := hpre t ht
    cases t <;> simp_all [Token.inert, Token.live, Token.isStart, Token.isStartOf]
  obtain ⟨tok', f', hl, _, _, _, hs, hrest⟩ :=
    analyzeLoop_skip pre hinert Token.noToken ⟨[], [], [], []⟩ rfl
  have hf : f' = ⟨[], [], [], []⟩ := hs (fun t ht => (hpre t ht).2)
  subst hf
  unfold scanFile QXmlStreamReader.onFile
  have hlen : (pre ++ Token.startElement "module".toList [("name".toList, "foo".toList)]
      :: post).length + 1 = (post.length + 1 + 1) + pre.length := by
    simp only [List.length_append, List.length_cons]
    omega
  rw [hlen, hrest, analyzeLoop_step hl]
  rfl

/-- C4, amended. For a file whose first start element is `<module name="foo">`
and which holds no `GroupOwner`, `classification` or further `module` start
element, the key tuple `analyzeFile` folds into the hierarchy has four keys:
`"(no GroupOwner)"`, `"(no classification)"`, the type key (which is
`"(no type)"` when the file has no `type` element either) and `"foo"`; and
`incompleteCount`, when it is below `INT_MAX` (2147483647) before the call,
grows by exactly 1. -/
theorem placeholder_scenario (self : ModuleAnalyzer) (pre post : List Token)
    (hpre : ∀ t ∈ pre, t.live = true ∧ t.isStart = false)
    (hpost : ∀ t ∈ post, t.isStartOf "GroupOwner".toList = false ∧
      t.isStartOf "classification".toList = false ∧ t.isStartOf "module".toList = false)
    (hroom : hasRoom self.incompleteCount 1) :
    (keyTuple (pre ++ Token.startElement "module".toList [("name".toList, "foo".toList)]
        :: post)
      = ("(no GroupOwner)".toList, "(no classification)".toList,
          (keyTuple (pre ++ Token.startElement "module".toList
            [("name".toList, "foo".toList)] :: post)).2.2.1,
          "foo".toList)) ∧
    ((∀ t ∈ post, t.isStartOf "type".toList = false) →
      (keyTuple (pre ++ Token.startElement "module".toList [("name".toList, "foo".toList)]
        :: post)).2.2.1 = "(no type)".toList) ∧
    (self.analyzeFile (some (pre ++ Token.startElement "module".toList
        [("name".toList, "foo".toList)] :: post))).hierarchy
      = addToHierarchy self.hierarchy "(no GroupOwner)".toList "(no classification)".toList
          (keyTuple (pre ++ Token.startElement "module".toList
            [("name".toList, "foo".toList)] :: post)).2.2.1
          "foo".toList ∧
    (self.analyzeFile (some (pre ++ Token.startElement "module".toList
        [("name".toList, "foo".toList)] :: post))).incompleteCount
      = self.incompleteCount + 1 := by
  have hscan := scanFile_module_foo pre post hpre
  have hg : (scanFile (pre ++ Token.startElement "module".toList
      [("name".toList, "foo".toList)] :: post)).2.groupOwner = [] := by
    rw [hscan]
    exact analyzeLoop_groupOwner _ _ _ (fun t ht => (hpost t ht).1)
  have hc : (scanFile (pre ++ Token.startElement "module".toList
      [("name".toList, "foo".toList)] :: post)).2.classification = [] := by
    rw [hscan]
    exact analyzeLoop_classification _ _ _ (fun t ht => (hpost t ht).2.1)
  have hm : (scanFile (pre ++ Token.startElement "module".toList
      [("name".toList, "foo".toList)] :: post)).2.moduleName = "foo".toList := by
    rw [hscan]
    exact analyzeLoop_moduleName _ _ _ (fun t ht => (hpost t ht).2.2)
  have hk : keyTuple (pre ++ Token.startElement "module".toList
      [("name".toList, "foo".toList)] :: post)
      = ("(no GroupOwner)".toList, "(no classification)".toList,
          (keyTuple (pre ++ Token.startElement "module".toList
            [("name".toList, "foo".toList)] :: post)).2.2.1,
          "foo".toList) := by
    simp only [keyTuple, orPlaceholder_fst, hg, hc, hm, if_true]
    rfl
  refine ⟨hk, ?_, ?_, ?_⟩
  · intro htype
    have ht : (scanFile (pre ++ Token.startElement "module".toList
        [("name".toList, "foo".toList)] :: post)).2.type = [] := by
      rw [hscan]
      exact analyzeLoop_type _ _ _ htype
    simp only [keyTuple, orPlaceholder_fst, ht, if_true]
  · rw [analyzeFile_hierarchy, addTuple]
    rw [hk]
  · rw [analyzeFile_incompleteCount, if_pos (Or.inl hg)]
    exact counted_of_room hroom

/-- Witness for C4 (amended): the descriptor `<module name="foo"/>`. -/
theorem placeholder_scenario_witness :
    (keyTuple fooDoc
      = ("(no GroupOwner)".toList, "(no classification)".toList, (keyTuple fooDoc).2.2.1,
          "foo".toList)) ∧
    ((∀ t ∈ [Token.endElement "module".toList, Token.endDocument],
        t.isStartOf "type".toList = false) →
      (keyTuple fooDoc).2.2.1 = "(no type)".toList) ∧
    (ModuleAnalyzer.new.analyzeFile (some fooDoc)).hierarchy
      = addToHierarchy ModuleAnalyzer.new.hierarchy "(no GroupOwner)".toList
          "(no classification)".toList (keyTuple fooDoc).2.2.1 "foo".toList ∧
    (ModuleAnalyzer.new.analyzeFile (some fooDoc)).incompleteCount
      = ModuleAnalyzer.new.incompleteCount + 1 :=
  placeholder_scenario ModuleAnalyzer.new [Token.startDocument]
    [Token.endElement "module".toList, Token.endDocument] (by decide) (by decide) (by decide)

/-- C8, as stated, fails: a `GroupOwner` element two levels below the root
changes the key tuple that `analyzeFile` inserts. -/
theorem classifier_one_level_counterexample :
    keyTuple nestedOwnerDoc
        = ("deep".toList, "(no classification)".toList, "(no type)".toList, "m".toList) ∧
    keyTuple noOwnerDoc
        = ("(no GroupOwner)".toList, "(no classification)".toList, "(no type)".toList,
            "m".toList) ∧
    keyTuple nestedOwnerDoc ≠ keyTuple noOwnerDoc := by
  decide

/-- The strings after the scan when an element `<x>txt</x>` follows a run of
inert tokens: the scan goes on after the end tag with some strings `f'` that
agree with the initial ones on owner, classification and type. -/
theorem scanFile_text_element (pre post : List Token) (hpre : ∀ t ∈ pre, t.inert = true)
    (x nm txt : QString) (as : QXmlStreamAttributes) :
    ∃ f' : Fields, f'.groupOwner = [] ∧ f'.classification = [] ∧ f'.type = [] ∧
      (scanFile (pre ++ Token.startElement x as :: Token.characters txt ::
          Token.endElement nm :: post)).2
        = (if x = "GroupOwner".toList then
            analyzeLoop (post.length + 3) ⟨Token.endElement nm, post⟩
              { f' with groupOwner := trimmed txt }
          else if x = "classification".toList then
            analyzeLoop (post.length + 3) ⟨Token.endElement nm, post⟩
              { f' with classification := trimmed txt }
          else if x = "type".toList then
            analyzeLoop (post.length + 3) ⟨Token.endElement nm, post⟩
              { f' with type := trimmed txt }
          else (scanFile (pre ++ Token.startElement x as :: Token.characters txt ::
            Token.endElement nm :: post))).2 := by
  obtain ⟨tok', f', hl, hg, hc, ht, _, hrest⟩ :=
    analyzeLoop_skip pre hpre Token.noToken ⟨[], [], [], []⟩ rfl
  refine ⟨f', hg, hc, ht, ?_⟩
  have hlen : (pre ++ Token.startElement x as :: Token.characters txt ::
      Token.endElement nm :: post).length + 1 = (post.length + 3 + 1) + pre.length := by
    simp only [List.length_append, List.length_cons]
    omega
  have hread : (QXmlStreamReader.readElementText
      ⟨Token.startElement x as, Token.characters txt :: Token.endElement nm :: post⟩)
      = (txt, ⟨Token.endElement nm, post⟩) := by
    simp [QXmlStreamReader.readElementText, QXmlStreamReader.isStartElement,
      QXmlStreamReader.readElementTextLoop]
  by_cases h1 : x = "GroupOwner".toList
  · rw [if_pos h1]
    unfold scanFile QXmlStreamReader.onFile
    rw [hlen, hrest, analyzeLoop_step hl]
    simp only [QXmlStreamReader.isStartElement, QXmlStreamReader.name, if_true, if_pos h1, hread]
  · rw [if_neg h1]
    by_cases h2 : x = "classification".toList
    · rw [if_pos h2]
      unfold scanFile QXmlStreamReader.onFile
      rw [hlen, hrest, analyzeLoop_step hl]
      simp only [QXmlStreamReader.isStartElement, QXmlStreamReader.name, if_true, if_neg h1,
        if_pos h2, hread]
    · rw [if_neg h2]
      by_cases h3 : x = "type".toList
      · rw [if_pos h3]
        unfold scanFile QXmlStreamReader.onFile
        rw [hlen, hrest, analyzeLoop_step hl]
        simp only [QXmlStreamReader.isStartElement, QXmlStreamReader.name, if_true, if_neg h1,
          if_neg h2, if_pos h3, hread]
      · rw [if_neg h3]

/-- C8, amended. In `analyzeFile` the owner, classification and type keys are
taken from the `GroupOwner`, `classification` and `type` start elements of
the token stream at any depth. If an element of one of these names with text
`txt` comes after tokens `pre` that hold no start element of the three names
and no end or error (so under any number of open elements), and no start
element of that name follows it, then the key of that name is the trimmed
`txt`, or the placeholder when that is empty. -/
theorem classifier_keys_any_depth (pre post : List Token) (nm txt : QString)
    (as : QXmlStreamAttributes) (hpre : ∀ t ∈ pre, t.inert = true) :
    ((∀ t ∈ post, t.isStartOf "GroupOwner".toList = false) →
      (keyTuple (pre ++ Token.startElement "GroupOwner".toList as :: Token.characters txt ::
          Token.endElement nm :: post)).1
        = if trimmed txt = [] then "(no GroupOwner)".toList else trimmed txt) ∧
    ((∀ t ∈ post, t.isStartOf "classification".toList = false) →
      (keyTuple (pre ++ Token.startElement "classification".toList as ::
          Token.characters txt :: Token.endElement nm :: post)).2.1
        = if trimmed txt = [] then "(no classification)".toList else trimmed txt) ∧
    ((∀ t ∈ post, t.isStartOf "type".toList = false) →
      (keyTuple (pre ++ Token.startElement "type".toList as :: Token.characters txt ::
          Token.endElement nm :: post)).2.2.1
        = if trimmed txt = [] then "(no type)".toList else trimmed txt) := by
  refine ⟨?_, ?_, ?_⟩
  · intro hpost
    obtain ⟨f', _, _, _, hscan⟩ :=
      scanFile_text_element pre post hpre "GroupOwner".toList nm txt as
    rw [if_pos rfl] at hscan
    simp only [keyTuple, orPlaceholder_fst, hscan]
    rw [analyzeLoop_groupOwner _ _ _ hpost]
  · intro hpost
    obtain ⟨f', _, _, _, hscan⟩ :=
      scanFile_text_element pre post hpre "classification".toList nm txt as
    rw [if_neg (by decide), if_pos rfl] at hscan
    simp only [keyTuple, orPlaceholder_fst, hscan]
    rw [analyzeLoop_classification _ _ _ hpost]
  · intro hpost
    obtain ⟨f', _, _, _, hscan⟩ :=
      scanFile_text_element pre post hpre "type".toList nm txt as
    rw [if_neg (by decide), if_neg (by decide), if_pos rfl] at hscan
    simp only [keyTuple, orPlaceholder_fst, hscan]
    rw [analyzeLoop_type _ _ _ hpost]

/-- Witness for C8 (amended): the owner two levels below the root. -/
theorem classifier_keys_any_depth_witness :
    (keyTuple nestedOwnerDoc).1 = "deep".toList :=
  ((classifier_keys_any_depth
      [Token.startDocument,
       Token.startElement "module".toList [("name".toList, "m".toList)],
       Token.startElement "supports".toList []]
      [Token.endElement "supports".toList, Token.endElement "module".toList,
       Token.endDocument]
      "GroupOwner".toList "deep".toList [] (by decide)).1 (by decide)).trans (by decide)

/-- C9, as stated, fails: with a truncated second file the scan ends in a
parse error, yet the final hierarchy is not the one of the first and third
files; the malformed file adds the key `"os"` with one count. -/
theorem malformed_file_counterexample :
    (scanFile truncatedDoc).1.hasError = true ∧
    (ModuleAnalyzer.new.analyzeFiles
        [some completeDoc, some truncatedDoc, some fooDoc]).hierarchy
      ≠ (ModuleAnalyzer.new.analyzeFiles [some completeDoc, some fooDoc]).hierarchy ∧
    (ModuleAnalyzer.new.analyzeFiles
        [some completeDoc, some truncatedDoc, some fooDoc]).hierarchy.keys
      = ["(no GroupOwner)".toList, "hw".toList, "os".toList] ∧
    (ModuleAnalyzer.new.analyzeFiles [some completeDoc, some fooDoc]).hierarchy.keys
      = ["(no GroupOwner)".toList, "hw".toList] ∧
    grandTotal (ModuleAnalyzer.new.analyzeFiles
        [some completeDoc, some truncatedDoc, some fooDoc]).hierarchy = 3 := by
  decide

/-- C9, amended. When `analyzeFile` is run on three files of which the second
ends in a parse error, the malformed file is still folded in: the final
hierarchy is the hierarchy of the first and third files with one more
insertion, of the key tuple built from the strings read before the error
(placeholders for the others); it adds exactly one count, when the leaf count
of that tuple and the total below its owner are below `INT_MAX` (2147483647)
in the hierarchy of the first and third files. -/
theorem malformed_file_still_counted (self : ModuleAnalyzer) (d₁ d₂ d₃ : List Token)
    (_herr : (scanFile d₂).1.hasError = true)
    (hleaf : hasRoom
      (leafCount (self.analyzeFiles [some d₁, some d₃]).hierarchy (keyTuple d₂)) 1)
    (howner : hasRoom
      (ownerTotal (self.analyzeFiles [some d₁, some d₃]).hierarchy (keyTuple d₂).1) 1) :
    (self.analyzeFiles [some d₁, some d₂, some d₃]).hierarchy
      = addTuple (self.analyzeFiles [some d₁, some d₃]).hierarchy (keyTuple d₂) ∧
    leafCount (self.analyzeFiles [some d₁, some d₂, some d₃]).hierarchy (keyTuple d₂)
      = leafCount (self.analyzeFiles [some d₁, some d₃]).hierarchy (keyTuple d₂) + 1 ∧
    grandTotal (self.analyzeFiles [some d₁, some d₂, some d₃]).hierarchy
      = grandTotal (self.analyzeFiles [some d₁, some d₃]).hierarchy + 1 := by
  have h : (self.analyzeFiles [some d₁, some d₂, some d₃]).hierarchy
      = addTuple (self.analyzeFiles [some d₁, some d₃]).hierarchy (keyTuple d₂) := by
    simp only [ModuleAnalyzer.analyzeFiles, List.foldl_cons, List.foldl_nil,
      analyzeFile_hierarchy]
    exact addTuple_comm _ _ _
  refine ⟨h, ?_, ?_⟩
  · rw [h, leafCount_addTuple, if_pos rfl, counted_of_room hleaf]
    rfl
  · have h1 := counted_of_room howner
    rw [counted_one] at h1
    rw [h, addTuple, grandTotal_addToHierarchy, h1]
    push_cast
    ring

/-- Witness for C9 (amended): a truncated file between two well-formed ones. -/
theorem malformed_file_still_counted_witness :
    (ModuleAnalyzer.new.analyzeFiles
        [some completeDoc, some truncatedDoc, some fooDoc]).hierarchy
      = addTuple (ModuleAnalyzer.new.analyzeFiles [some completeDoc, some fooDoc]).hierarchy
          (keyTuple truncatedDoc) ∧
    leafCount (ModuleAnalyzer.new.analyzeFiles
        [some completeDoc, some truncatedDoc, some fooDoc]).hierarchy (keyTuple truncatedDoc)
      = leafCount (ModuleAnalyzer.new.analyzeFiles [some completeDoc, some fooDoc]).hierarchy
          (keyTuple truncatedDoc) + 1 ∧
    grandTotal (ModuleAnalyzer.new.analyzeFiles
        [some completeDoc, some truncatedDoc, some fooDoc]).hierarchy
      = grandTotal (ModuleAnalyzer.new.analyzeFiles [some completeDoc, some fooDoc]).hierarchy
          + 1 :=
  malformed_file_still_counted ModuleAnalyzer.new completeDoc truncatedDoc fooDoc (by decide)
    (by decide) (by decide)

/-! ## The navigator: field extraction -/

theorem extractTopLevelFields_some (root : XmlElement) (data : ModuleData) :
    extractTopLevelFields (some root) data = root.children.foldl extractStep data := rfl

theorem XmlElement.name_setChildren (e : XmlElement) (c : List XmlElement) :
    (e.setChildren c).name = e.name := by
  cases e; rfl

theorem XmlElement.text_setChildren (e : XmlElement) (c : List XmlElement) :
    (e.setChildren c).text = e.text := by
  cases e; rfl

theorem XmlElement.children_setChildren (e : XmlElement) (c : List XmlElement) :
    (e.setChildren c).children = c := by
  cases e; rfl

theorem extractStep_setChildren (data : ModuleData) (child : XmlElement)
    (c : List XmlElement) : extractStep data (child.setChildren c) = extractStep data child := by
  unfold extractStep
  rw [XmlElement.name_setChildren, XmlElement.text_setChildren]

theorem foldl_extractStep_map (g : XmlElement → List XmlElement) (l : List XmlElement)
    (data : ModuleData) :
    (l.map (fun c => c.setChildren (g c))).foldl extractStep data = l.foldl extractStep data := by
  induction l generalizing data with
  | nil => rfl
  | cons c l ih =>
    simp only [List.map_cons, List.foldl_cons, extractStep_setChildren]
    exact ih _

/-- C7. One-level extraction in the navigator: `extractTopLevelFields` reads
`groupOwner` and `classification` only from the direct children of the root;
replacing the children of every direct child by any other list of elements
(adding, removing or changing elements at depth 2 or more) leaves the
extracted fields unchanged. -/
theorem navigator_one_level (root : XmlElement) (g : XmlElement → List XmlElement)
    (data : ModuleData) :
    extractTopLevelFields
        (some (root.setChildren (root.children.map (fun c => c.setChildren (g c))))) data
      = extractTopLevelFields (some root) data := by
  rw [extractTopLevelFields_some, extractTopLevelFields_some,
    XmlElement.children_setChildren, foldl_extractStep_map]

/-! ## The navigator: parseModuleFile -/

/-- C10, as stated, fails: the reader runs into a parse error after the
module start element, yet the `ModuleData` of the file has a root element, the
partial tree with its two children, and its fields are taken from it. -/
theorem partial_tree_counterexample :
    (parseXmlElement
        ⟨Token.startElement "module".toList [("name".toList, "foo".toList)],
         brokenModuleDoc.drop 2⟩).2.hasError = true ∧
    (parseModuleData [] brokenModuleDoc).rootElement.isSome = true ∧
    ((parseModuleData [] brokenModuleDoc).rootElement.map
        (fun r => r.children.map XmlElement.name))
      = some ["GroupOwner".toList, "classification".toList] ∧
    (parseModuleData [] brokenModuleDoc).groupOwner = "hw".toList ∧
    (parseModuleData [] brokenModuleDoc).classification = "Dri".toList ∧
    (parseModuleData [] brokenModuleDoc).moduleName = "foo".toList := by
  decide

theorem parseModuleLoop_step {tok : Token} (htok : tok.live = true) (t : Token)
    (data : ModuleData) (m : Nat) (ts : List Token) :
    parseModuleLoop (m + 1) ⟨tok, t :: ts⟩ data =
      (let xml : QXmlStreamReader := ⟨t, ts⟩
       if xml.isStartElement then
         let elementName := xml.name
         if elementName = "module".toList then
           let rootElement := (parseXmlElement xml).1
           let data := { data with rootElement := some rootElement }
           let data :=
             if rootElement.attributes.contains "name".toList then
               { data with moduleName := rootElement.attributes.value "name".toList [] }
             else data
           extractTopLevelFields data.rootElement data
         else parseModuleLoop m xml data
       else parseModuleLoop m xml data) := by
  simp only [parseModuleLoop, atEnd_eq, htok, readNext_live htok, Bool.not_true,
    Bool.false_eq_true, if_false]

/-- The loop of `parseModuleFile` reads the tokens before the first `module`
start element one per round and leaves the data as it is. -/
theorem parseModuleLoop_skip (pre : List Token)
    (hpre : ∀ t ∈ pre, t.live = true ∧ t.isStartOf "module".toList = false) :
    ∀ (tok : Token), tok.live = true →
      ∃ tok' : Token, tok'.live = true ∧
        ∀ (n : Nat) (rest : List Token) (data : ModuleData),
          parseModuleLoop (n + pre.length) ⟨tok, pre ++ rest⟩ data
            = parseModuleLoop n ⟨tok', rest⟩ data := by
  induction pre with
  | nil => exact fun tok htok => ⟨tok, htok, fun _ _ _ => rfl⟩
  | cons t pre ih =>
    intro tok htok
    obtain ⟨htl, htm⟩ := hpre t (List.mem_cons_self _ _)
    obtain ⟨tok', hl, hrest⟩ := ih (fun x hx => hpre x (List.mem_cons_of_mem _ hx)) t htl
    refine ⟨tok', hl, ?_⟩
    intro n rest data
    have hlen : n + (t :: pre).length = (n + pre.length) + 1 := by simp [Nat.add_assoc]
    rw [hlen]
    show parseModuleLoop (n + pre.length + 1) ⟨tok, t :: (pre ++ rest)⟩ data = _
    rw [parseModuleLoop_step htok, ← hrest]
    cases t with
    | startElement nm as =>
      have hne : ¬ nm = "module".toList := by simpa [Token.isStartOf] using htm
      simp only [QXmlStreamReader.isStartElement, QXmlStreamReader.name, if_true, if_neg hne]
    | _ => simp only [QXmlStreamReader.isStartElement, Bool.false_eq_true, if_false]

/-- The data `parseModuleFile` has after its loop, for a file whose first
`module` start element comes after the tokens `pre`. -/
theorem parseModuleLoop_module (pre post : List Token) (attrs : QXmlStreamAttributes)
    (hpre : ∀ t ∈ pre, t.live = true ∧ t.isStartOf "module".toList = false)
    (data : ModuleData) :
    parseModuleLoop ((pre ++ Token.startElement "module".toList attrs :: post).length + 1)
        (QXmlStreamReader.onFile (pre ++ Token.startElement "module".toList attrs :: post)) data
      = extractTopLevelFields
          (some (parseXmlElement ⟨Token.startElement "module".toList attrs, post⟩).1)
          (if (parseXmlElement ⟨Token.startElement "module".toList attrs, post⟩).1.attributes.contains
                "name".toList then
            { data with
              rootElement := some (parseXmlElement ⟨Token.startElement "module".toList attrs, post⟩).1,
              moduleName := (parseXmlElement
                ⟨Token.startElement "module".toList attrs, post⟩).1.attributes.value
                  "name".toList [] }
          else
            { data with
              rootElement :=
                some (parseXmlElement ⟨Token.startElement "module".toList attrs, post⟩).1 }) := by
  obtain ⟨tok', hl, hrest⟩ := parseModuleLoop_skip pre hpre Token.noToken rfl
  have hlen : (pre ++ Token.startElement "module".toList attrs :: post).length + 1
      = (post.length + 1 + 1) + pre.length := by
    simp only [List.length_append, List.length_cons]
    omega
  unfold QXmlStreamReader.onFile
  rw [hlen, hrest, parseModuleLoop_step hl]
  simp only [QXmlStreamReader.isStartElement, QXmlStreamReader.name, if_true]
  split_ifs <;> rfl

theorem foldl_extractStep_frame (l : List XmlElement) (data : ModuleData) :
    (l.foldl extractStep data).rootElement = data.rootElement ∧
    (l.foldl extractStep data).moduleName = data.moduleName ∧
    (l.foldl extractStep data).relativePath = data.relativePath := by
  induction l generalizing data with
  | nil => exact ⟨rfl, rfl, rfl⟩
  | cons c l ih =>
    simp only [List.foldl_cons]
    obtain ⟨h1, h2, h3⟩ := ih (extractStep data c)
    rw [h1, h2, h3]
    unfold extractStep
    split_ifs <;> exact ⟨rfl, rfl, rfl⟩

theorem foldl_extractStep_fields (l : List XmlElement) (data data' : ModuleData)
    (hg : data.groupOwner = data'.groupOwner)
    (hc : data.classification = data'.classification) :
    (l.foldl extractStep data).groupOwner = (l.foldl extractStep data').groupOwner ∧
    (l.foldl extractStep data).classification
      = (l.foldl extractStep data').classification := by
  induction l generalizing data data' with
  | nil => exact ⟨hg, hc⟩
  | cons c l ih =>
    simp only [List.foldl_cons]
    apply ih
    · unfold extractStep
      split_ifs <;> first | rfl | exact hg
    · unfold extractStep
      split_ifs <;> first | rfl | exact hc

/-- C10, amended. If the reader runs into a parse error after the `module`
start element has been read, `parseModuleFile` keeps the partially built
tree: the `ModuleData` recorded for the file has as root element the element
`parseXmlElement` built from the tokens read before the error, and its owner,
classification and name are taken from that element (with the placeholder
where the value is empty). -/
theorem partial_tree_kept (relativeFilePath : QString) (pre post : List Token)
    (attrs : QXmlStreamAttributes)
    (hpre : ∀ t ∈ pre, t.live = true ∧ t.isStartOf "module".toList = false)
    (_herr : (parseXmlElement
      ⟨Token.startElement "module".toList attrs, post⟩).2.hasError = true) :
    (parseModuleData relativeFilePath
        (pre ++ Token.startElement "module".toList attrs :: post)).rootElement
      = some (moduleRoot attrs post) ∧
    (parseModuleData relativeFilePath
        (pre ++ Token.startElement "module".toList attrs :: post)).groupOwner
      = (if (extractTopLevelFields (some (moduleRoot attrs post))
              (blankData relativeFilePath)).groupOwner = []
         then "(no GroupOwner)".toList
         else (extractTopLevelFields (some (moduleRoot attrs post))
              (blankData relativeFilePath)).groupOwner) ∧
    (parseModuleData relativeFilePath
        (pre ++ Token.startElement "module".toList attrs :: post)).classification
      = (if (extractTopLevelFields (some (moduleRoot attrs post))
              (blankData relativeFilePath)).classification = []
         then "(no classification)".toList
         else (extractTopLevelFields (some (moduleRoot attrs post))
              (blankData relativeFilePath)).classification) ∧
    (parseModuleData relativeFilePath
        (pre ++ Token.startElement "module".toList attrs :: post)).moduleName
      = (if (moduleRoot attrs post).attributes.value "name".toList [] = []
         then "(no name)".toList
         else (moduleRoot attrs post).attributes.value "name".toList []) := by
  have hloop := parseModuleLoop_module pre post attrs hpre (blankData relativeFilePath)
  have hdata : parseModuleData relativeFilePath
      (pre ++ Token.startElement "module".toList attrs :: post)
      = (let data := parseModuleLoop
            ((pre ++ Token.startElement "module".toList attrs :: post).length + 1)
            (QXmlStreamReader.onFile (pre ++ Token.startElement "module".toList attrs :: post))
            (blankData relativeFilePath)
         let data :=
           if data.groupOwner.isEmpty then { data with groupOwner := "(no GroupOwner)".toList }
           else data
         let data :=
           if data.classification.isEmpty then
             { data with classification := "(no classification)".toList }
           else data
         if data.moduleName.isEmpty then { data with moduleName := "(no name)".toList }
         else data) := rfl
  rw [hdata, hloop]
  simp only [extractTopLevelFields_some]
  have hroot : moduleRoot attrs post
      = (parseXmlElement ⟨Token.startElement "module".toList attrs, post⟩).1 := rfl
  rw [← hroot]
  generalize moduleRoot attrs post = root
  have hname : (if root.attributes.contains "name".toList = true then
        root.attributes.value "name".toList [] else ([] : QString))
      = root.attributes.value "name".toList [] := by
    cases hc : root.attributes.contains "name".toList with
    | true => simp
    | false =>
      simp only [Bool.false_eq_true, if_false]
      exact (QMap.value_of_not_contains hc []).symm
  generalize hd : (if root.attributes.contains "name".toList = true then
      ({ blankData relativeFilePath with
          rootElement := some root,
          moduleName := root.attributes.value "name".toList [] } : ModuleData)
      else { blankData relativeFilePath with rootElement := some root }) = d₀
  have hd_root : d₀.rootElement = some root := by
    rw [← hd]; split_ifs <;> rfl
  have hd_name : d₀.moduleName = root.attributes.value "name".toList [] := by
    rw [← hd, ← hname]; split_ifs <;> rfl
  have hd_g : d₀.groupOwner = (blankData relativeFilePath).groupOwner := by
    rw [← hd]; split_ifs <;> rfl
  have hd_c : d₀.classification = (blankData relativeFilePath).classification := by
    rw [← hd]; split_ifs <;> rfl
  obtain ⟨hf1, hf2, _⟩ := foldl_extractStep_frame root.children d₀
  obtain ⟨hg, hc⟩ := foldl_extractStep_fields root.children d₀ _ hd_g hd_c
  rw [← hg, ← hc, ← hd_name, ← hf2, ← hd_root, ← hf1]
  generalize List.foldl extractStep d₀ root.children = d
  obtain ⟨g, c, m, r, e⟩ := d
  cases g <;> cases c <;> cases m <;> simp [List.isEmpty]

/-- Witness for C10 (amended): the descriptor that breaks off inside the
second child of the root. -/
theorem partial_tree_kept_witness :
    (parseModuleData [] brokenModuleDoc).rootElement
      = some (moduleRoot [("name".toList, "foo".toList)] (brokenModuleDoc.drop 2)) ∧
    (parseModuleData [] brokenModuleDoc).groupOwner = "hw".toList :=
  have h := partial_tree_kept [] [Token.startDocument] (brokenModuleDoc.drop 2)
    [("name".toList, "foo".toList)] (by decide) (by decide)
  ⟨h.1, h.2.1.trans (by decide)⟩

/-! ## The navigator: parseXmlElement on well-nested content -/

theorem Item.endToken_live (i : Item) : i.endToken.live = true := by
  cases i <;> rfl

theorem Item.lastToken_live (c : List Item) :
    ∀ tok : Token, tok.live = true → (Item.lastToken tok c).live = true := by
  induction c with
  | nil => exact fun _ h => h
  | cons i is ih => exact fun _ _ => ih _ i.endToken_live

theorem Item.length_le_tokensList (c : List Item) : c.length ≤ (Item.tokensList c).length := by
  induction c with
  | nil => simp [Item.tokensList]
  | cons i is ih =>
    have h1 : 1 ≤ i.tokens.length := by
      cases i <;> simp [Item.tokens]
    simp only [Item.tokensList, List.length_cons, List.length_append]
    omega

theorem ite_not_and {α β : Type} (f : α → β) (a b : Bool) (x y : α) :
    (if (!a) = true then (if (!b) = true then f x else f y) else f y)
      = f (if (!a && !b) = true then x else y) := by
  cases a <;> cases b <;> rfl

/-- One round of the loop of `parseXmlElement` when a token is read. -/
theorem parseXmlElementLoop_step {tok : Token} (htok : tok.live = true) (t : Token)
    (element : XmlElement) (m : Nat) (ts : List Token) :
    parseXmlElementLoop (m + 1) ⟨tok, t :: ts⟩ element =
      (let xml : QXmlStreamReader := ⟨t, ts⟩
       if xml.isEndElement then (element, xml)
       else if xml.isStartElement then
         let r := parseXmlElementLoop m xml (newElement xml)
         parseXmlElementLoop m r.2 (element.appendChild r.1)
       else if xml.isCharacters && !xml.isWhitespace then
         let text := trimmed xml.text
         if !text.isEmpty then parseXmlElementLoop m xml (element.setText text)
         else parseXmlElementLoop m xml element
       else parseXmlElementLoop m xml element) := by
  simp only [parseXmlElementLoop, atEnd_eq, htok, readNext_live htok, Bool.not_true,
    Bool.false_eq_true, if_false]

theorem parseXmlElementLoop_text {tok : Token} (htok : tok.live = true) (s : QString)
    (element : XmlElement) (m : Nat) (ts : List Token) :
    parseXmlElementLoop (m + 1) ⟨tok, Token.characters s :: ts⟩ element
      = parseXmlElementLoop m ⟨Token.characters s, ts⟩ ((Item.text s).absorb element) := by
  rw [parseXmlElementLoop_step htok]
  simp only [QXmlStreamReader.isEndElement, QXmlStreamReader.isStartElement,
    QXmlStreamReader.isCharacters, QXmlStreamReader.isWhitespace, QXmlStreamReader.text,
    Bool.false_eq_true, if_false, Bool.true_and, Item.absorb, significant]
  exact ite_not_and (fun e => parseXmlElementLoop m ⟨Token.characters s, ts⟩ e) _ _ _ _

theorem Item.tokens_length_pos (i : Item) : 1 ≤ i.tokens.length := by
  cases i <;> simp [Item.tokens]

mutual
/-- Reading one item of the content takes one round of the loop of its parent
and has the effect `Item.absorb` on the parent. -/
theorem parse_item (i : Item) (tok : Token) (m : Nat) (rest : List Token) (e : XmlElement)
    (htok : tok.live = true) (hfuel : i.tokens.length ≤ m + 1) :
    parseXmlElementLoop (m + 1) ⟨tok, i.tokens ++ rest⟩ e
      = parseXmlElementLoop m ⟨i.endToken, rest⟩ (i.absorb e) :=
  match i with
  | Item.text s => parseXmlElementLoop_text htok s e m rest
  | Item.comment => by
    show parseXmlElementLoop (m + 1) ⟨tok, Token.comment :: rest⟩ e = _
    rw [parseXmlElementLoop_step htok]
    rfl
  | Item.elem n as c => by
    have hlen : (Item.tokensList c).length + 2 ≤ m + 1 := by
      simpa [Item.tokens] using hfuel
    have hc := Item.length_le_tokensList c
    obtain ⟨m', rfl⟩ : ∃ m', m = (m' + 1) + c.length := ⟨m - c.length - 1, by omega⟩
    have htoks : (Item.elem n as c).tokens ++ rest
        = Token.startElement n as :: (Item.tokensList c ++ Token.endElement n :: rest) := by
      simp [Item.tokens]
    rw [htoks, parseXmlElementLoop_step htok]
    have hchild : parseXmlElementLoop (m' + 1 + c.length)
        ⟨Token.startElement n as, Item.tokensList c ++ Token.endElement n :: rest⟩
        (newElement ⟨Token.startElement n as, Item.tokensList c ++ Token.endElement n :: rest⟩)
        = (Item.absorbList c (XmlElement.mk n [] (attributeMap as) []),
            ⟨Token.endElement n, rest⟩) := by
      rw [parse_content c (Token.startElement n as) (m' + 1) (Token.endElement n :: rest) _ rfl
        (by omega)]
      rw [parseXmlElementLoop_step (Item.lastToken_live c (Token.startElement n as) rfl)]
      rfl
    simp only [QXmlStreamReader.isEndElement, QXmlStreamReader.isStartElement,
      Bool.false_eq_true, if_false, if_true, hchild]
    rfl
/-- Reading a content list takes one round per item and has the effect
`Item.absorbList` on the parent. -/
theorem parse_content (c : List Item) (tok : Token) (m : Nat) (rest : List Token)
    (e : XmlElement) (htok : tok.live = true)
    (hfuel : (Item.tokensList c).length ≤ m + c.length) :
    parseXmlElementLoop (m + c.length) ⟨tok, Item.tokensList c ++ rest⟩ e
      = parseXmlElementLoop m ⟨Item.lastToken tok c, rest⟩ (Item.absorbList c e) :=
  match c with
  | [] => rfl
  | i :: is => by
    have hi := i.tokens_length_pos
    have hlen : i.tokens.length + (Item.tokensList is).length ≤ m + (is.length + 1) := by
      simpa [Item.tokensList] using hfuel
    have htoks : Item.tokensList (i :: is) ++ rest
        = i.tokens ++ (Item.tokensList is ++ rest) := by
      simp [Item.tokensList]
    show parseXmlElementLoop (m + is.length + 1) ⟨tok, Item.tokensList (i :: is) ++ rest⟩ e = _
    rw [htoks, parse_item i tok (m + is.length) _ e htok (by omega),
      parse_content is i.endToken m rest _ i.endToken_live (by omega)]
    rfl
end

/-- On well-nested content `parseXmlElement` returns the element described by
`Item.absorbList` and leaves the reader on the end tag of the element. -/
theorem parseXmlElement_content (n n' : QString) (as : QXmlStreamAttributes) (c : List Item)
    (rest : List Token) :
    parseXmlElement ⟨Token.startElement n as, Item.tokensList c ++ Token.endElement n' :: rest⟩
      = (Item.absorbList c (XmlElement.mk n [] (attributeMap as) []),
          ⟨Token.endElement n', rest⟩) := by
  unfold parseXmlElement
  have hc := Item.length_le_tokensList c
  obtain ⟨m, hm⟩ : ∃ m, (Item.tokensList c ++ Token.endElement n' :: rest).length + 1
      = (m + 1) + c.length :=
    ⟨(Item.tokensList c).length + rest.length + 1 - c.length, by
      simp only [List.length_append, List.length_cons]; omega⟩
  simp only [hm]
  rw [parse_content c (Token.startElement n as) (m + 1) (Token.endElement n' :: rest) _ rfl
    (by simp only [List.length_append, List.length_cons] at hm; omega)]
  rw [parseXmlElementLoop_step (Item.lastToken_live c (Token.startElement n as) rfl)]
  rfl

theorem XmlElement.text_setText (e : XmlElement) (t : QString) : (e.setText t).text = t := by
  cases e; rfl

theorem XmlElement.text_appendChild (e c : XmlElement) : (e.appendChild c).text = e.text := by
  cases e; rfl

theorem Item.absorbList_append (c₁ c₂ : List Item) (e : XmlElement) :
    Item.absorbList (c₁ ++ c₂) e = Item.absorbList c₂ (Item.absorbList c₁ e) := by
  induction c₁ generalizing e with
  | nil => rfl
  | cons i is ih =>
    show Item.absorbList (i :: (is ++ c₂)) e = _
    simp only [Item.absorbList]
    exact ih _

theorem Item.absorb_text_of_not_run (i : Item) (e : XmlElement) (h : i.isRun = false) :
    (i.absorb e).text = e.text := by
  cases i with
  | text s =>
    have hs : significant s = false := h
    simp only [Item.absorb, hs, Bool.false_eq_true, if_false]
  | comment => rfl
  | elem n as c =>
    simp only [Item.absorb]
    exact XmlElement.text_appendChild _ _

theorem Item.absorbList_text_of_no_run (c : List Item) (e : XmlElement)
    (h : c.all (fun i => !i.isRun) = true) : (Item.absorbList c e).text = e.text := by
  induction c generalizing e with
  | nil => rfl
  | cons i is ih =>
    simp only [List.all_cons, Bool.and_eq_true, Bool.not_eq_true'] at h
    simp only [Item.absorbList]
    rw [ih _ h.2, Item.absorb_text_of_not_run i e h.1]

/-- C6, as stated, fails: for `<a>first<b/>second</a>` the text that
`parseXmlElement` stores is the second run, not the trimmed first one. -/
theorem first_text_run_counterexample :
    (parseXmlElement
        ⟨Token.startElement "a".toList [],
         [Token.characters "first".toList, Token.startElement "b".toList [],
          Token.endElement "b".toList, Token.characters "second".toList,
          Token.endElement "a".toList, Token.endDocument]⟩).1.text = "second".toList ∧
    (parseXmlElement
        ⟨Token.startElement "a".toList [],
         [Token.characters "first".toList, Token.startElement "b".toList [],
          Token.endElement "b".toList, Token.characters "second".toList,
          Token.endElement "a".toList, Token.endDocument]⟩).1.text
      ≠ trimmed "first".toList := by
  decide

/-- C6, amended. Last text run wins: for every element whose direct content
holds non-whitespace character-data runs (among child elements, comments and
white space), `parseXmlElement` sets the text of the element to the trimmed
last such run; each run overwrites the text stored for an earlier one at the
same level. -/
theorem last_text_run_wins (n n' : QString) (as : QXmlStreamAttributes)
    (c₁ c₂ : List Item) (s : QString) (rest : List Token)
    (hs : significant s = true) (hc₂ : c₂.all (fun i => !i.isRun) = true) :
    (parseXmlElement
        ⟨Token.startElement n as,
         Item.tokensList (c₁ ++ Item.text s :: c₂) ++ Token.endElement n' :: rest⟩).1.text
      = trimmed s := by
  rw [parseXmlElement_content, Item.absorbList_append]
  simp only [Item.absorbList]
  rw [Item.absorbList_text_of_no_run _ _ hc₂]
  simp only [Item.absorb, hs, if_true]
  exact XmlElement.text_setText _ _

/-- Witness for C6 (amended): `<a>first<b/>second</a>`. -/
theorem last_text_run_wins_witness :
    (parseXmlElement
        ⟨Token.startElement "a".toList [],
         Item.tokensList ([Item.text "first".toList, Item.elem "b".toList [] []]
            ++ Item.text "second".toList :: [])
          ++ Token.endElement "a".toList :: [Token.endDocument]⟩).1.text
      = trimmed "second".toList :=
  last_text_run_wins "a".toList "a".toList [] [Item.text "first".toList, Item.elem "b".toList [] []]
    [] "second".toList [Token.endDocument] (by decide) (by decide)

/-! ## The bounded loops run to their end -/

theorem readNext_length_le (xml : QXmlStreamReader) :
    xml.readNext.pending.length ≤ xml.pending.length := by
  cases xml with
  | mk tok p =>
    cases p with
    | nil => cases tok <;> simp [QXmlStreamReader.readNext]
    | cons a as => cases tok <;> simp [QXmlStreamReader.readNext]

theorem atEnd_of_isStartElement (xml : QXmlStreamReader) (h : xml.isStartElement = true) :
    xml.atEnd = false := by
  cases xml with
  | mk tok p =>
    cases tok
    all_goals first | rfl | simp [QXmlStreamReader.isStartElement] at h

/-- The loop of `parseXmlElement` ends at an end element or at the end of the
input, not because the rounds run out, once there are more rounds than pending
tokens; and it only consumes tokens. -/
theorem parseXmlElementLoop_ends (n : Nat) :
    ∀ (xml : QXmlStreamReader) (e : XmlElement),
      (xml.pending.length < n ∨ xml.atEnd = true) →
      ((parseXmlElementLoop n xml e).2.isEndElement = true ∨
        (parseXmlElementLoop n xml e).2.atEnd = true) ∧
      (parseXmlElementLoop n xml e).2.pending.length ≤ xml.pending.length := by
  induction n with
  | zero =>
    intro xml e h
    rcases h with h | h
    · exact absurd h (Nat.not_lt_zero _)
    · exact ⟨Or.inr h, Nat.le_refl _⟩
  | succ n ih =>
    intro xml e h
    simp only [parseXmlElementLoop]
    cases hend : xml.atEnd with
    | true => exact ⟨Or.inr (by simpa using hend), by simp⟩
    | false =>
      simp only [Bool.false_eq_true, if_false]
      have hlen : xml.pending.length < n + 1 := by
        rcases h with h | h
        · exact h
        · rw [hend] at h; exact absurd h (by simp)
      have hle := readNext_length_le xml
      have hnext : xml.readNext.pending.length < n ∨ xml.readNext.atEnd = true := by
        rcases readNext_length xml hend with h1 | h1
        · exact Or.inr h1
        · exact Or.inl (by omega)
      by_cases h1 : xml.readNext.isEndElement = true
      · rw [if_pos h1]
        exact ⟨Or.inl h1, hle⟩
      · rw [if_neg h1]
        by_cases h2 : xml.readNext.isStartElement = true
        · rw [if_pos h2]
          have hlt : xml.readNext.pending.length < n := by
            rcases hnext with h3 | h3
            · exact h3
            · rw [atEnd_of_isStartElement _ h2] at h3; exact absurd h3 (by simp)
          obtain ⟨_, hc⟩ := ih xml.readNext (newElement xml.readNext) (Or.inl hlt)
          obtain ⟨hr, hl⟩ := ih (parseXmlElementLoop n xml.readNext (newElement xml.readNext)).2
            (e.appendChild (parseXmlElementLoop n xml.readNext (newElement xml.readNext)).1)
            (Or.inl (lt_of_le_of_lt hc hlt))
          exact ⟨hr, le_trans hl (le_trans hc hle)⟩
        · rw [if_neg h2]
          split_ifs
          · obtain ⟨hr, hl⟩ := ih xml.readNext (e.setText (trimmed xml.readNext.text)) hnext
            exact ⟨hr, le_trans hl hle⟩
          · obtain ⟨hr, hl⟩ := ih xml.readNext e hnext
            exact ⟨hr, le_trans hl hle⟩
          · obtain ⟨hr, hl⟩ := ih xml.readNext e hnext
            exact ⟨hr, le_trans hl hle⟩

/-- The call `parseXmlElement` returns with the reader on an end element or at
the end of the input. -/
theorem parseXmlElement_ends (xml : QXmlStreamReader) :
    (parseXmlElement xml).2.isEndElement = true ∨ (parseXmlElement xml).2.atEnd = true :=
  (parseXmlElementLoop_ends _ xml _ (Or.inl (Nat.lt_succ_self _))).1

/-- The result of the loop of `parseModuleFile` does not depend on the bound
on the rounds, once there are more rounds than pending tokens. -/
theorem parseModuleLoop_stable (n : Nat) :
    ∀ (m : Nat) (xml : QXmlStreamReader) (data : ModuleData),
      (xml.pending.length < n ∨ xml.atEnd = true) →
      (xml.pending.length < m ∨ xml.atEnd = true) →
      parseModuleLoop n xml data = parseModuleLoop m xml data := by
  induction n with
  | zero =>
    intro m xml data h _
    rcases h with h | h
    · exact absurd h (Nat.not_lt_zero _)
    · cases m with
      | zero => rfl
      | succ m => simp [parseModuleLoop, h]
  | succ n ih =>
    intro m xml data hn hm
    cases hend : xml.atEnd with
    | true =>
      cases m with
      | zero => simp [parseModuleLoop, hend]
      | succ m => simp [parseModuleLoop, hend]
    | false =>
      have hlenn : xml.pending.length < n + 1 := by
        rcases hn with h | h
        · exact h
        · rw [hend] at h; exact absurd h (by simp)
      cases m with
      | zero =>
        rcases hm with h | h
        · exact absurd h (Nat.not_lt_zero _)
        · rw [hend] at h; exact absurd h (by simp)
      | succ m =>
        have hlenm : xml.pending.length < m + 1 := by
          rcases hm with h | h
          · exact h
          · rw [hend] at h; exact absurd h (by simp)
        have hnext : ∀ k, xml.pending.length < k + 1 →
            (xml.readNext.pending.length < k ∨ xml.readNext.atEnd = true) := by
          intro k hk
          rcases readNext_length xml hend with h1 | h1
          · exact Or.inr h1
          · exact Or.inl (by omega)
        simp only [parseModuleLoop, hend, Bool.false_eq_true, if_false]
        rw [ih m xml.readNext data (hnext n hlenn) (hnext m hlenm)]

theorem readNext_bound (xml : QXmlStreamReader) (hend : xml.atEnd = false) (k : Nat)
    (hk : xml.pending.length < k + 1 ∨ xml.atEnd = true) :
    xml.readNext.pending.length < k ∨ xml.readNext.atEnd = true := by
  have hlen : xml.pending.length < k + 1 := by
    rcases hk with h | h
    · exact h
    · rw [hend] at h; exact absurd h (by simp)
  rcases readNext_length xml hend with h1 | h1
  · exact Or.inr h1
  · exact Or.inl (by omega)

theorem readElementText_bound (xml : QXmlStreamReader) (k : Nat)
    (hk : xml.pending.length < k ∨ xml.atEnd = true) :
    xml.readElementText.2.pending.length < k ∨ xml.readElementText.2.atEnd = true := by
  rcases hk with h1 | h1
  · exact Or.inl (lt_of_le_of_lt (readElementText_length _) h1)
  · exact Or.inr (readElementText_atEnd _ h1)

/-- The result of the loop of `analyzeFile` does not depend on the bound on
the rounds, once there are more rounds than pending tokens. -/
theorem analyzeLoop_stable (n : Nat) :
    ∀ (m : Nat) (xml : QXmlStreamReader) (f : Fields),
      (xml.pending.length < n ∨ xml.atEnd = true) →
      (xml.pending.length < m ∨ xml.atEnd = true) →
      analyzeLoop n xml f = analyzeLoop m xml f := by
  induction n with
  | zero =>
    intro m xml f h _
    rcases h with h | h
    · exact absurd h (Nat.not_lt_zero _)
    · cases m with
      | zero => rfl
      | succ m => simp [analyzeLoop, h]
  | succ n ih =>
    intro m xml f hn hm
    cases hend : xml.atEnd with
    | true =>
      cases m with
      | zero => simp [analyzeLoop, hend]
      | succ m => simp [analyzeLoop, hend]
    | false =>
      cases m with
      | zero =>
        rcases hm with h | h
        · exact absurd h (Nat.not_lt_zero _)
        · rw [hend] at h; exact absurd h (by simp)
      | succ m =>
        have hnn := readNext_bound xml hend n hn
        have hnm := readNext_bound xml hend m hm
        have htn := readElementText_bound xml.readNext n hnn
        have htm := readElementText_bound xml.readNext m hnm
        simp only [analyzeLoop, hend, Bool.false_eq_true, if_false]
        split_ifs <;> first | exact ih m _ _ htn htm | exact ih m _ _ hnn hnm

/-- The result of the loop of `parseXmlElement` does not depend on the bound
on the rounds, once there are more rounds than pending tokens. -/
theorem parseXmlElementLoop_stable (n : Nat) :
    ∀ (m : Nat) (xml : QXmlStreamReader) (e : XmlElement),
      (xml.pending.length < n ∨ xml.atEnd = true) →
      (xml.pending.length < m ∨ xml.atEnd = true) →
      parseXmlElementLoop n xml e = parseXmlElementLoop m xml e := by
  induction n with
  | zero =>
    intro m xml e h _
    rcases h with h | h
    · exact absurd h (Nat.not_lt_zero _)
    · cases m with
      | zero => rfl
      | succ m => simp [parseXmlElementLoop, h]
  | succ n ih =>
    intro m xml e hn hm
    cases hend : xml.atEnd with
    | true =>
      cases m with
      | zero => simp [parseXmlElementLoop, hend]
      | succ m => simp [parseXmlElementLoop, hend]
    | false =>
      cases m with
      | zero =>
        rcases hm with h | h
        · exact absurd h (Nat.not_lt_zero _)
        · rw [hend] at h; exact absurd h (by simp)
      | succ m =>
        have hnn := readNext_bound xml hend n hn
        have hnm := readNext_bound xml hend m hm
        simp only [parseXmlElementLoop, hend, Bool.false_eq_true, if_false]
        by_cases h1 : xml.readNext.isEndElement = true
        · rw [if_pos h1, if_pos h1]
        · rw [if_neg h1, if_neg h1]
          by_cases h2 : xml.readNext.isStartElement = true
          · rw [if_pos h2, if_pos h2]
            have hne := atEnd_of_isStartElement _ h2
            have hltn : xml.readNext.pending.length < n := by
              rcases hnn with h3 | h3
              · exact h3
              · rw [hne] at h3; exact absurd h3 (by simp)
            have hltm : xml.readNext.pending.length < m := by
              rcases hnm with h3 | h3
              · exact h3
              · rw [hne] at h3; exact absurd h3 (by simp)
            have hchild := ih m xml.readNext (newElement xml.readNext) hnn hnm
            have hc := (parseXmlElementLoop_ends n xml.readNext (newElement xml.readNext)
              hnn).2
            rw [← hchild]
            exact ih m _ _ (Or.inl (lt_of_le_of_lt hc hltn)) (Or.inl (lt_of_le_of_lt hc hltm))
          · rw [if_neg h2, if_neg h2]
            split_ifs <;> exact ih m _ _ hnn hnm

/-! ## The schema index of modulexmlcollector -/

theorem countOne_eq (map : QMap QString Int) (k : QString) : countOne map k = bumpModule k map := by
  unfold countOne bumpModule QMap.update
  cases hc : map.contains k with
  | true => simp
  | false =>
    simp only [Bool.false_eq_true, if_false]
    rw [QMap.value_of_not_contains hc]
    rfl

theorem countPair_eq (map : QMap QString (QMap QString Int)) (outer inner : QString) :
    countPair map outer inner = bumpType outer inner map := by
  unfold countPair bumpType QMap.update
  simp only [ensure_value, ensure_insert, countOne_eq]

theorem xmlAnalyzeLoop_atEnd (n : Nat) (xml : QXmlStreamReader)
    (state : List QString × XmlAnalyzer) (h : xml.atEnd = true) :
    xmlAnalyzeLoop n xml state = state := by
  cases n with
  | zero => rfl
  | succ n => simp [xmlAnalyzeLoop, h]

theorem observe_not_live (state : List QString × XmlAnalyzer) (xml : QXmlStreamReader)
    (h : xml.token.live = false) : XmlAnalyzer.analyzeToken xml state = state := by
  cases xml with
  | mk tok p =>
    cases tok <;> first | rfl | simp [Token.live] at h

/-- The loop of `XmlAnalyzer::analyzeFile` applies its body to the tokens read,
one after the other. -/
theorem xmlAnalyzeLoop_eq_foldl (tokens : List Token) :
    ∀ (n : Nat) (tok : Token) (state : List QString × XmlAnalyzer),
      tok.live = true → tokens.length < n →
      xmlAnalyzeLoop n ⟨tok, tokens⟩ state = (readTokens tokens).foldl observe state := by
  induction tokens with
  | nil =>
    intro n tok state htok hn
    obtain ⟨m, rfl⟩ : ∃ m, n = m + 1 := ⟨n - 1, by omega⟩
    have hnext : QXmlStreamReader.readNext ⟨tok, []⟩ = ⟨Token.invalid, []⟩ := by
      cases tok <;> rfl
    simp only [xmlAnalyzeLoop, atEnd_eq, htok, Bool.not_true, Bool.false_eq_true, if_false, hnext]
    rw [xmlAnalyzeLoop_atEnd m ⟨Token.invalid, []⟩ _ rfl]
    rfl
  | cons t ts ih =>
    intro n tok state htok hn
    obtain ⟨m, rfl⟩ : ∃ m, n = m + 1 := ⟨n - 1, by simp at hn; omega⟩
    simp only [xmlAnalyzeLoop, atEnd_eq, htok, Bool.not_true, Bool.false_eq_true, if_false,
      readNext_live htok]
    cases hl : t.live with
    | true =>
      rw [ih m t _ hl (by simpa using hn)]
      simp only [readTokens, List.takeWhile_cons, hl, if_true, List.foldl_cons]
      rfl
    | false =>
      rw [xmlAnalyzeLoop_atEnd _ _ _ (by rw [atEnd_eq]; simp [hl])]
      simp only [readTokens, List.takeWhile_cons, hl, Bool.false_eq_true, if_false,
        List.foldl_nil]
      exact observe_not_live _ _ hl

/-- The state of the analyzer after `analyzeFile` on an opened file. -/
theorem xmlAnalyzeFile_eq (self : XmlAnalyzer) (tokens : List Token) :
    self.analyzeFile (some tokens) = ((readTokens tokens).foldl observe ([], self)).2 := by
  unfold XmlAnalyzer.analyzeFile QXmlStreamReader.onFile
  simp only
  rw [xmlAnalyzeLoop_eq_foldl tokens _ Token.noToken _ rfl (Nat.lt_succ_self _)]

/-- The result of the loop of `XmlAnalyzer::analyzeFile` does not depend on
the bound on the rounds, once there are more rounds than pending tokens. -/
theorem xmlAnalyzeLoop_stable (n m : Nat) (tok : Token) (tokens : List Token)
    (state : List QString × XmlAnalyzer) (htok : tok.live = true)
    (hn : tokens.length < n) (hm : tokens.length < m) :
    xmlAnalyzeLoop n ⟨tok, tokens⟩ state = xmlAnalyzeLoop m ⟨tok, tokens⟩ state := by
  rw [xmlAnalyzeLoop_eq_foldl tokens n tok state htok hn,
    xmlAnalyzeLoop_eq_foldl tokens m tok state htok hm]

theorem QMap.contains_insert {K V : Type} [LinearOrder K] (m : QMap K V) (k k' : K) (v : V) :
    (m.insert k v).contains k' = (decide (k' = k) || m.contains k') := by
  unfold QMap.contains
  rw [QMap.lookup_insert]
  by_cases h : k' = k
  · simp [h]
  · simp [h]

theorem contains_countOne (map : QMap QString Int) (k k' : QString) :
    (countOne map k).contains k' = (decide (k' = k) || map.contains k') := by
  unfold countOne
  split_ifs <;> rw [QMap.contains_insert] <;> congr 1 <;> exact decide_eq_decide.2 Iff.rfl

theorem value_countOne (map : QMap QString Int) (k k' : QString) :
    (countOne map k).value k' 0 = counted (map.value k' 0) (if k' = k then 1 else 0) := by
  rw [countOne_eq, value_bumpModule, counted_ite]
  by_cases h : k' = k
  · subst h
    rw [if_pos rfl]
  · rw [if_neg h, if_neg h]

theorem countAttribute_elementCounts (elementName : QString) (self : XmlAnalyzer)
    (attrs : QXmlStreamAttributes) :
    (attrs.foldl (XmlAnalyzer.countAttribute elementName) self).elementCounts
        = self.elementCounts ∧
    (attrs.foldl (XmlAnalyzer.countAttribute elementName) self).elementChildren
        = self.elementChildren := by
  induction attrs generalizing self with
  | nil => exact ⟨rfl, rfl⟩
  | cons a as ih =>
    simp only [List.foldl_cons]
    obtain ⟨h1, h2⟩ := ih (XmlAnalyzer.countAttribute elementName self a)
    exact ⟨h1, h2⟩

/-- The element counts after the loop body has seen a token. -/
theorem observe_elementCounts (state : List QString × XmlAnalyzer) (t : Token) :
    (observe state t).2.elementCounts
      = match t with
        | Token.startElement n _ => countOne state.2.elementCounts n
        | _ => state.2.elementCounts := by
  obtain ⟨stack, self⟩ := state
  cases t with
  | startElement n as =>
    simp only [observe, XmlAnalyzer.analyzeToken, QXmlStreamReader.isStartElement, if_true,
      QXmlStreamReader.name, QXmlStreamReader.attributes]
    rw [(countAttribute_elementCounts n _ as).1]
    cases stack <;> rfl
  | endElement n =>
    cases stack <;> rfl
  | _ => rfl

theorem foldl_observe_elementCounts_value (n : QString) (tokens : List Token)
    (state : List QString × XmlAnalyzer) :
    (tokens.foldl observe state).2.elementCounts.value n 0
      = counted (state.2.elementCounts.value n 0) (tokens.countP (Token.isStartOf n)) := by
  induction tokens generalizing state with
  | nil => rfl
  | cons t ts ih =>
    simp only [List.foldl_cons, List.countP_cons]
    rw [ih, observe_elementCounts]
    cases t with
    | startElement n' as =>
      simp only [value_countOne, Token.isStartOf]
      rw [counted_counted, Nat.add_comm]
      by_cases h : n' = n
      · simp [h]
      · have h' : ¬ n = n' := fun e => h e.symm
        simp [h, h']
    | _ => simp [Token.isStartOf]

theorem foldl_observe_elementCounts_contains (n : QString) (tokens : List Token)
    (state : List QString × XmlAnalyzer) :
    (tokens.foldl observe state).2.elementCounts.contains n
      = (state.2.elementCounts.contains n || decide (0 < tokens.countP (Token.isStartOf n))) := by
  induction tokens generalizing state with
  | nil => simp
  | cons t ts ih =>
    simp only [List.foldl_cons, List.countP_cons]
    rw [ih, observe_elementCounts]
    cases t with
    | startElement n' as =>
      simp only [contains_countOne, Token.isStartOf]
      by_cases h : n' = n
      · simp [h]
      · have h' : ¬ n = n' := fun e => h e.symm
        simp [h, h']
    | _ => simp [Token.isStartOf]

mutual
theorem Item.tokens_live (i : Item) : ∀ t ∈ i.tokens, t.live = true :=
  match i with
  | Item.text s => by simp [Item.tokens, Token.live]
  | Item.comment => by simp [Item.tokens, Token.live]
  | Item.elem n as c => by
    intro t ht
    simp only [Item.tokens, List.mem_cons, List.mem_append, List.mem_singleton,
      List.not_mem_nil, or_false] at ht
    rcases ht with h | h | h
    · rw [h]; rfl
    · exact Item.tokensList_live c t h
    · rw [h]; rfl
theorem Item.tokensList_live (c : List Item) : ∀ t ∈ Item.tokensList c, t.live = true :=
  match c with
  | [] => by simp [Item.tokensList]
  | i :: is => by
    intro t ht
    simp only [Item.tokensList, List.mem_append] at ht
    rcases ht with h | h
    · exact Item.tokens_live i t h
    · exact Item.tokensList_live is t h
end

mutual
theorem Item.countP_tokens (n : QString) (i : Item) :
    i.tokens.countP (Token.isStartOf n) = i.countElements n :=
  match i with
  | Item.text s => by simp [Item.tokens, Item.countElements, Token.isStartOf]
  | Item.comment => by simp [Item.tokens, Item.countElements, Token.isStartOf]
  | Item.elem n' as c => by
    simp only [Item.tokens, Item.countElements, List.countP_cons, List.countP_append,
      List.countP_nil, Token.isStartOf, Item.countP_tokensList n c]
    by_cases h : n' = n
    · simp [h]; omega
    · simp [h]
theorem Item.countP_tokensList (n : QString) (c : List Item) :
    (Item.tokensList c).countP (Token.isStartOf n) = Item.countElementsList n c :=
  match c with
  | [] => by simp [Item.tokensList, Item.countElementsList]
  | i :: is => by
    simp only [Item.tokensList, Item.countElementsList, List.countP_append,
      Item.countP_tokens n i, Item.countP_tokensList n is]
end

theorem takeWhile_all {α : Type} (p : α → Bool) (l rest : List α) (x : α)
    (hl : ∀ t ∈ l, p t = true) (hx : p x = false) :
    (l ++ x :: rest).takeWhile p = l := by
  induction l with
  | nil => simp [List.takeWhile_cons, hx]
  | cons a as ih =>
    have ha := hl a (List.mem_cons_self _ _)
    simp only [List.cons_append, List.takeWhile_cons, ha, if_true]
    rw [ih (fun t ht => hl t (List.mem_cons_of_mem _ ht))]

/-- The tokens read of a well-formed document are all but `EndDocument`. -/
theorem readTokens_documentTokens (doc : List Item) :
    readTokens (documentTokens doc) = Token.startDocument :: Item.tokensList doc := by
  unfold readTokens documentTokens
  have h := takeWhile_all Token.live (Token.startDocument :: Item.tokensList doc) []
    Token.endDocument
    (by
      intro t ht
      rcases List.mem_cons.1 ht with h | h
      · rw [h]; rfl
      · exact Item.tokensList_live doc t h)
    rfl
  simpa using h

theorem abbDoc_eq : abbDoc = documentTokens abbContent := by decide

theorem countElementsList_replicate (n : QString) (k : Nat) :
    Item.countElementsList n (List.replicate k (Item.elem n [] [])) = k := by
  induction k with
  | zero => rfl
  | succ k ih =>
    rw [List.replicate_succ, Item.countElementsList, ih, Item.countElements, if_pos rfl,
      Item.countElementsList]
    omega

theorem countElementsList_wideContent (k : Nat) :
    Item.countElementsList "b".toList (wideContent k) = k := by
  rw [wideContent, Item.countElementsList, Item.countElements, if_neg (by decide),
    countElementsList_replicate, Item.countElementsList]
  omega

/-- The count of an element name after `analyzeFile` on a well-formed
document, as an `int` incremented once for each element of that name. -/
theorem analyzeFile_elementCounts (self : XmlAnalyzer) (doc : List Item) (n : QString) :
    (self.analyzeFile (some (documentTokens doc))).elementCounts.value n 0
      = counted (self.elementCounts.value n 0) (Item.countElementsList n doc) := by
  rw [xmlAnalyzeFile_eq, readTokens_documentTokens, foldl_observe_elementCounts_value,
    List.countP_cons, Item.countP_tokensList]
  rfl

/-- C11, as stated, fails: for a document `<a><b/>...<b/></a>` with 2147483648
elements `b`, `analyzeFile` on an empty index leaves `elementCounts["b"]` at
-2147483648. -/
theorem element_counting_counterexample :
    (XmlAnalyzer.new.analyzeFile
        (some (documentTokens (wideContent 2147483648)))).elementCounts.value "b".toList 0
      = -2147483648 ∧
    Item.countElementsList "b".toList (wideContent 2147483648) = 2147483648 := by
  refine ⟨?_, countElementsList_wideContent _⟩
  rw [analyzeFile_elementCounts, countElementsList_wideContent]
  decide

/-- C11, amended. Schema index element counting: for every well-formed
document and every name `n` for which `elementCounts[n]` plus the number of
elements named `n` in the document does not exceed `INT_MAX` (2147483647),
`XmlAnalyzer::analyzeFile` increases `elementCounts[n]` by exactly that
number; it creates an entry only for the names of the elements of the
document; for `<a><b/><b/></a>` on an empty index the entries are `a` with 1
and `b` with 2. -/
theorem element_counting (self : XmlAnalyzer) (doc : List Item) (n : QString)
    (hroom : hasRoom (self.elementCounts.value n 0) (Item.countElementsList n doc)) :
    (self.analyzeFile (some (documentTokens doc))).elementCounts.value n 0
      = self.elementCounts.value n 0 + Item.countElementsList n doc ∧
    (self.analyzeFile (some (documentTokens doc))).elementCounts.contains n
      = (self.elementCounts.contains n || decide (0 < Item.countElementsList n doc)) ∧
    (XmlAnalyzer.new.analyzeFile (some (documentTokens abbContent))).elementCounts.entries
      = [("a".toList, 1), ("b".toList, 2)] := by
  refine ⟨?_, ?_, by decide⟩
  · rw [analyzeFile_elementCounts, counted_of_room hroom]
  · rw [xmlAnalyzeFile_eq, readTokens_documentTokens, foldl_observe_elementCounts_contains,
      List.countP_cons, Item.countP_tokensList]
    simp [Token.isStartOf]

/-- Witness for C11 (amended): the document `<a><b/><b/></a>` on an empty
index, for the name `b`. -/
theorem element_counting_witness :
    (XmlAnalyzer.new.analyzeFile (some (documentTokens abbContent))).elementCounts.value
        "b".toList 0
      = XmlAnalyzer.new.elementCounts.value "b".toList 0
          + Item.countElementsList "b".toList abbContent :=
  (element_counting XmlAnalyzer.new abbContent "b".toList (by decide)).1

theorem pairCount_countPair (map : QMap QString (QMap QString Int)) (p' n p c : QString) :
    ((countPair map p' n).value p QMap.empty).value c 0
      = counted ((map.value p QMap.empty).value c 0) (if p = p' ∧ c = n then 1 else 0) := by
  rw [countPair_eq, value_bumpType, counted_ite]
  by_cases h1 : p = p'
  · subst h1
    rw [if_pos rfl, value_bumpModule]
    by_cases h2 : c = n
    · subst h2
      rw [if_pos rfl, if_pos ⟨rfl, rfl⟩]
    · rw [if_neg h2, if_neg (fun e => h2 e.2)]
  · rw [if_neg h1, if_neg (fun e => h1 e.1)]

/-- The element stack after the loop body has seen a token. -/
theorem observe_stack (state : List QString × XmlAnalyzer) (t : Token) :
    (observe state t).1
      = match t with
        | Token.startElement n _ => n :: state.1
        | Token.endElement _ => state.1.tail
        | _ => state.1 := by
  obtain ⟨stack, self⟩ := state
  cases t with
  | startElement n as => rfl
  | endElement n => cases stack <;> rfl
  | _ => rfl

/-- The parent/child counts after the loop body has seen a token. -/
theorem observe_elementChildren (state : List QString × XmlAnalyzer) (t : Token) :
    (observe state t).2.elementChildren
      = match t, state.1 with
        | Token.startElement n _, parent :: _ => countPair state.2.elementChildren parent n
        | _, _ => state.2.elementChildren := by
  obtain ⟨stack, self⟩ := state
  cases t with
  | startElement n as =>
    simp only [observe, XmlAnalyzer.analyzeToken, QXmlStreamReader.isStartElement, if_true,
      QXmlStreamReader.name, QXmlStreamReader.attributes]
    rw [(countAttribute_elementCounts n _ as).2]
    cases stack <;> rfl
  | endElement n => cases stack <;> rfl
  | _ => cases stack <;> rfl

theorem observe_pairCount_start (stack : List QString) (self : XmlAnalyzer) (n : QString)
    (as : QXmlStreamAttributes) (p c : QString) :
    (observe (stack, self) (Token.startElement n as)).2.pairCount p c
      = counted (self.pairCount p c) (if stack.head? = some p ∧ n = c then 1 else 0) := by
  unfold XmlAnalyzer.pairCount
  rw [observe_elementChildren]
  cases stack with
  | nil => simp [counted]
  | cons parent rest =>
    simp only [pairCount_countPair, List.head?_cons, Option.some.injEq]
    by_cases h1 : p = parent
    · subst h1
      by_cases h2 : c = n
      · subst h2; simp
      · have h2' : ¬ n = c := fun e => h2 e.symm
        simp [h2, h2']
    · have h1' : ¬ parent = p := fun e => h1 e.symm
      simp [h1, h1']

mutual
/-- Reading the tokens of an item leaves the element stack as it was and
raises the pair counts by the pairs of the item. -/
theorem foldl_observe_item (i : Item) (stack : List QString) (self : XmlAnalyzer) :
    (i.tokens.foldl observe (stack, self)).1 = stack ∧
    ∀ p c : QString,
      (i.tokens.foldl observe (stack, self)).2.pairCount p c
        = counted (self.pairCount p c) (i.countPairs p c stack.head?) :=
  match i with
  | Item.text s => ⟨rfl, fun p c => by simp [Item.tokens, Item.countPairs, observe,
      XmlAnalyzer.analyzeToken, QXmlStreamReader.isStartElement,
      QXmlStreamReader.isEndElement, counted]⟩
  | Item.comment => ⟨rfl, fun p c => by simp [Item.tokens, Item.countPairs, observe,
      XmlAnalyzer.analyzeToken, QXmlStreamReader.isStartElement,
      QXmlStreamReader.isEndElement, counted]⟩
  | Item.elem n as content => by
    have hfold : (Item.elem n as content).tokens.foldl observe (stack, self)
        = observe ((Item.tokensList content).foldl observe
            (observe (stack, self) (Token.startElement n as))) (Token.endElement n) := by
      simp only [Item.tokens, List.foldl_cons, List.foldl_append, List.foldl_nil]
    have hstart : observe (stack, self) (Token.startElement n as)
        = (n :: stack, (observe (stack, self) (Token.startElement n as)).2) := by
      apply Prod.ext
      · rw [observe_stack]
      · rfl
    obtain ⟨h1, h2⟩ := foldl_observe_list content (n :: stack)
      (observe (stack, self) (Token.startElement n as)).2
    rw [← hstart] at h1 h2
    rw [hfold]
    refine ⟨?_, ?_⟩
    · rw [observe_stack, h1]
      rfl
    · intro p c
      have hend : (observe ((Item.tokensList content).foldl observe
            (observe (stack, self) (Token.startElement n as))) (Token.endElement n)).2
          = ((Item.tokensList content).foldl observe
            (observe (stack, self) (Token.startElement n as))).2 := by
        generalize (Item.tokensList content).foldl observe
            (observe (stack, self) (Token.startElement n as)) = st
        obtain ⟨s, a⟩ := st
        cases s <;> rfl
      rw [hend, h2 p c, observe_pairCount_start, counted_counted]
      simp only [Item.countPairs, List.head?_cons]
/-- The same for a content list. -/
theorem foldl_observe_list (content : List Item) (stack : List QString) (self : XmlAnalyzer) :
    ((Item.tokensList content).foldl observe (stack, self)).1 = stack ∧
    ∀ p c : QString,
      ((Item.tokensList content).foldl observe (stack, self)).2.pairCount p c
        = counted (self.pairCount p c) (Item.countPairsList p c stack.head? content) :=
  match content with
  | [] => ⟨rfl, fun p c => by simp [Item.tokensList, Item.countPairsList, counted]⟩
  | i :: is => by
    obtain ⟨h1, h2⟩ := foldl_observe_item i stack self
    have hst : i.tokens.foldl observe (stack, self)
        = (stack, (i.tokens.foldl observe (stack, self)).2) := Prod.ext h1 rfl
    obtain ⟨h3, h4⟩ := foldl_observe_list is stack (i.tokens.foldl observe (stack, self)).2
    rw [← hst] at h3 h4
    simp only [Item.tokensList, List.foldl_append]
    refine ⟨h3, ?_⟩
    intro p c
    rw [h4 p c, h2 p c, counted_counted]
    simp only [Item.countPairsList]
end

theorem countPairsList_replicate (p c : QString) (k : Nat) :
    Item.countPairsList p c (some p) (List.replicate k (Item.elem c [] [])) = k := by
  induction k with
  | zero => rfl
  | succ k ih =>
    rw [List.replicate_succ, Item.countPairsList, ih, Item.countPairs, if_pos ⟨rfl, rfl⟩,
      Item.countPairsList]
    omega

theorem countPairsList_wideContent (k : Nat) :
    Item.countPairsList "a".toList "b".toList none (wideContent k) = k := by
  rw [wideContent, Item.countPairsList, Item.countPairs, if_neg (by decide),
    countPairsList_replicate, Item.countPairsList]
  omega

/-- The count of a parent/child pair after `analyzeFile` on a well-formed
document, as an `int` incremented once for each such pair. -/
theorem analyzeFile_pairCount (self : XmlAnalyzer) (doc : List Item) (p c : QString) :
    (self.analyzeFile (some (documentTokens doc))).pairCount p c
      = counted (self.pairCount p c) (Item.countPairsList p c none doc) := by
  rw [xmlAnalyzeFile_eq, readTokens_documentTokens]
  exact (foldl_observe_list doc [] self).2 p c

/-- C12, as stated, fails: for a document `<a><b/>...<b/></a>` with 2147483648
elements `b`, `analyzeFile` on an empty index leaves `elementChildren["a"]["b"]`
at -2147483648. -/
theorem parent_child_counting_counterexample :
    (XmlAnalyzer.new.analyzeFile
        (some (documentTokens (wideContent 2147483648)))).pairCount "a".toList "b".toList
      = -2147483648 ∧
    Item.countPairsList "a".toList "b".toList none (wideContent 2147483648) = 2147483648 := by
  refine ⟨?_, countPairsList_wideContent _⟩
  rw [analyzeFile_pairCount, countPairsList_wideContent]
  decide

/-- C12, amended. Schema index parent/child counting: for every well-formed
document and every pair `p`, `c` for which `elementChildren[p][c]` plus the
number of elements named `c` whose immediate parent element is named `p` does
not exceed `INT_MAX` (2147483647), `analyzeFile` increases
`elementChildren[p][c]` by exactly that number; the root, which has no parent
on the stack, adds to no pair (the pairs of a document with root `r` are those
of the content of `r`); for `<a><b/><b/></a>` on an empty index the pair `a`,
`b` has count 2 and there is no other pair. -/
theorem parent_child_counting (self : XmlAnalyzer) (doc : List Item) (p c : QString)
    (r : QString) (as : QXmlStreamAttributes) (content : List Item)
    (hdoc : hasRoom (self.pairCount p c) (Item.countPairsList p c none doc))
    (hroot : hasRoom (self.pairCount p c) (Item.countPairsList p c (some r) content)) :
    (self.analyzeFile (some (documentTokens doc))).pairCount p c
      = self.pairCount p c + Item.countPairsList p c none doc ∧
    (self.analyzeFile (some (documentTokens [Item.elem r as content]))).pairCount p c
      = self.pairCount p c + Item.countPairsList p c (some r) content ∧
    (XmlAnalyzer.new.analyzeFile
        (some (documentTokens abbContent))).elementChildren.entries.map
          (fun e => (e.1, e.2.entries))
      = [("a".toList, [("b".toList, 2)])] := by
  refine ⟨?_, ?_, by decide⟩
  · rw [analyzeFile_pairCount, counted_of_room hdoc]
  · have hcount : Item.countPairsList p c none [Item.elem r as content]
        = Item.countPairsList p c (some r) content := by
      simp [Item.countPairsList, Item.countPairs]
    rw [analyzeFile_pairCount, hcount, counted_of_room hroot]

/-- Witness for C12 (amended): the document `<a><b/><b/></a>` on an empty
index, for the pair `a`, `b`. -/
theorem parent_child_counting_witness :
    (XmlAnalyzer.new.analyzeFile (some (documentTokens abbContent))).pairCount
        "a".toList "b".toList
      = XmlAnalyzer.new.pairCount "a".toList "b".toList
          + Item.countPairsList "a".toList "b".toList none abbContent :=
  (parent_child_counting XmlAnalyzer.new abbContent "a".toList "b".toList "a".toList []
    [Item.elem "b".toList [] [], Item.elem "b".toList [] []] (by decide) (by decide)).1

theorem attributeSum_countPair (self : XmlAnalyzer) (e x a : QString) :
    sumBy (fun m : QMap QString Int => m.value a 0) (countPair self.elementAttributes e x).entries
      = self.attributeSum a + if x = a then
          wrapInt ((self.elementAttributes.value e QMap.empty).value a 0 + 1)
            - (self.elementAttributes.value e QMap.empty).value a 0
        else 0 := by
  rw [countPair_eq, bumpType,
    sumBy_update (fun m : QMap QString Int => m.value a 0) self.elementAttributes e QMap.empty _ rfl]
  simp only [value_bumpModule, XmlAnalyzer.attributeSum]
  by_cases h : a = x
  · subst h; simp
  · have h' : ¬ x = a := fun e => h e.symm
    simp [h, h']

theorem countAttribute_attributeCounts (n a : QString) (x : QString × QString)
    (self : XmlAnalyzer) :
    (XmlAnalyzer.countAttribute n self x).attributeCounts.value a 0
      = counted (self.attributeCounts.value a 0) (if x.1 = a then 1 else 0) := by
  simp only [XmlAnalyzer.countAttribute, value_countOne]
  by_cases h : x.1 = a
  · rw [if_pos h, if_pos h.symm]
  · rw [if_neg h, if_neg (fun e => h e.symm)]

/-- One round of the attribute loop keeps the counts of `a` in agreement while
the global count of `a` has room. -/
theorem countAttribute_agrees (n a : QString) (x : QString × QString) (self : XmlAnalyzer)
    (h : self.agrees a)
    (hb : self.attributeCounts.value a 0 + (if x.1 = a then 1 else 0) ≤ 2147483647) :
    (XmlAnalyzer.countAttribute n self x).agrees a := by
  obtain ⟨h0, hs, hn⟩ := h
  have hs' : sumBy (fun m : QMap QString Int => m.value a 0) self.elementAttributes.entries
      = self.attributeCounts.value a 0 := hs
  have hw : 0 ≤ (self.elementAttributes.value n QMap.empty).value a 0 ∧
      (self.elementAttributes.value n QMap.empty).value a 0
        ≤ self.attributeCounts.value a 0 := by
    have h := QMap.weight_le_sumBy (fun m : QMap QString Int => m.value a 0)
      self.elementAttributes n QMap.empty rfl hn
    rw [hs'] at h
    exact h
  have hc := countAttribute_attributeCounts n a x self
  have hsum : (XmlAnalyzer.countAttribute n self x).attributeSum a
      = self.attributeSum a + if x.1 = a then
          wrapInt ((self.elementAttributes.value n QMap.empty).value a 0 + 1)
            - (self.elementAttributes.value n QMap.empty).value a 0
        else 0 := attributeSum_countPair self n x.1 a
  have hent : ∀ e ∈ (XmlAnalyzer.countAttribute n self x).elementAttributes.entries,
      e = (n, bumpModule x.1 (self.elementAttributes.value n QMap.empty))
        ∨ e ∈ self.elementAttributes.entries := by
    intro e he
    have he' : e ∈ (countPair self.elementAttributes n x.1).entries := he
    rw [countPair_eq, bumpType] at he'
    exact mem_insertEntry_eq he'
  by_cases hx : x.1 = a
  · rw [if_pos hx] at hb hc hsum
    have hv : wrapInt (self.attributeCounts.value a 0 + 1) = self.attributeCounts.value a 0 + 1 :=
      wrapInt_of_range (by omega) (by omega)
    have hv' : wrapInt ((self.elementAttributes.value n QMap.empty).value a 0 + 1)
        = (self.elementAttributes.value n QMap.empty).value a 0 + 1 :=
      wrapInt_of_range (by have := hw.1; omega) (by have := hw.2; omega)
    rw [counted_one, hv] at hc
    rw [hv'] at hsum
    refine ⟨by rw [hc]; omega, by rw [hsum, hc, hs]; omega, ?_⟩
    intro e he
    rcases hent e he with h1 | h1
    · rw [h1]
      show 0 ≤ (bumpModule x.1 (self.elementAttributes.value n QMap.empty)).value a 0
      rw [value_bumpModule, if_pos hx.symm, hx, hv']
      have := hw.1
      omega
    · exact hn e h1
  · rw [if_neg hx] at hb hc hsum
    rw [counted_zero] at hc
    refine ⟨by rw [hc]; exact h0, by rw [hsum, hc, hs]; omega, ?_⟩
    intro e he
    rcases hent e he with h1 | h1
    · rw [h1]
      show 0 ≤ (bumpModule x.1 (self.elementAttributes.value n QMap.empty)).value a 0
      rw [value_bumpModule, if_neg (fun e => hx e.symm)]
      exact hw.1
    · exact hn e h1

theorem foldl_countAttribute_counts (n a : QString) (as : QXmlStreamAttributes)
    (self : XmlAnalyzer) :
    (as.foldl (XmlAnalyzer.countAttribute n) self).attributeCounts.value a 0
      = counted (self.attributeCounts.value a 0) (as.countP (fun x => decide (x.1 = a))) := by
  induction as generalizing self with
  | nil => rfl
  | cons x xs ih =>
    simp only [List.foldl_cons, List.countP_cons]
    rw [ih, countAttribute_attributeCounts, counted_counted, Nat.add_comm]
    simp

theorem foldl_countAttribute_agrees (n a : QString) (as : QXmlStreamAttributes)
    (self : XmlAnalyzer) (h : self.agrees a)
    (hb : self.attributeCounts.value a 0 + as.countP (fun x => decide (x.1 = a))
      ≤ 2147483647) :
    (as.foldl (XmlAnalyzer.countAttribute n) self).agrees a := by
  induction as generalizing self with
  | nil => exact h
  | cons x xs ih =>
    rw [List.countP_cons] at hb
    have hite : (if decide (x.1 = a) = true then 1 else 0 : Nat) = if x.1 = a then 1 else 0 := by
      simp
    rw [hite, Nat.cast_add] at hb
    have hstep : self.attributeCounts.value a 0 + ((if x.1 = a then 1 else 0 : Nat) : Int)
        ≤ 2147483647 := by
      have : (0 : Int) ≤ ((xs.countP (fun x => decide (x.1 = a)) : Nat) : Int) :=
        Int.ofNat_nonneg _
      omega
    have h1 := countAttribute_agrees n a x self h (by
      split_ifs at hstep ⊢ <;> simpa using hstep)
    have hc := countAttribute_attributeCounts n a x self
    rw [counted_of_room ⟨by have := h.1; omega, hstep⟩] at hc
    rw [List.foldl_cons]
    exact ih _ h1 (by rw [hc]; omega)

/-- The global count of an attribute after the loop body has seen a token. -/
theorem observe_attributeCounts (state : List QString × XmlAnalyzer) (t : Token) (a : QString) :
    (observe state t).2.attributeCounts.value a 0
      = counted (state.2.attributeCounts.value a 0) (t.attributeCount a) := by
  obtain ⟨stack, self⟩ := state
  cases t with
  | startElement n as =>
    simp only [observe, XmlAnalyzer.analyzeToken, QXmlStreamReader.isStartElement, if_true,
      QXmlStreamReader.name, QXmlStreamReader.attributes, Token.attributeCount]
    cases stack with
    | nil => exact foldl_countAttribute_counts n a as _
    | cons parent rest => exact foldl_countAttribute_counts n a as _
  | endElement n => cases stack <;> rfl
  | _ => rfl

theorem observe_agrees (state : List QString × XmlAnalyzer) (t : Token) (a : QString)
    (h : state.2.agrees a)
    (hb : state.2.attributeCounts.value a 0 + t.attributeCount a ≤ 2147483647) :
    (observe state t).2.agrees a := by
  obtain ⟨stack, self⟩ := state
  cases t with
  | startElement n as =>
    simp only [observe, XmlAnalyzer.analyzeToken, QXmlStreamReader.isStartElement, if_true,
      QXmlStreamReader.name, QXmlStreamReader.attributes, Token.attributeCount]
    cases stack with
    | nil => exact foldl_countAttribute_agrees n a as _ h hb
    | cons parent rest => exact foldl_countAttribute_agrees n a as _ h hb
  | endElement n => cases stack <;> exact h
  | _ => exact h

theorem foldl_observe_attributeCounts (tokens : List Token)
    (state : List QString × XmlAnalyzer) (a : QString) :
    (tokens.foldl observe state).2.attributeCounts.value a 0
      = counted (state.2.attributeCounts.value a 0)
          (tokens.map (Token.attributeCount a)).sum := by
  induction tokens generalizing state with
  | nil => rfl
  | cons t ts ih =>
    simp only [List.foldl_cons, List.map_cons, List.sum_cons]
    rw [ih, observe_attributeCounts, counted_counted]

theorem foldl_observe_agrees (tokens : List Token) (state : List QString × XmlAnalyzer)
    (a : QString) (h : state.2.agrees a)
    (hb : state.2.attributeCounts.value a 0 + ((tokens.map (Token.attributeCount a)).sum : Nat)
      ≤ 2147483647) :
    (tokens.foldl observe state).2.agrees a := by
  induction tokens generalizing state with
  | nil => exact h
  | cons t ts ih =>
    simp only [List.map_cons, List.sum_cons] at hb
    rw [Nat.cast_add] at hb
    have hts : (0 : Int) ≤ (((ts.map (Token.attributeCount a)).sum : Nat) : Int) :=
      Int.ofNat_nonneg _
    have hstep : state.2.attributeCounts.value a 0 + t.attributeCount a ≤ 2147483647 := by
      omega
    have h1 := observe_agrees state t a h hstep
    have hc := observe_attributeCounts state t a
    rw [counted_of_room ⟨by have := h.1; omega, hstep⟩] at hc
    rw [List.foldl_cons]
    exact ih _ h1 (by rw [hc]; omega)

/-- The global count of an attribute after `analyzeFile`, as an `int`
incremented once for each occurrence of the attribute. -/
theorem analyzeFile_attributeCounts (self : XmlAnalyzer) (file : Option (List Token))
    (a : QString) :
    (self.analyzeFile file).attributeCounts.value a 0
      = counted (self.attributeCounts.value a 0) (attributeOccurrences a file) := by
  cases file with
  | none => rfl
  | some tokens =>
    rw [xmlAnalyzeFile_eq]
    exact foldl_observe_attributeCounts (readTokens tokens) ([], self) a

theorem analyzeFile_agrees (self : XmlAnalyzer) (file : Option (List Token)) (a : QString)
    (h : self.agrees a)
    (hb : self.attributeCounts.value a 0 + attributeOccurrences a file ≤ 2147483647) :
    (self.analyzeFile file).agrees a := by
  cases file with
  | none => exact h
  | some tokens =>
    rw [xmlAnalyzeFile_eq]
    exact foldl_observe_agrees (readTokens tokens) ([], self) a h hb

theorem analyzeFiles_attributeCounts (files : List (Option (List Token))) (self : XmlAnalyzer)
    (a : QString) :
    (self.analyzeFiles files).attributeCounts.value a 0
      = counted (self.attributeCounts.value a 0) (files.map (attributeOccurrences a)).sum := by
  induction files generalizing self with
  | nil => rfl
  | cons f fs ih =>
    have hcons : self.analyzeFiles (f :: fs) = (self.analyzeFile f).analyzeFiles fs := rfl
    rw [hcons, ih, analyzeFile_attributeCounts, counted_counted]
    simp only [List.map_cons, List.sum_cons]

theorem analyzeFiles_agrees (files : List (Option (List Token))) (self : XmlAnalyzer)
    (a : QString) (h : self.agrees a)
    (hb : self.attributeCounts.value a 0 + ((files.map (attributeOccurrences a)).sum : Nat)
      ≤ 2147483647) :
    (self.analyzeFiles files).agrees a := by
  induction files generalizing self with
  | nil => exact h
  | cons f fs ih =>
    have hcons : self.analyzeFiles (f :: fs) = (self.analyzeFile f).analyzeFiles fs := rfl
    simp only [List.map_cons, List.sum_cons] at hb
    rw [Nat.cast_add] at hb
    have hfs : (0 : Int) ≤ (((fs.map (attributeOccurrences a)).sum : Nat) : Int) :=
      Int.ofNat_nonneg _
    have hstep : self.attributeCounts.value a 0 + attributeOccurrences a f ≤ 2147483647 := by
      omega
    have h1 := analyzeFile_agrees self f a h hstep
    have hc := analyzeFile_attributeCounts self f a
    rw [counted_of_room ⟨by have := h.1; omega, hstep⟩] at hc
    rw [hcons]
    exact ih _ h1 (by rw [hc]; omega)

theorem sum_map_replicate {α : Type} (f : α → Nat) (x : α) (n : Nat) :
    ((List.replicate n x).map f).sum = n * f x := by
  induction n with
  | zero => simp
  | succ n ih =>
    rw [List.replicate_succ, List.map_cons, List.sum_cons, ih]
    ring

/-- C13, as stated, fails: after `analyzeFile` on 2147483648 copies of
`<module name="foo"/>`, from a new analyzer, `attributeCounts["name"]` is
-2147483648, while the attribute `name` has occurred 2147483648 times. -/
theorem attribute_counting_counterexample :
    (XmlAnalyzer.new.analyzeFiles
        (List.replicate 2147483648 (some fooDoc))).attributeCounts.value "name".toList 0
      = -2147483648 ∧
    ((List.replicate 2147483648 (some fooDoc)).map
        (attributeOccurrences "name".toList)).sum = 2147483648 := by
  have hocc : attributeOccurrences "name".toList (some fooDoc) = 1 := by decide
  refine ⟨?_, ?_⟩
  · rw [analyzeFiles_attributeCounts, sum_map_replicate, hocc]
    decide
  · rw [sum_map_replicate, hocc]

/-- C13, amended. Schema index attribute counting: every attribute occurrence
raises both the global count of its name and the count of its (element,
attribute) pair, so after any sequence of `analyzeFile` calls on a new
analyzer, for every attribute name `a` that has occurred at most `INT_MAX`
(2147483647) times on the tokens read so far, `attributeCounts[a]` equals the
sum over all element names `e` of `elementAttributes[e][a]`, and both equal
the number of attribute occurrences named `a` on the tokens read so far. -/
theorem attribute_counting (files : List (Option (List Token))) (a : QString)
    (hn : (files.map (attributeOccurrences a)).sum ≤ 2147483647) :
    (XmlAnalyzer.new.analyzeFiles files).attributeCounts.value a 0
      = (XmlAnalyzer.new.analyzeFiles files).attributeSum a ∧
    (XmlAnalyzer.new.analyzeFiles files).attributeCounts.value a 0
      = ((files.map (attributeOccurrences a)).sum : Nat) := by
  have h0 : XmlAnalyzer.new.attributeCounts.value a 0 = 0 := rfl
  have hag : XmlAnalyzer.new.agrees a :=
    ⟨le_of_eq h0.symm, rfl, fun e he => absurd he (List.not_mem_nil e)⟩
  have hb : XmlAnalyzer.new.attributeCounts.value a 0
      + ((files.map (attributeOccurrences a)).sum : Nat) ≤ 2147483647 := by
    rw [h0]
    omega
  have h1 := analyzeFiles_agrees files XmlAnalyzer.new a hag hb
  have h2 := analyzeFiles_attributeCounts files XmlAnalyzer.new a
  rw [counted_of_room ⟨by rw [h0]; decide, hb⟩, h0, Int.zero_add] at h2
  exact ⟨h1.2.1.symm, h2⟩

/-- Witness for C13 (amended): two files, the attribute `name`. -/
theorem attribute_counting_witness :
    (XmlAnalyzer.new.analyzeFiles [some fooDoc, some abbDoc]).attributeCounts.value
        "name".toList 0
      = (XmlAnalyzer.new.analyzeFiles [some fooDoc, some abbDoc]).attributeSum "name".toList :=
  (attribute_counting [some fooDoc, some abbDoc] "name".toList (by decide)).1

/-! ## Placeholders -/

theorem orPlaceholder_ne_nil (field placeholder : QString) (b : Bool) (hp : placeholder ≠ []) :
    (orPlaceholder field placeholder b).1 ≠ [] := by
  rw [orPlaceholder_fst]
  split_ifs with h
  · exact hp
  · exact h

/-- The three placeholder blocks at the end of `parseModuleFile`, applied to
the data the loop has left. -/
theorem parseModuleData_eq (relativeFilePath : QString) (tokens : List Token) :
    parseModuleData relativeFilePath tokens
      = (let data := parseModuleLoop (tokens.length + 1) (QXmlStreamReader.onFile tokens)
            (blankData relativeFilePath)
         let data :=
           if data.groupOwner.isEmpty then { data with groupOwner := "(no GroupOwner)".toList }
           else data
         let data :=
           if data.classification.isEmpty then
             { data with classification := "(no classification)".toList }
           else data
         if data.moduleName.isEmpty then { data with moduleName := "(no name)".toList }
         else data) := rfl

/-- The fields of the `ModuleData` of a file in terms of the data the loop of
`parseModuleFile` has left. -/
theorem parseModuleData_fields (relativeFilePath : QString) (tokens : List Token) :
    (parseModuleData relativeFilePath tokens).groupOwner
      = (if (parseModuleLoop (tokens.length + 1) (QXmlStreamReader.onFile tokens)
              (blankData relativeFilePath)).groupOwner = []
         then "(no GroupOwner)".toList
         else (parseModuleLoop (tokens.length + 1) (QXmlStreamReader.onFile tokens)
              (blankData relativeFilePath)).groupOwner) ∧
    (parseModuleData relativeFilePath tokens).classification
      = (if (parseModuleLoop (tokens.length + 1) (QXmlStreamReader.onFile tokens)
              (blankData relativeFilePath)).classification = []
         then "(no classification)".toList
         else (parseModuleLoop (tokens.length + 1) (QXmlStreamReader.onFile tokens)
              (blankData relativeFilePath)).classification) ∧
    (parseModuleData relativeFilePath tokens).moduleName
      = (if (parseModuleLoop (tokens.length + 1) (QXmlStreamReader.onFile tokens)
              (blankData relativeFilePath)).moduleName = []
         then "(no name)".toList
         else (parseModuleLoop (tokens.length + 1) (QXmlStreamReader.onFile tokens)
              (blankData relativeFilePath)).moduleName) ∧
    (parseModuleData relativeFilePath tokens).rootElement
      = (parseModuleLoop (tokens.length + 1) (QXmlStreamReader.onFile tokens)
              (blankData relativeFilePath)).rootElement := by
  rw [parseModuleData_eq]
  generalize parseModuleLoop (tokens.length + 1) (QXmlStreamReader.onFile tokens)
    (blankData relativeFilePath) = d
  obtain ⟨g, c, m, r, e⟩ := d
  cases g <;> cases c <;> cases m <;> simp [List.isEmpty]

/-- C14. No key of a classification tuple is ever the empty string: for every
document, the four keys that `analyzeFile` of moduleclassifier passes to
`addToHierarchy` are non-empty, and the `groupOwner`, `classification` and
`moduleName` that `parseModuleFile` of the navigator stores are non-empty;
the hierarchy only ever receives the substituted tuple. -/
theorem keys_never_empty (self : ModuleAnalyzer) (relativeFilePath : QString)
    (tokens : List Token) :
    (keyTuple tokens).1 ≠ [] ∧ (keyTuple tokens).2.1 ≠ [] ∧
    (keyTuple tokens).2.2.1 ≠ [] ∧ (keyTuple tokens).2.2.2 ≠ [] ∧
    (self.analyzeFile (some tokens)).hierarchy
      = addToHierarchy self.hierarchy (keyTuple tokens).1 (keyTuple tokens).2.1
          (keyTuple tokens).2.2.1 (keyTuple tokens).2.2.2 ∧
    (parseModuleData relativeFilePath tokens).groupOwner ≠ [] ∧
    (parseModuleData relativeFilePath tokens).classification ≠ [] ∧
    (parseModuleData relativeFilePath tokens).moduleName ≠ [] := by
  obtain ⟨hg, hc, hm, _⟩ := parseModuleData_fields relativeFilePath tokens
  refine ⟨orPlaceholder_ne_nil _ _ _ (by decide), orPlaceholder_ne_nil _ _ _ (by decide),
    orPlaceholder_ne_nil _ _ _ (by decide), orPlaceholder_ne_nil _ _ _ (by decide),
    analyzeFile_hierarchy self tokens, ?_, ?_, ?_⟩
  · rw [hg]; split_ifs with h
    · decide
    · exact h
  · rw [hc]; split_ifs with h
    · decide
    · exact h
  · rw [hm]; split_ifs with h
    · decide
    · exact h

/-- Without a `module` start element among the pending tokens, the loop of
`parseModuleFile` leaves the data as it is. -/
theorem parseModuleLoop_no_module (n : Nat) :
    ∀ (xml : QXmlStreamReader) (data : ModuleData),
      (∀ t ∈ xml.pending, Token.isStartOf "module".toList t = false) →
      parseModuleLoop n xml data = data := by
  induction n with
  | zero => intro xml data _; rfl
  | succ n ih =>
    intro xml data hp
    simp only [parseModuleLoop]
    by_cases hend : xml.atEnd = true
    · simp [hend]
    · simp only [hend, Bool.false_eq_true, if_false]
      have hp' : ∀ t ∈ xml.readNext.pending, Token.isStartOf "module".toList t = false :=
        fun t ht => hp t (readNext_pending_subset xml t ht)
      by_cases hs : xml.readNext.isStartElement = true
      · have hne : xml.readNext.name ≠ "module".toList := by
          have h5 := hp _ (readNext_start_mem xml hs)
          rw [isStartOf_name _ hs] at h5
          simpa using h5
        rw [if_pos hs]
        simp only [if_neg hne]
        exact ih _ _ hp'
      · rw [if_neg hs]
        exact ih _ _ hp'

theorem XmlElement.attributes_setText (e : XmlElement) (t : QString) :
    (e.setText t).attributes = e.attributes := by
  cases e; rfl

theorem XmlElement.attributes_appendChild (e c : XmlElement) :
    (e.appendChild c).attributes = e.attributes := by
  cases e; rfl

theorem XmlElement.name_setText (e : XmlElement) (t : QString) : (e.setText t).name = e.name := by
  cases e; rfl

theorem XmlElement.name_appendChild (e c : XmlElement) : (e.appendChild c).name = e.name := by
  cases e; rfl

/-- The loop of `parseXmlElement` keeps the name and the attribute map of the
element it works on. -/
theorem parseXmlElementLoop_attributes (n : Nat) :
    ∀ (xml : QXmlStreamReader) (e : XmlElement),
      (parseXmlElementLoop n xml e).1.attributes = e.attributes ∧
      (parseXmlElementLoop n xml e).1.name = e.name := by
  induction n with
  | zero => intro xml e; exact ⟨rfl, rfl⟩
  | succ n ih =>
    intro xml e
    simp only [parseXmlElementLoop]
    split_ifs
    · exact ⟨rfl, rfl⟩
    · exact ⟨rfl, rfl⟩
    · obtain ⟨h1, h2⟩ := ih
        (parseXmlElementLoop n xml.readNext (newElement xml.readNext)).2
        (e.appendChild (parseXmlElementLoop n xml.readNext (newElement xml.readNext)).1)
      exact ⟨h1.trans (XmlElement.attributes_appendChild _ _),
        h2.trans (XmlElement.name_appendChild _ _)⟩
    · obtain ⟨h1, h2⟩ := ih xml.readNext (e.setText (trimmed xml.readNext.text))
      exact ⟨h1.trans (XmlElement.attributes_setText _ _),
        h2.trans (XmlElement.name_setText _ _)⟩
    · exact ih _ _
    · exact ih _ _

theorem moduleRoot_attributes (attrs : QXmlStreamAttributes) (post : List Token) :
    (moduleRoot attrs post).attributes = attributeMap attrs :=
  (parseXmlElementLoop_attributes _ _ _).1

theorem foldl_insert_value_of_not_mem (k : QString) (attrs : QXmlStreamAttributes)
    (m : QMap QString QString) (h : hasAttribute attrs k = false) :
    (attrs.foldl (fun m a => m.insert a.1 a.2) m).value k [] = m.value k [] := by
  induction attrs generalizing m with
  | nil => rfl
  | cons a as ih =>
    simp only [hasAttribute, List.any_cons, Bool.or_eq_false_iff, beq_eq_false_iff_ne] at h
    simp only [List.foldl_cons]
    rw [ih _ (by simpa [hasAttribute] using h.2), QMap.value_insert]
    have hne : ¬ k = a.1 := fun e => h.1 e.symm
    simp [hne]

/-- An attribute that is not on the start element has no value in the
attribute map of the element. -/
theorem attributeMap_value_of_not_hasAttribute (k : QString) (attrs : QXmlStreamAttributes)
    (h : hasAttribute attrs k = false) : (attributeMap attrs).value k [] = [] :=
  foldl_insert_value_of_not_mem k attrs QMap.empty h

/-- The name `parseModuleFile` stores for a file whose first `module` start
element, read after the tokens `pre`, has the attributes `attrs`. -/
theorem parseModuleData_moduleName (relativeFilePath : QString) (pre post : List Token)
    (attrs : QXmlStreamAttributes)
    (hpre : ∀ t ∈ pre, t.live = true ∧ t.isStartOf "module".toList = false) :
    (parseModuleData relativeFilePath
        (pre ++ Token.startElement "module".toList attrs :: post)).moduleName
      = (if (attributeMap attrs).value "name".toList [] = [] then "(no name)".toList
         else (attributeMap attrs).value "name".toList []) := by
  rw [(parseModuleData_fields relativeFilePath _).2.2.1,
    parseModuleLoop_module pre post attrs hpre (blankData relativeFilePath),
    extractTopLevelFields_some]
  have hroot : (parseXmlElement ⟨Token.startElement "module".toList attrs, post⟩).1
      = moduleRoot attrs post := rfl
  rw [hroot, (foldl_extractStep_frame _ _).2.1, moduleRoot_attributes]
  have hname : (if (attributeMap attrs).contains "name".toList = true then
        ({ blankData relativeFilePath with
            rootElement := some (moduleRoot attrs post),
            moduleName := (attributeMap attrs).value "name".toList [] } : ModuleData)
        else { blankData relativeFilePath with
            rootElement := some (moduleRoot attrs post) }).moduleName
      = (attributeMap attrs).value "name".toList [] := by
    cases hc : (attributeMap attrs).contains "name".toList with
    | true => simp
    | false =>
      simp only [Bool.false_eq_true, if_false]
      exact (QMap.value_of_not_contains hc []).symm
  rw [hname]

theorem parseModuleData_no_module (relativeFilePath : QString) (tokens : List Token)
    (h : ∀ t ∈ tokens, Token.isStartOf "module".toList t = false) :
    parseModuleData relativeFilePath tokens
      = { groupOwner := "(no GroupOwner)".toList,
          classification := "(no classification)".toList,
          moduleName := "(no name)".toList,
          relativePath := chop relativeFilePath 12,
          rootElement := none } := by
  rw [parseModuleData_eq, parseModuleLoop_no_module _ _ _ h]
  rfl

/-- C17. Absent root is not an error: for every token stream that ends
without error and holds no start element named `module`, `parseModuleFile`
appends exactly one `ModuleData` to `modules`; its `rootElement` is null and
its `groupOwner`, `classification` and `moduleName` are the placeholder
strings `"(no GroupOwner)"`, `"(no classification)"` and `"(no name)"`. -/
theorem absent_root_not_error (self : ModuleViewer) (relativeFilePath : QString)
    (body : List Token)
    (hbody : ∀ t ∈ body, t.live = true ∧ t.isStartOf "module".toList = false) :
    (self.parseModuleFile relativeFilePath (some (body ++ [Token.endDocument]))).modules
      = self.modules ++
          [{ groupOwner := "(no GroupOwner)".toList,
             classification := "(no classification)".toList,
             moduleName := "(no name)".toList,
             relativePath := chop relativeFilePath 12,
             rootElement := none }] := by
  have h : ∀ t ∈ body ++ [Token.endDocument], Token.isStartOf "module".toList t = false := by
    intro t ht
    rcases List.mem_append.1 ht with h1 | h1
    · exact (hbody t h1).2
    · rw [List.mem_singleton.1 h1]; rfl
  simp only [ModuleViewer.parseModuleFile, parseModuleData_no_module _ _ h]

/-- Witness for C17: the document `<project></project>`. -/
theorem absent_root_not_error_witness :
    ((ModuleViewer.mk []).parseModuleFile "lib/c/module.tmpl".toList
        (some ([Token.startDocument, Token.startElement "project".toList [],
          Token.endElement "project".toList] ++ [Token.endDocument]))).modules
      = [] ++
          [{ groupOwner := "(no GroupOwner)".toList,
             classification := "(no classification)".toList,
             moduleName := "(no name)".toList,
             relativePath := chop "lib/c/module.tmpl".toList 12,
             rootElement := none }] :=
  absent_root_not_error (ModuleViewer.mk []) "lib/c/module.tmpl".toList
    [Token.startDocument, Token.startElement "project".toList [],
      Token.endElement "project".toList] (by decide)

/-- C15, as stated, fails: for a document without a `module` element the
navigator stores the name `"(no name)"`, which is not the placeholder
`"(no module name)"` that `analyzeFile` of moduleclassifier uses for the same
document. -/
theorem name_placeholder_counterexample :
    (parseModuleData [] noModuleDoc).rootElement.isNone = true ∧
    (parseModuleData [] noModuleDoc).moduleName = "(no name)".toList ∧
    (parseModuleData [] noModuleDoc).moduleName ≠ "(no module name)".toList ∧
    (keyTuple noModuleDoc).2.2.2 = "(no module name)".toList := by
  decide

/-- C15, amended. Whenever the root element is absent (no `module` start
element in the file), or the name attribute of the root is absent or empty,
the name that `parseModuleFile` of the navigator stores is the fixed
placeholder `"(no name)"`; it is not the placeholder `"(no module name)"` of
moduleclassifier. -/
theorem navigator_name_placeholder (relativeFilePath : QString) (tokens : List Token)
    (h : (∀ t ∈ tokens, Token.isStartOf "module".toList t = false) ∨
      ∃ (pre post : List Token) (attrs : QXmlStreamAttributes),
        tokens = pre ++ Token.startElement "module".toList attrs :: post ∧
        (∀ t ∈ pre, t.live = true ∧ t.isStartOf "module".toList = false) ∧
        (hasAttribute attrs "name".toList = false ∨
          (attributeMap attrs).value "name".toList [] = [])) :
    (parseModuleData relativeFilePath tokens).moduleName = "(no name)".toList ∧
    (parseModuleData relativeFilePath tokens).moduleName ≠ "(no module name)".toList := by
  have hname : (parseModuleData relativeFilePath tokens).moduleName = "(no name)".toList := by
    rcases h with h | ⟨pre, post, attrs, rfl, hpre, hattr⟩
    · rw [parseModuleData_no_module _ _ h]
    · have hv : (attributeMap attrs).value "name".toList [] = [] := by
        rcases hattr with h1 | h1
        · exact attributeMap_value_of_not_hasAttribute _ _ h1
        · exact h1
      rw [parseModuleData_moduleName _ _ _ _ hpre, if_pos hv]
  refine ⟨hname, ?_⟩
  rw [hname]
  decide

/-- Witness for C15 (amended): a root `<module>` without a name attribute. -/
theorem navigator_name_placeholder_witness :
    (parseModuleData []
        ([Token.startDocument] ++ Token.startElement "module".toList [] ::
          [Token.endElement "module".toList, Token.endDocument])).moduleName
      = "(no name)".toList ∧
    (parseModuleData []
        ([Token.startDocument] ++ Token.startElement "module".toList [] ::
          [Token.endElement "module".toList, Token.endDocument])).moduleName
      ≠ "(no module name)".toList :=
  navigator_name_placeholder [] _
    (Or.inr ⟨[Token.startDocument], [Token.endElement "module".toList, Token.endDocument], [],
      rfl, by decide, Or.inl rfl⟩)

/-! ## The hierarchy of moduleclassifier: what one insertion touches -/

theorem contains_update (V : Type) (m : QMap QString V) (k k' : QString) (d : V) (f : V → V) :
    (m.update k d f).contains k' = (decide (k' = k) || m.contains k') := by
  unfold QMap.update
  rw [QMap.contains_insert]
  by_cases h : k' = k
  · simp [h]
  · simp [h]

theorem contains_addToHierarchy (h : Hierarchy) (o c t m o' : QString) :
    (addToHierarchy h o c t m).contains o' = (decide (o' = o) || h.contains o') := by
  rw [addToHierarchy_eq, contains_update]

theorem value_addToHierarchy (h : Hierarchy) (o c t m o' : QString) :
    (addToHierarchy h o c t m).value o' QMap.empty
      = if o' = o then bumpClass c t m (h.value o QMap.empty) else h.value o' QMap.empty :=
  value_addTuple h (o, c, t, m) o'

theorem contains_class_addToHierarchy (h : Hierarchy) (o c t m o' c' : QString) :
    ((addToHierarchy h o c t m).value o' QMap.empty).contains c'
      = (decide (o' = o ∧ c' = c) || (h.value o' QMap.empty).contains c') := by
  rw [value_addToHierarchy]
  by_cases h1 : o' = o
  · subst h1
    rw [if_pos rfl, bumpClass, contains_update]
    by_cases h2 : c' = c
    · simp [h2]
    · simp [h2]
  · simp [h1]

theorem contains_type_addToHierarchy (h : Hierarchy) (o c t m o' c' t' : QString) :
    (((addToHierarchy h o c t m).value o' QMap.empty).value c' QMap.empty).contains t'
      = (decide (o' = o ∧ c' = c ∧ t' = t) ||
          ((h.value o' QMap.empty).value c' QMap.empty).contains t') := by
  rw [value_addToHierarchy]
  by_cases h1 : o' = o
  · subst h1
    rw [if_pos rfl, value_bumpClass]
    by_cases h2 : c' = c
    · subst h2
      rw [if_pos rfl, bumpType, contains_update]
      by_cases h3 : t' = t
      · simp [h3]
      · simp [h3]
    · simp [h2]
  · simp [h1]

theorem contains_module_addToHierarchy (h : Hierarchy) (o c t m o' c' t' m' : QString) :
    ((((addToHierarchy h o c t m).value o' QMap.empty).value c' QMap.empty).value t'
        QMap.empty).contains m'
      = (decide (o' = o ∧ c' = c ∧ t' = t ∧ m' = m) ||
          (((h.value o' QMap.empty).value c' QMap.empty).value t' QMap.empty).contains m') := by
  rw [value_addToHierarchy]
  by_cases h1 : o' = o
  · subst h1
    rw [if_pos rfl, value_bumpClass]
    by_cases h2 : c' = c
    · subst h2
      rw [if_pos rfl, value_bumpType]
      by_cases h3 : t' = t
      · subst h3
        rw [if_pos rfl, bumpModule, contains_update]
        by_cases h4 : m' = m
        · simp [h4]
        · simp [h4]
      · simp [h3]
    · simp [h2]
  · simp [h1]

/-- C18, as stated, fails: in the hierarchy built by 2147483647 insertions of
one tuple the leaf count of the tuple is `INT_MAX`; one more `addToHierarchy`
for it takes the leaf count to -2147483648, which is smaller and not one
larger. -/
theorem insert_touches_terminal_only_counterexample :
    leafCount (addAll QMap.empty (List.replicate 2147483647 sampleTuple)) sampleTuple
      = 2147483647 ∧
    leafCount (addToHierarchy (addAll QMap.empty (List.replicate 2147483647 sampleTuple))
        sampleTuple.1 sampleTuple.2.1 sampleTuple.2.2.1 sampleTuple.2.2.2) sampleTuple
      = -2147483648 := by
  have hadd : ∀ h : Hierarchy,
      addToHierarchy h sampleTuple.1 sampleTuple.2.1 sampleTuple.2.2.1 sampleTuple.2.2.2
        = addTuple h sampleTuple := fun _ => rfl
  have hcount : leafCount (addAll QMap.empty (List.replicate 2147483647 sampleTuple))
      sampleTuple = 2147483647 := by
    rw [leafCount_addAll, countP_replicate_eq, if_pos (decide_eq_true rfl)]
    decide
  refine ⟨hcount, ?_⟩
  rw [hadd, leafCount_addTuple, if_pos rfl, hcount]
  decide

/-- C18, amended. Insert touches only the terminal node and counts never
decrease: for every hierarchy `h` and tuple `(o, c, t, m)` whose leaf count
and whose subtree totals at `(o, c, t)`, `(o, c)` and `o` are below `INT_MAX`
(2147483647), `addToHierarchy` makes the leaf count at `(o, c, t, m)` exactly
one larger than before (1 if the path did not exist), leaves the count of
every other leaf unchanged, and creates no key other than those on the path
`o`, `c`, `t`, `m`; no leaf count and no subtree total is smaller after the
insertion than before it. -/
theorem insert_touches_terminal_only (h : Hierarchy) (o c t m : QString)
    (hleaf : hasRoom (leafCount h (o, c, t, m)) 1)
    (htype : hasRoom (typeTotal h o c t) 1)
    (hclass : hasRoom (classTotal h o c) 1)
    (howner : hasRoom (ownerTotal h o) 1) :
    leafCount (addToHierarchy h o c t m) (o, c, t, m) = leafCount h (o, c, t, m) + 1 ∧
    ((((h.value o QMap.empty).value c QMap.empty).value t QMap.empty).contains m = false →
      leafCount (addToHierarchy h o c t m) (o, c, t, m) = 1) ∧
    (∀ k : KeyTuple, k ≠ (o, c, t, m) →
      leafCount (addToHierarchy h o c t m) k = leafCount h k) ∧
    (∀ o' : QString,
      (addToHierarchy h o c t m).contains o' = (decide (o' = o) || h.contains o')) ∧
    (∀ o' c' : QString,
      ((addToHierarchy h o c t m).value o' QMap.empty).contains c'
        = (decide (o' = o ∧ c' = c) || (h.value o' QMap.empty).contains c')) ∧
    (∀ o' c' t' : QString,
      (((addToHierarchy h o c t m).value o' QMap.empty).value c' QMap.empty).contains t'
        = (decide (o' = o ∧ c' = c ∧ t' = t) ||
            ((h.value o' QMap.empty).value c' QMap.empty).contains t')) ∧
    (∀ o' c' t' m' : QString,
      ((((addToHierarchy h o c t m).value o' QMap.empty).value c' QMap.empty).value t'
          QMap.empty).contains m'
        = (decide (o' = o ∧ c' = c ∧ t' = t ∧ m' = m) ||
            (((h.value o' QMap.empty).value c' QMap.empty).value t' QMap.empty).contains m')) ∧
    (∀ k : KeyTuple, leafCount h k ≤ leafCount (addToHierarchy h o c t m) k) ∧
    (∀ o' c' t' : QString,
      typeTotal h o' c' t' ≤ typeTotal (addToHierarchy h o c t m) o' c' t') ∧
    (∀ o' c' : QString, classTotal h o' c' ≤ classTotal (addToHierarchy h o c t m) o' c') ∧
    (∀ o' : QString, ownerTotal h o' ≤ ownerTotal (addToHierarchy h o c t m) o') ∧
    grandTotal h ≤ grandTotal (addToHierarchy h o c t m) := by
  have hadd : addToHierarchy h o c t m = addTuple h (o, c, t, m) := rfl
  refine ⟨?_, ?_, ?_, contains_addToHierarchy h o c t m, contains_class_addToHierarchy h o c t m,
    contains_type_addToHierarchy h o c t m, contains_module_addToHierarchy h o c t m,
    ?_, ?_, ?_, ?_, ?_⟩
  · rw [hadd, leafCount_addTuple, if_pos rfl, counted_of_room hleaf]
    rfl
  · intro hc
    rw [hadd, leafCount_addTuple, if_pos rfl]
    have h0 : leafCount h (o, c, t, m) = 0 := QMap.value_of_not_contains hc 0
    rw [h0]
    rfl
  · intro k hk
    rw [hadd, leafCount_addTuple, if_neg (fun e => hk e.symm)]
    rfl
  · intro k
    rw [hadd, leafCount_addTuple]
    split_ifs with hk
    · rw [← hk, counted_of_room hleaf]
      simp
    · exact le_of_eq rfl
  · intro o' c' t'
    rw [hadd, typeTotal_addTuple]
    split_ifs with hk
    · obtain ⟨h1, h2, h3⟩ := hk
      simp only at h1 h2 h3
      rw [← h1, ← h2, ← h3, counted_of_room htype]
      simp
    · exact le_of_eq rfl
  · intro o' c'
    rw [hadd, classTotal_addTuple]
    split_ifs with hk
    · obtain ⟨h1, h2⟩ := hk
      simp only at h1 h2
      rw [← h1, ← h2, counted_of_room hclass]
      simp
    · exact le_of_eq rfl
  · intro o'
    rw [hadd, ownerTotal_addTuple]
    split_ifs with hk
    · simp only at hk
      rw [← hk, counted_of_room howner]
      simp
    · exact le_of_eq rfl
  · have h1 := counted_of_room howner
    rw [counted_one] at h1
    rw [grandTotal_addToHierarchy, h1]
    simp

/-- Witness for C18 (amended): the first insertion into the empty hierarchy
creates the path with count 1. -/
theorem insert_touches_terminal_only_witness :
    leafCount
        (addToHierarchy QMap.empty "hw".toList "Driver".toList "Element".toList "devc".toList)
        ("hw".toList, "Driver".toList, "Element".toList, "devc".toList) = 1 :=
  (insert_touches_terminal_only QMap.empty "hw".toList "Driver".toList "Element".toList
    "devc".toList (by decide) (by decide) (by decide) (by decide)).2.1 (by decide)

/-! ## The navigator: parse of the token stream of a tree -/

mutual
theorem XmlElement.tokens_toItem (t : XmlElement) : t.toItem.tokens = t.tokens :=
  match t with
  | XmlElement.mk n tx a cs => by
    simp only [XmlElement.toItem, XmlElement.tokens, Item.tokens]
    rw [← XmlElement.tokensList_toItems cs]
    cases tx <;> simp [Item.tokensList, Item.tokens]
theorem XmlElement.tokensList_toItems (cs : List XmlElement) :
    Item.tokensList (XmlElement.toItems cs) = XmlElement.tokensOfList cs :=
  match cs with
  | [] => rfl
  | c :: cs' => by
    simp only [XmlElement.toItems, XmlElement.tokensOfList, Item.tokensList,
      XmlElement.tokens_toItem c, XmlElement.tokensList_toItems cs']
end

theorem lookupEntry_foldl_insert {K V : Type} [LinearOrder K] (l : List (K × V))
    (hl : l.Pairwise (fun a b => a.1 < b.1)) (m₀ : QMap K V) (k : K) :
    lookupEntry k (l.foldl (fun m a => m.insert a.1 a.2) m₀).entries
      = match lookupEntry k l with
        | some v => some v
        | none => lookupEntry k m₀.entries := by
  induction l generalizing m₀ with
  | nil => rfl
  | cons e rest ih =>
    have hrest := (List.pairwise_cons.1 hl).2
    have hhead := (List.pairwise_cons.1 hl).1
    simp only [List.foldl_cons]
    rw [ih hrest, QMap.lookup_insert]
    by_cases h : e.1 = k
    · subst h
      rw [lookupEntry_eq_none hhead]
      simp [lookupEntry]
    · have h' : ¬ k = e.1 := fun e' => h e'.symm
      simp only [lookupEntry, if_neg h, if_neg h']

/-- The attribute loop of `parseXmlElement` on the entries of a map gives the
map back. -/
theorem attributeMap_entries (m : QMap QString QString) : attributeMap m.entries = m := by
  apply QMap.ext_lookup
  intro k
  unfold attributeMap
  rw [lookupEntry_foldl_insert m.entries m.ordered QMap.empty k]
  cases lookupEntry k m.entries <;> rfl

/-- The element with further children appended. -/
theorem XmlElement.appendChild_mk (n t : QString) (a : QMap QString QString)
    (cs : List XmlElement) (c : XmlElement) :
    (XmlElement.mk n t a cs).appendChild c = XmlElement.mk n t a (cs ++ [c]) := rfl

mutual
/-- Reading the content of a tree as a child appends its stored form. -/
theorem XmlElement.absorb_toItem (t : XmlElement) (n' t' : QString)
    (a' : QMap QString QString) (cs' : List XmlElement) :
    t.toItem.absorb (XmlElement.mk n' t' a' cs') = XmlElement.mk n' t' a' (cs' ++ [t.stored]) :=
  match t with
  | XmlElement.mk n tx a cs => by
    simp only [XmlElement.toItem, Item.absorb, Item.absorbList_append, attributeMap_entries,
      XmlElement.stored]
    have htext : Item.absorbList (if tx.isEmpty then [] else [Item.text tx])
        (XmlElement.mk n [] a [])
        = XmlElement.mk n (if significant tx then trimmed tx else []) a [] := by
      cases tx with
      | nil => rfl
      | cons x xs =>
        simp only [List.isEmpty_cons, Bool.false_eq_true, if_false, Item.absorbList,
          Item.absorb]
        split_ifs <;> rfl
    rw [htext, XmlElement.absorbList_toItems cs]
    rfl
/-- Reading the content of a list of trees appends their stored forms. -/
theorem XmlElement.absorbList_toItems (cs : List XmlElement) (n' t' : QString)
    (a' : QMap QString QString) (cs' : List XmlElement) :
    Item.absorbList (XmlElement.toItems cs) (XmlElement.mk n' t' a' cs')
      = XmlElement.mk n' t' a' (cs' ++ XmlElement.storedList cs) :=
  match cs with
  | [] => by simp [XmlElement.toItems, Item.absorbList, XmlElement.storedList]
  | c :: rest => by
    simp only [XmlElement.toItems, Item.absorbList, XmlElement.storedList]
    rw [XmlElement.absorb_toItem c, XmlElement.absorbList_toItems rest]
    simp
end

mutual
theorem XmlElement.stored_of_normal (t : XmlElement) (h : t.normal = true) : t.stored = t :=
  match t with
  | XmlElement.mk n tx a cs => by
    simp only [XmlElement.normal, Bool.and_eq_true, Bool.or_eq_true, decide_eq_true_eq,
      List.isEmpty_eq_true] at h
    simp only [XmlElement.stored, XmlElement.storedList_of_normal cs h.2]
    rcases h.1 with h1 | ⟨h1, h2⟩
    · subst h1
      have : significant ([] : QString) = false := rfl
      simp [this]
    · simp [h1, h2]
theorem XmlElement.storedList_of_normal (cs : List XmlElement)
    (h : XmlElement.normalList cs = true) : XmlElement.storedList cs = cs :=
  match cs with
  | [] => rfl
  | c :: rest => by
    simp only [XmlElement.normalList, Bool.and_eq_true] at h
    simp only [XmlElement.storedList, XmlElement.stored_of_normal c h.1,
      XmlElement.storedList_of_normal rest h.2]
end

/-- `parseXmlElement` on the token stream of a tree returns the stored form of
the tree and leaves the reader on the end element of the tree. -/
theorem parseXmlElement_tokens (t : XmlElement) (tok : Token) (rest : List Token)
    (htok : tok.live = true) :
    parseXmlElement (QXmlStreamReader.readNext ⟨tok, t.tokens ++ rest⟩)
      = (t.stored, ⟨Token.endElement t.name, rest⟩) := by
  cases t with
  | mk n tx a cs =>
    have htoks : (XmlElement.mk n tx a cs).tokens ++ rest
        = Token.startElement n a.entries ::
          (Item.tokensList ((if tx.isEmpty then [] else [Item.text tx]) ++ XmlElement.toItems cs)
            ++ Token.endElement n :: rest) := by
      rw [← XmlElement.tokens_toItem]
      simp [XmlElement.toItem, Item.tokens]
    rw [htoks, readNext_live htok, parseXmlElement_content]
    have h := XmlElement.absorb_toItem (XmlElement.mk n tx a cs) [] [] QMap.empty []
    simp only [XmlElement.toItem, Item.absorb, List.nil_append] at h
    have h' := congrArg XmlElement.children h
    simp only [XmlElement.children, List.cons.injEq, and_true] at h'
    rw [XmlElement.appendChild_mk] at h'
    simp only [XmlElement.children, List.nil_append, List.cons.injEq, and_true] at h'
    rw [h']
    rfl

/-- C19, as stated, fails: for the tree `<a> x </a>`, whose single text run
has white space around it, `parseXmlElement` on the token stream of the tree
returns a tree with the text `"x"`, which is not the tree itself. -/
theorem parse_reproduces_tree_counterexample :
    (parseXmlElement (QXmlStreamReader.readNext
        ⟨Token.startDocument, paddedElement.tokens ++ [Token.endDocument]⟩)).1.text
      = "x".toList ∧
    (parseXmlElement (QXmlStreamReader.readNext
        ⟨Token.startDocument, paddedElement.tokens ++ [Token.endDocument]⟩)).1
      ≠ paddedElement :=
  ⟨by decide, fun h => absurd (congrArg XmlElement.text h) (by decide)⟩

/-- C19, amended. Stack-discipline parse reproduces the document tree up to
the stored form of the text: for every element tree `t`, `parseXmlElement` on
the start/characters/end token stream of `t` returns `t` with the text of
every node trimmed (empty when the run is white space only), with the same
name and attribute map at every node and the children of every node in
document order, and it is `t` itself when every text of `t` is empty or a
trimmed run that is not white space only; the call consumes the tokens exactly
up to the end tag of `t`, so what follows is left for the caller. -/
theorem parse_reproduces_stored_tree (t : XmlElement) (tok : Token) (rest : List Token)
    (htok : tok.live = true) :
    parseXmlElement (QXmlStreamReader.readNext ⟨tok, t.tokens ++ rest⟩)
      = (t.stored, ⟨Token.endElement t.name, rest⟩) ∧
    (t.normal = true →
      parseXmlElement (QXmlStreamReader.readNext ⟨tok, t.tokens ++ rest⟩)
        = (t, ⟨Token.endElement t.name, rest⟩)) ∧
    t.stored.name = t.name ∧ t.stored.attributes = t.attributes ∧
    t.stored.children = XmlElement.storedList t.children := by
  refine ⟨parseXmlElement_tokens t tok rest htok, ?_, ?_, ?_, ?_⟩
  · intro hn
    rw [parseXmlElement_tokens t tok rest htok, XmlElement.stored_of_normal t hn]
  · cases t; rfl
  · cases t; rfl
  · cases t; rfl

/-- Witness for C19 (amended): a module element with two children. -/
theorem parse_reproduces_stored_tree_witness :
    parseXmlElement (QXmlStreamReader.readNext
        ⟨Token.startDocument, sampleElement.tokens ++ [Token.endDocument]⟩)
      = (sampleElement, ⟨Token.endElement sampleElement.name, [Token.endDocument]⟩) :=
  (parse_reproduces_stored_tree sampleElement Token.startDocument [Token.endDocument]
    rfl).2.1 (by decide)

/-! ## The navigator: white space in content -/

theorem Item.isRun_of_isWhitespace (i : Item) (h : i.isWhitespace = true) : i.isRun = false := by
  cases i with
  | text s =>
    have hs : s.all (fun c => c == ' ' || c == '\t' || c == '\n' || c == '\r') = true := h
    simp only [Item.isRun, significant, hs, Bool.not_true, Bool.false_and]
  | comment => rfl
  | elem n as c => rfl

theorem Item.absorb_of_isWhitespace (i : Item) (e : XmlElement) (h : i.isWhitespace = true) :
    i.absorb e = e := by
  cases i with
  | text s =>
    have hs : s.all (fun c => c == ' ' || c == '\t' || c == '\n' || c == '\r') = true := h
    simp only [Item.absorb, significant, hs, Bool.not_true, Bool.false_and,
      Bool.false_eq_true, if_false]
  | comment => rfl
  | elem n as c => simp [Item.isWhitespace] at h

mutual
theorem Item.absorb_strip (i : Item) (e : XmlElement) : i.strip.absorb e = i.absorb e :=
  match i with
  | Item.text s => rfl
  | Item.comment => rfl
  | Item.elem n as c => by
    simp only [Item.strip, Item.absorb, Item.absorbList_stripList c]
/-- Whitespace-only character data has no effect on the element built. -/
theorem Item.absorbList_stripList (c : List Item) (e : XmlElement) :
    Item.absorbList (Item.stripList c) e = Item.absorbList c e :=
  match c with
  | [] => rfl
  | i :: is => by
    simp only [Item.stripList, Item.absorbList]
    by_cases h : i.isWhitespace = true
    · rw [if_pos h, Item.absorbList_stripList is e, Item.absorb_of_isWhitespace i e h]
    · rw [if_neg h]
      simp only [Item.absorbList]
      rw [Item.absorb_strip i e, Item.absorbList_stripList is (i.absorb e)]
end

/-- C20. Whitespace-only character data is ignored: two content lists of an
element that differ only by whitespace-only character-data tokens, inserted or
removed anywhere, give the same tree (and reader) from `parseXmlElement`; and
an element whose character data is entirely white space has empty text. -/
theorem whitespace_ignored (n n' : QString) (as : QXmlStreamAttributes) (c c' : List Item)
    (rest : List Token) (h : Item.stripList c = Item.stripList c') :
    parseXmlElement ⟨Token.startElement n as, Item.tokensList c ++ Token.endElement n' :: rest⟩
      = parseXmlElement
          ⟨Token.startElement n as, Item.tokensList c' ++ Token.endElement n' :: rest⟩ ∧
    (c.all (fun i => !i.isText || i.isWhitespace) = true →
      (parseXmlElement
        ⟨Token.startElement n as,
         Item.tokensList c ++ Token.endElement n' :: rest⟩).1.text = []) := by
  refine ⟨?_, ?_⟩
  · rw [parseXmlElement_content, parseXmlElement_content,
      ← Item.absorbList_stripList c, ← Item.absorbList_stripList c', h]
  · intro hws
    rw [parseXmlElement_content]
    have hrun : c.all (fun i => !i.isRun) = true := by
      rw [List.all_eq_true] at hws ⊢
      intro i hi
      have h1 := hws i hi
      cases i with
      | text s =>
        have h2 : (Item.text s).isWhitespace = true := by simpa [Item.isText] using h1
        rw [Item.isRun_of_isWhitespace _ h2]
        rfl
      | comment => rfl
      | elem n as c => rfl
    rw [Item.absorbList_text_of_no_run _ _ hrun]
    rfl

/-- Witness for C20: `<a>\n  <b/>\n</a>` and `<a><b/></a>`. -/
theorem whitespace_ignored_witness :
    parseXmlElement
        ⟨Token.startElement "a".toList [],
         Item.tokensList [Item.text "\n  ".toList, Item.elem "b".toList [] [],
            Item.text "\n".toList]
          ++ Token.endElement "a".toList :: [Token.endDocument]⟩
      = parseXmlElement
          ⟨Token.startElement "a".toList [],
           Item.tokensList [Item.elem "b".toList [] []]
            ++ Token.endElement "a".toList :: [Token.endDocument]⟩ ∧
    (parseXmlElement
        ⟨Token.startElement "a".toList [],
         Item.tokensList [Item.text "\n  ".toList, Item.elem "b".toList [] [],
            Item.text "\n".toList]
          ++ Token.endElement "a".toList :: [Token.endDocument]⟩).1.text = [] :=
  have h := whitespace_ignored "a".toList "a".toList []
    [Item.text "\n  ".toList, Item.elem "b".toList [] [], Item.text "\n".toList]
    [Item.elem "b".toList [] []] [Token.endDocument] rfl
  ⟨h.1, h.2 (by decide)⟩

theorem foldl_append_eq {α β : Type} (g : α → List β) (l : List α) (init : List β) :
    l.foldl (fun out e => out ++ g e) init = init ++ l.flatMap g := by
  induction l generalizing init with
  | nil => simp
  | cons a l ih => simp [List.foldl_cons, ih, List.flatMap_cons, List.append_assoc]

theorem flatMap_singleton_eq_map {α β : Type} (g : α → β) (l : List α) :
    l.flatMap (fun e => [g e]) = l.map g := by
  induction l with
  | nil => rfl
  | cons a l ih => simp [List.flatMap_cons, ih]

theorem printHierarchy_lines (self : ModuleAnalyzer) :
    self.printHierarchy.1 = reportHead self.incompleteCount
      ++ (self.hierarchy.entries.flatMap ownerBlock ++ [fill 80 '=']) := by
  unfold ModuleAnalyzer.printHierarchy
  simp only [foldl_append_eq, @List.append_assoc QString, flatMap_singleton_eq_map]
  rw [reportHead, @List.append_assoc QString]
  rfl

theorem printHierarchy_state (self : ModuleAnalyzer) : self.printHierarchy.2 = self := rfl
theorem QMap.index_of_contains {K V : Type} [LinearOrder K] (m : QMap K V) (k : K) (dflt : V)
    (h : m.contains k = true) : m.index k dflt = (m.value k dflt, m) := by
  unfold QMap.index
  rw [if_pos h]

theorem foldl_snd_invariant {α β γ : Type} (F : β × γ → α → β × γ)
    (h : ∀ s e, (F s e).2 = s.2) (l : List α) (s : β × γ) : (l.foldl F s).2 = s.2 := by
  induction l generalizing s with
  | nil => rfl
  | cons a l ih => rw [List.foldl_cons, ih, h]

theorem printResults_state (self : XmlAnalyzer) : self.printResults.2 = self := by
  unfold XmlAnalyzer.printResults
  dsimp only
  rw [foldl_snd_invariant]
  intro s e
  dsimp only
  by_cases h : s.2.contains e.1 = true
  · rw [if_pos h, QMap.index_of_contains _ _ _ h]
  · rw [if_neg h]
theorem QMap.keys_ascendingOnce {V : Type} (m : QMap QString V) : ascendingOnce m.keys := by
  have h : m.keys.Pairwise (fun a b => a < b) := by
    unfold QMap.keys
    rw [List.pairwise_map]
    exact m.ordered
  exact ⟨h, h.imp (fun hab => ne_of_lt hab)⟩

theorem ModuleAnalyzer.eq_of_fields (x y : ModuleAnalyzer) (h₁ : x.hierarchy = y.hierarchy)
    (h₂ : x.incompleteCount = y.incompleteCount) : x = y := by
  cases x
  cases y
  simp only at h₁ h₂
  rw [h₁, h₂]

theorem analyzeFile_comm (self : ModuleAnalyzer) (a b : Option (List Token)) :
    (self.analyzeFile a).analyzeFile b = (self.analyzeFile b).analyzeFile a := by
  cases a with
  | none => rfl
  | some ta =>
    cases b with
    | none => rfl
    | some tb =>
      apply ModuleAnalyzer.eq_of_fields
      · rw [analyzeFile_hierarchy, analyzeFile_hierarchy, analyzeFile_hierarchy,
          analyzeFile_hierarchy, addTuple_comm]
      · rw [analyzeFile_incompleteCount, analyzeFile_incompleteCount,
          analyzeFile_incompleteCount, analyzeFile_incompleteCount]
        split_ifs <;> ring

theorem analyzeFiles_perm {files files' : List (Option (List Token))} (hp : files.Perm files')
    (self : ModuleAnalyzer) : self.analyzeFiles files = self.analyzeFiles files' := by
  induction hp generalizing self with
  | nil => rfl
  | cons a _ ih => exact ih (self.analyzeFile a)
  | swap a b l =>
    show ModuleAnalyzer.analyzeFiles ((self.analyzeFile b).analyzeFile a) l
      = ModuleAnalyzer.analyzeFiles ((self.analyzeFile a).analyzeFile b) l
    rw [analyzeFile_comm]
  | trans _ _ ih₁ ih₂ => exact (ih₁ self).trans (ih₂ self)

/-- C21. Reads are side-effect free and repeatable: `printHierarchy` leaves
`hierarchy` and `incompleteCount` as they were, `printResults` leaves
`elementCounts`, `attributeCounts`, `elementChildren` and `elementAttributes`
as they were (the guarded `elementAttributes[parentElement]` inserts no key),
and a second call on the state left by the first writes the same lines. -/
theorem reads_leave_state_unchanged (classifier : ModuleAnalyzer) (collector : XmlAnalyzer) :
    classifier.printHierarchy.2.hierarchy = classifier.hierarchy ∧
    classifier.printHierarchy.2.incompleteCount = classifier.incompleteCount ∧
    collector.printResults.2.elementCounts = collector.elementCounts ∧
    collector.printResults.2.attributeCounts = collector.attributeCounts ∧
    collector.printResults.2.elementChildren = collector.elementChildren ∧
    collector.printResults.2.elementAttributes = collector.elementAttributes ∧
    classifier.printHierarchy.2.printHierarchy.1 = classifier.printHierarchy.1 ∧
    collector.printResults.2.printResults.1 = collector.printResults.1 := by
  rw [printResults_state, printHierarchy_state]
  exact ⟨rfl, rfl, rfl, rfl, rfl, rfl, rfl, rfl⟩

/-- C22. Sorted report: the lines of `printHierarchy` are the head, then one
block per group owner in the order of the owner keys, then the closing rule;
inside a block the classifications, inside a classification the types and
inside a type the module names follow the order of their keys; at every level
the keys are strictly ascending, each exactly once; and analysing the same
documents in another order writes the same lines. -/
theorem sorted_report (self : ModuleAnalyzer) (files files' : List (Option (List Token))) :
    self.printHierarchy.1
        = reportHead self.incompleteCount
            ++ (self.hierarchy.entries.flatMap ownerBlock ++ [fill 80 '=']) ∧
    ascendingOnce self.hierarchy.keys ∧
    (∀ owner ∈ self.hierarchy.entries, ascendingOnce owner.2.keys ∧
      ∀ classification ∈ owner.2.entries, ascendingOnce classification.2.keys ∧
        ∀ type ∈ classification.2.entries, ascendingOnce type.2.keys) ∧
    (files.Perm files' →
      (ModuleAnalyzer.new.analyzeFiles files).printHierarchy.1
        = (ModuleAnalyzer.new.analyzeFiles files').printHierarchy.1) := by
  refine ⟨printHierarchy_lines self, QMap.keys_ascendingOnce _, ?_, ?_⟩
  · intro owner _
    refine ⟨QMap.keys_ascendingOnce _, ?_⟩
    intro classification _
    exact ⟨QMap.keys_ascendingOnce _, fun type _ => QMap.keys_ascendingOnce _⟩
  · intro hp
    rw [analyzeFiles_perm hp]

/-- Witness for C22: two documents analysed in either order. -/
theorem sorted_report_witness :
    (ModuleAnalyzer.new.analyzeFiles [some completeDoc, some fooDoc]).printHierarchy.1
      = (ModuleAnalyzer.new.analyzeFiles [some fooDoc, some completeDoc]).printHierarchy.1 :=
  (sorted_report ModuleAnalyzer.new [some completeDoc, some fooDoc]
    [some fooDoc, some completeDoc]).2.2.2 (List.Perm.swap _ _ _)

/-! ## The navigation tree -/

/-- A write through the reference returned by the non-const `operator[]` is
the write `map[k] = f(map[k])`. -/
theorem QMap.index_write {K V : Type} [LinearOrder K] (m : QMap K V) (k : K) (d : V)
    (f : V → V) : (m.index k d).2.insert k (f (m.index k d).1) = m.update k d f := by
  unfold QMap.index QMap.update
  by_cases h : m.contains k = true
  · rw [if_pos h]
  · rw [if_neg h, QMap.insert_insert, QMap.value_of_not_contains (by simpa using h)]

theorem appendModule_eq (hierarchy : ModuleIndex) (mod : ModuleData) :
    appendModule hierarchy mod
      = hierarchy.update mod.groupOwner QMap.empty
          (fun classifications =>
            classifications.update mod.classification [] (fun l => l ++ [mod])) := by
  unfold appendModule
  dsimp only
  rw [QMap.index_write _ _ _ (fun l => l ++ [mod]),
    QMap.index_write hierarchy mod.groupOwner QMap.empty
      (fun classifications =>
        classifications.update mod.classification [] (fun l => l ++ [mod]))]

/-- Flattening a map after the write `map[k] = f(map[k])`, when `f` adds the
elements `extra` to what the entry under `k` contributes. -/
theorem flatMap_insertEntry_update {K V β : Type} [LinearOrder K] (g : K × V → List β)
    (k : K) (d : V) (f : V → V) (extra : List β)
    (hg : ∀ v, (g (k, f v)).Perm (g (k, v) ++ extra)) (hd : g (k, d) = [])
    (l : List (K × V)) (hl : l.Pairwise (fun a b => a.1 < b.1)) :
    ((insertEntry k (f ((lookupEntry k l).getD d)) l).flatMap g).Perm
      (l.flatMap g ++ extra) := by
  induction l with
  | nil =>
    have h := hg d
    rw [hd] at h
    simpa [insertEntry, lookupEntry] using h
  | cons e rest ih =>
    have hrest := (List.pairwise_cons.1 hl).2
    have hhead := (List.pairwise_cons.1 hl).1
    rcases lt_trichotomy k e.1 with h | h | h
    · have hnone : lookupEntry k (e :: rest) = none := by
        apply lookupEntry_eq_none
        intro x hx
        rcases List.mem_cons.1 hx with hx | hx
        · rw [hx]; exact h
        · exact lt_trans h (hhead x hx)
      rw [hnone]
      simp only [insertEntry, if_pos h, Option.getD_none, List.flatMap_cons]
      have h1 := hg d
      rw [hd, List.nil_append] at h1
      exact (List.Perm.append_right _ h1).trans List.perm_append_comm
    · have he : e = (k, e.2) := by rw [h]
      have hl1 : lookupEntry k (e :: rest) = some e.2 := by
        simp only [lookupEntry, if_pos h.symm]
      rw [hl1]
      simp only [insertEntry, if_neg (not_lt_of_ge (le_of_eq h.symm)),
        if_neg (not_lt_of_ge (le_of_eq h)), Option.getD_some, List.flatMap_cons]
      have h1 := hg e.2
      rw [← he] at h1
      refine (List.Perm.append_right _ h1).trans ?_
      rw [List.append_assoc, List.append_assoc]
      exact List.Perm.append_left _ List.perm_append_comm
    · have hne : ¬ e.1 = k := ne_of_lt h
      have hl1 : lookupEntry k (e :: rest) = lookupEntry k rest := by
        simp only [lookupEntry, if_neg hne]
      rw [hl1]
      simp only [insertEntry, if_neg (not_lt_of_gt h), if_pos h, List.flatMap_cons]
      rw [List.append_assoc]
      exact List.Perm.append_left _ (ih hrest)

theorem flatMap_update {K V β : Type} [LinearOrder K] (g : K × V → List β)
    (m : QMap K V) (k : K) (d : V) (f : V → V) (extra : List β)
    (hg : ∀ v, (g (k, f v)).Perm (g (k, v) ++ extra)) (hd : g (k, d) = []) :
    ((m.update k d f).entries.flatMap g).Perm (m.entries.flatMap g ++ extra) :=
  flatMap_insertEntry_update g k d f extra hg hd m.entries m.ordered

theorem flat_appendModule (hierarchy : ModuleIndex) (mod : ModuleData) :
    (appendModule hierarchy mod).flat.Perm
      (hierarchy.flat ++ [(mod.groupOwner, mod.classification, mod)]) := by
  rw [appendModule_eq]
  unfold ModuleIndex.flat
  apply flatMap_update
  · intro classifications
    apply flatMap_update
      (fun classIt : QString × List ModuleData =>
        classIt.2.map (fun m => (mod.groupOwner, classIt.1, m)))
    · intro l
      simp
    · rfl
  · rfl

theorem flat_foldl_appendModule (modules : List ModuleData) (hierarchy : ModuleIndex) :
    (modules.foldl appendModule hierarchy).flat.Perm
      (hierarchy.flat ++ modules.map (fun mod => (mod.groupOwner, mod.classification, mod))) := by
  induction modules generalizing hierarchy with
  | nil => simp
  | cons mod rest ih =>
    rw [List.foldl_cons]
    refine (ih _).trans ?_
    rw [List.map_cons]
    refine (List.Perm.append_right _ (flat_appendModule hierarchy mod)).trans ?_
    rw [List.append_assoc]
    rfl
theorem insertEntry_ne_nil {K V : Type} [LinearOrder K] (k : K) (v : V) (l : List (K × V)) :
    insertEntry k v l ≠ [] := by
  cases l with
  | nil => simp [insertEntry]
  | cons e rest =>
    simp only [insertEntry]
    split_ifs <;> simp

/-- A property of the values of a map survives the write `map[k] = f(map[k])`
when `f` establishes it from a stored value and from the default. -/
theorem QMap.forall_update {K V : Type} [LinearOrder K] (P : V → Prop) (m : QMap K V) (k : K)
    (d : V) (f : V → V) (hm : ∀ e ∈ m.entries, P e.2) (hf : ∀ v, P v → P (f v))
    (hd : P (f d)) : ∀ e ∈ (m.update k d f).entries, P e.2 := by
  intro e he
  rcases mem_insertEntry_eq he with h | h
  · rw [h]
    show P (f (m.value k d))
    unfold QMap.value
    cases hl : lookupEntry k m.entries with
    | none => exact hd
    | some v => exact hf v (hm (k, v) (lookupEntry_some_mem hl))
  · exact hm e h

/-- Every owner of the local map has a classification and every
classification has a module. -/
theorem populated_foldl_appendModule (modules : List ModuleData) (hierarchy : ModuleIndex)
    (h : ∀ ownerIt ∈ hierarchy.entries,
      ownerIt.2.entries ≠ [] ∧ ∀ classIt ∈ ownerIt.2.entries, classIt.2 ≠ []) :
    ∀ ownerIt ∈ (modules.foldl appendModule hierarchy).entries,
      ownerIt.2.entries ≠ [] ∧ ∀ classIt ∈ ownerIt.2.entries, classIt.2 ≠ [] := by
  induction modules generalizing hierarchy with
  | nil => exact h
  | cons mod rest ih =>
    rw [List.foldl_cons]
    apply ih
    rw [appendModule_eq]
    apply QMap.forall_update
      (fun classifications : QMap QString (List ModuleData) =>
        classifications.entries ≠ [] ∧ ∀ classIt ∈ classifications.entries, classIt.2 ≠ [])
    · exact h
    · intro v hv
      refine ⟨insertEntry_ne_nil _ _ _, ?_⟩
      exact QMap.forall_update (fun l : List ModuleData => l ≠ []) v mod.classification []
        (fun l => l ++ [mod]) hv.2 (fun l _ => by simp) (by simp)
    · refine ⟨insertEntry_ne_nil _ _ _, ?_⟩
      exact QMap.forall_update (fun l : List ModuleData => l ≠ []) QMap.empty
        mod.classification [] (fun l => l ++ [mod]) (by intro e he; cases he)
        (fun l _ => by simp) (by simp)

theorem flatMap_map_eq {α β γ : Type} (f : α → β) (g : β → List γ) (l : List α) :
    (l.map f).flatMap g = l.flatMap (fun x => g (f x)) := by
  induction l with
  | nil => rfl
  | cons a l ih => simp only [List.map_cons, List.flatMap_cons, ih]

theorem map_flatMap_eq {α β γ : Type} (g : α → List β) (f : β → γ) (l : List α) :
    (l.flatMap g).map f = l.flatMap (fun x => (g x).map f) := by
  induction l with
  | nil => rfl
  | cons a l ih => simp only [List.flatMap_cons, List.map_append, ih]

/-- The module-level items of the tree, with the owner and classification
above each, are the modules, each with its own owner and classification. -/
theorem placements_buildTree (sortChildren : List QTreeWidgetItem → List QTreeWidgetItem)
    (hsort : reorders sortChildren) (self : ModuleViewer) :
    (placements (self.buildTree sortChildren)).Perm
      (self.modules.map (fun mod =>
        (mod.groupOwner, mod.classification, (moduleItem mod).label))) := by
  have h1 : placements (self.buildTree sortChildren)
      = (self.modules.foldl appendModule QMap.empty).entries.flatMap (fun ownerIt =>
          ownerIt.2.entries.flatMap (fun classIt =>
            ((sortChildren (classIt.2.map moduleItem)).map QTreeWidgetItem.label).map
              (fun l => (ownerIt.1, classIt.1, l)))) := by
    unfold placements ModuleViewer.buildTree
    simp only [flatMap_map_eq, QTreeWidgetItem.children, QTreeWidgetItem.text0, List.map_map]
    rfl
  have h2 : ((self.modules.foldl appendModule QMap.empty).flat.map (fun x =>
        (x.1, x.2.1, (moduleItem x.2.2).label)))
      = (self.modules.foldl appendModule QMap.empty).entries.flatMap (fun ownerIt =>
          ownerIt.2.entries.flatMap (fun classIt =>
            ((classIt.2.map moduleItem).map QTreeWidgetItem.label).map
              (fun l => (ownerIt.1, classIt.1, l)))) := by
    unfold ModuleIndex.flat
    simp only [map_flatMap_eq, List.map_map]
    rfl
  rw [h1]
  refine List.Perm.trans ?_ (h2 ▸ ((flat_foldl_appendModule self.modules QMap.empty).map _).trans ?_)
  · apply List.Perm.flatMap_left
    intro ownerIt _
    apply List.Perm.flatMap_left
    intro classIt _
    exact (hsort _).map _
  · show List.Perm (List.map _ ([] ++ _)) _
    rw [List.nil_append, List.map_map]
    rfl

theorem sortByText_reorders : reorders sortByText := by
  intro items
  exact (List.perm_insertionSort _ items).map _
/-- C23. Module nodes carry the root's attributes: every module-level item of
the tree built by `buildTree` belongs to a parsed module and every parsed
module has such an item; the record registered for the item has element name
`module`, the module's name as value, and as attribute map the attribute map
of the module's root element, or the empty map when there is no root. -/
theorem module_items_carry_root_attributes
    (sortChildren : List QTreeWidgetItem → List QTreeWidgetItem)
    (hsort : reorders sortChildren) (self : ModuleViewer) :
    (∀ mod ∈ self.modules, ∃ p ∈ placements (self.buildTree sortChildren),
      p.1 = mod.groupOwner ∧ p.2.1 = mod.classification ∧
      p.2.2.2.2.2.elementName = "module".toList ∧
      p.2.2.2.2.2.elementValue = mod.moduleName ∧
      p.2.2.2.2.2.attributes = rootAttributes mod ∧
      (∀ root, mod.rootElement = some root → p.2.2.2.2.2.attributes = root.attributes) ∧
      (mod.rootElement = none → p.2.2.2.2.2.attributes = QMap.empty)) ∧
    (∀ p ∈ placements (self.buildTree sortChildren), ∃ mod ∈ self.modules,
      p.1 = mod.groupOwner ∧ p.2.1 = mod.classification ∧
      p.2.2.2.2.2.elementName = "module".toList ∧
      p.2.2.2.2.2.elementValue = mod.moduleName ∧
      p.2.2.2.2.2.attributes = rootAttributes mod ∧
      (∀ root, mod.rootElement = some root → p.2.2.2.2.2.attributes = root.attributes) ∧
      (mod.rootElement = none → p.2.2.2.2.2.attributes = QMap.empty)) := by
  have hp := placements_buildTree sortChildren hsort self
  have key : ∀ mod : ModuleData,
      ((moduleItem mod).label).2.2.2.attributes = rootAttributes mod ∧
      (∀ root, mod.rootElement = some root →
        ((moduleItem mod).label).2.2.2.attributes = root.attributes) ∧
      (mod.rootElement = none → ((moduleItem mod).label).2.2.2.attributes = QMap.empty) := by
    intro mod
    refine ⟨rfl, ?_, ?_⟩
    · intro root hroot
      show rootAttributes mod = root.attributes
      unfold rootAttributes
      rw [hroot]
    · intro hroot
      show rootAttributes mod = QMap.empty
      unfold rootAttributes
      rw [hroot]
  constructor
  · intro mod hmod
    refine ⟨(mod.groupOwner, mod.classification, (moduleItem mod).label), ?_, rfl, rfl, rfl,
      rfl, key mod⟩
    exact hp.mem_iff.2 (List.mem_map.2 ⟨mod, hmod, rfl⟩)
  · intro p hmem
    obtain ⟨mod, hmod, hmodp⟩ := List.mem_map.1 (hp.mem_iff.1 hmem)
    refine ⟨mod, hmod, ?_⟩
    rw [← hmodp]
    exact ⟨rfl, rfl, rfl, rfl, key mod⟩

/-- Witness for C23: the tree of three modules, the module items sorted by
their text. -/
theorem module_items_carry_root_attributes_witness :
    reorders sortByText ∧
    ∀ mod ∈ sampleModules, ∃ p ∈ placements (ModuleViewer.buildTree sortByText ⟨sampleModules⟩),
      p.1 = mod.groupOwner ∧ p.2.1 = mod.classification ∧
      p.2.2.2.2.2.elementName = "module".toList ∧
      p.2.2.2.2.2.elementValue = mod.moduleName ∧
      p.2.2.2.2.2.attributes = rootAttributes mod ∧
      (∀ root, mod.rootElement = some root → p.2.2.2.2.2.attributes = root.attributes) ∧
      (mod.rootElement = none → p.2.2.2.2.2.attributes = QMap.empty) :=
  ⟨sortByText_reorders,
    (module_items_carry_root_attributes sortByText sortByText_reorders ⟨sampleModules⟩).1⟩

/-- C27. The navigation tree partitions the modules: the module-level items
of the tree built by `buildTree`, each taken with the text of the
classification item and of the owner item above it, are the parsed modules,
each once, with its own classification and group owner; their number is
`modules.size()`; owner items have pairwise different texts, and so have the
classification items of one owner; and every owner item has a classification
item and every classification item a module item beneath it. -/
theorem tree_partitions_modules
    (sortChildren : List QTreeWidgetItem → List QTreeWidgetItem)
    (hsort : reorders sortChildren) (self : ModuleViewer) :
    (placements (self.buildTree sortChildren)).Perm
      (self.modules.map (fun mod =>
        (mod.groupOwner, mod.classification, (moduleItem mod).label))) ∧
    (placements (self.buildTree sortChildren)).length = self.modules.length ∧
    ascendingOnce ((self.buildTree sortChildren).map QTreeWidgetItem.text0) ∧
    (∀ ownerItem ∈ self.buildTree sortChildren,
      ownerItem.itemData.elementValue = ownerItem.text0 ∧
      ascendingOnce (ownerItem.children.map QTreeWidgetItem.text0) ∧
      ownerItem.children ≠ [] ∧
      ∀ classItem ∈ ownerItem.children,
        classItem.itemData.elementValue = classItem.text0 ∧ classItem.children ≠ []) := by
  have hp := placements_buildTree sortChildren hsort self
  refine ⟨hp, ?_, ?_, ?_⟩
  · rw [hp.length_eq, List.length_map]
  · have h : (self.buildTree sortChildren).map QTreeWidgetItem.text0
        = (self.modules.foldl appendModule QMap.empty).keys := by
      unfold ModuleViewer.buildTree QMap.keys
      rw [List.map_map]
      rfl
    rw [h]
    exact QMap.keys_ascendingOnce _
  · intro ownerItem hmem
    unfold ModuleViewer.buildTree at hmem
    obtain ⟨ownerIt, hown, hitem⟩ := List.mem_map.1 hmem
    have hpop := populated_foldl_appendModule self.modules QMap.empty
      (by intro e he; cases he) ownerIt hown
    rw [← hitem]
    refine ⟨rfl, ?_, ?_, ?_⟩
    · have h : (ownerIt.2.entries.map (fun classIt =>
          QTreeWidgetItem.mk classIt.1 "classification".toList []
            { elementName := "classification".toList, elementValue := classIt.1,
              attributes := QMap.empty }
            (sortChildren (classIt.2.map moduleItem)))).map QTreeWidgetItem.text0
          = ownerIt.2.keys := by
        unfold QMap.keys
        rw [List.map_map]
        rfl
      show ascendingOnce (List.map QTreeWidgetItem.text0 (List.map _ ownerIt.2.entries))
      rw [h]
      exact QMap.keys_ascendingOnce _
    · show List.map _ ownerIt.2.entries ≠ []
      intro hnil
      exact hpop.1 (List.map_eq_nil_iff.1 hnil)
    · intro classItem hclass
      obtain ⟨classIt, hcl, hcitem⟩ := List.mem_map.1 hclass
      rw [← hcitem]
      refine ⟨rfl, ?_⟩
      show sortChildren (classIt.2.map moduleItem) ≠ []
      intro hnil
      have hlen := (hsort (classIt.2.map moduleItem)).length_eq
      rw [hnil] at hlen
      simp only [List.map_nil, List.length_nil, List.length_map] at hlen
      exact hpop.2 classIt hcl (List.length_eq_zero.1 hlen.symm)

/-- Witness for C27: three modules under two owners. -/
theorem tree_partitions_modules_witness :
    reorders sortByText ∧
    (placements (ModuleViewer.buildTree sortByText ⟨sampleModules⟩)).length = 3 :=
  ⟨sortByText_reorders,
    (tree_partitions_modules sortByText sortByText_reorders ⟨sampleModules⟩).2.1⟩

/-! ## The navigator: repeated fields -/

theorem foldl_extractStep_groupOwner_keep (l : List XmlElement) (data : ModuleData)
    (h : ∀ x ∈ l, x.name ≠ "GroupOwner".toList) :
    (l.foldl extractStep data).groupOwner = data.groupOwner := by
  induction l generalizing data with
  | nil => rfl
  | cons c l ih =>
    rw [List.foldl_cons, ih _ (fun x hx => h x (List.mem_cons_of_mem _ hx))]
    unfold extractStep
    rw [if_neg (h c (List.mem_cons_self _ _))]
    split_ifs <;> rfl

theorem foldl_extractStep_classification_keep (l : List XmlElement) (data : ModuleData)
    (h : ∀ x ∈ l, x.name ≠ "classification".toList) :
    (l.foldl extractStep data).classification = data.classification := by
  induction l generalizing data with
  | nil => rfl
  | cons c l ih =>
    rw [List.foldl_cons, ih _ (fun x hx => h x (List.mem_cons_of_mem _ hx))]
    unfold extractStep
    rw [if_neg (h c (List.mem_cons_self _ _))]
    split_ifs <;> rfl

/-- The loop of `extractTopLevelFields` leaves in `groupOwner` the text of the
last child named `GroupOwner`. -/
theorem foldl_extractStep_last_owner (before after : List XmlElement) (last : XmlElement)
    (data : ModuleData) (hlast : last.name = "GroupOwner".toList)
    (hafter : ∀ x ∈ after, x.name ≠ "GroupOwner".toList) :
    ((before ++ last :: after).foldl extractStep data).groupOwner = last.text := by
  rw [List.foldl_append, List.foldl_cons, foldl_extractStep_groupOwner_keep _ _ hafter]
  unfold extractStep
  rw [if_pos hlast]

/-- The loop of `extractTopLevelFields` leaves in `classification` the text of
the last child named `classification`. -/
theorem foldl_extractStep_last_classification (before after : List XmlElement)
    (last : XmlElement) (data : ModuleData) (hlast : last.name = "classification".toList)
    (hafter : ∀ x ∈ after, x.name ≠ "classification".toList) :
    ((before ++ last :: after).foldl extractStep data).classification = last.text := by
  rw [List.foldl_append, List.foldl_cons, foldl_extractStep_classification_keep _ _ hafter]
  unfold extractStep
  have hne : ¬ last.name = "GroupOwner".toList := by
    rw [hlast]
    decide
  rw [if_neg hne, if_pos hlast]

/-- The owner and classification `parseModuleFile` stores for a file whose
first `module` start element comes after the tokens `pre`: what the loop of
`extractTopLevelFields` finds among the children of the root, or the
placeholder when that is empty. -/
theorem parseModuleData_extracted (relativeFilePath : QString) (pre post : List Token)
    (attrs : QXmlStreamAttributes)
    (hpre : ∀ t ∈ pre, t.live = true ∧ t.isStartOf "module".toList = false) :
    (parseModuleData relativeFilePath
        (pre ++ Token.startElement "module".toList attrs :: post)).groupOwner
      = (if ((moduleRoot attrs post).children.foldl extractStep
              (blankData relativeFilePath)).groupOwner = []
         then "(no GroupOwner)".toList
         else ((moduleRoot attrs post).children.foldl extractStep
              (blankData relativeFilePath)).groupOwner) ∧
    (parseModuleData relativeFilePath
        (pre ++ Token.startElement "module".toList attrs :: post)).classification
      = (if ((moduleRoot attrs post).children.foldl extractStep
              (blankData relativeFilePath)).classification = []
         then "(no classification)".toList
         else ((moduleRoot attrs post).children.foldl extractStep
              (blankData relativeFilePath)).classification) := by
  have hroot : (parseXmlElement ⟨Token.startElement "module".toList attrs, post⟩).1
      = moduleRoot attrs post := rfl
  have hfields := fun data (hg : data.groupOwner = (blankData relativeFilePath).groupOwner)
      (hc : data.classification = (blankData relativeFilePath).classification) =>
    foldl_extractStep_fields (moduleRoot attrs post).children data
      (blankData relativeFilePath) hg hc
  have hloop : (parseModuleLoop
        ((pre ++ Token.startElement "module".toList attrs :: post).length + 1)
        (QXmlStreamReader.onFile (pre ++ Token.startElement "module".toList attrs :: post))
        (blankData relativeFilePath)).groupOwner
        = ((moduleRoot attrs post).children.foldl extractStep
            (blankData relativeFilePath)).groupOwner ∧
      (parseModuleLoop
        ((pre ++ Token.startElement "module".toList attrs :: post).length + 1)
        (QXmlStreamReader.onFile (pre ++ Token.startElement "module".toList attrs :: post))
        (blankData relativeFilePath)).classification
        = ((moduleRoot attrs post).children.foldl extractStep
            (blankData relativeFilePath)).classification := by
    rw [parseModuleLoop_module pre post attrs hpre (blankData relativeFilePath),
      extractTopLevelFields_some, hroot]
    apply hfields
    · split_ifs <;> rfl
    · split_ifs <;> rfl
  rw [(parseModuleData_fields relativeFilePath _).1,
    (parseModuleData_fields relativeFilePath _).2.1, hloop.1, hloop.2]
  exact ⟨rfl, rfl⟩

/-- C26. Duplicate fields in the navigator: when the root has several direct
children named `GroupOwner`, `extractTopLevelFields` takes the text of the
last of them in document order, whatever the earlier ones held, and the field
`parseModuleFile` stores is that text, or the placeholder when that text is
empty; the same holds for `classification`. -/
theorem duplicate_field_last_wins (relativeFilePath : QString) (pre post : List Token)
    (attrs : QXmlStreamAttributes) (before after : List XmlElement) (last : XmlElement)
    (hpre : ∀ t ∈ pre, t.live = true ∧ t.isStartOf "module".toList = false)
    (hchildren : (moduleRoot attrs post).children = before ++ last :: after) :
    (last.name = "GroupOwner".toList → (∀ x ∈ after, x.name ≠ "GroupOwner".toList) →
      (extractTopLevelFields (some (moduleRoot attrs post))
          (blankData relativeFilePath)).groupOwner = last.text ∧
      (parseModuleData relativeFilePath
          (pre ++ Token.startElement "module".toList attrs :: post)).groupOwner
        = (if last.text = [] then "(no GroupOwner)".toList else last.text)) ∧
    (last.name = "classification".toList →
      (∀ x ∈ after, x.name ≠ "classification".toList) →
      (extractTopLevelFields (some (moduleRoot attrs post))
          (blankData relativeFilePath)).classification = last.text ∧
      (parseModuleData relativeFilePath
          (pre ++ Token.startElement "module".toList attrs :: post)).classification
        = (if last.text = [] then "(no classification)".toList else last.text)) := by
  have hstored := parseModuleData_extracted relativeFilePath pre post attrs hpre
  rw [hchildren] at hstored
  rw [extractTopLevelFields_some, hchildren]
  constructor
  · intro hlast hafter
    have h := foldl_extractStep_last_owner before after last (blankData relativeFilePath)
      hlast hafter
    refine ⟨h, ?_⟩
    rw [hstored.1, h]
  · intro hlast hafter
    have h := foldl_extractStep_last_classification before after last
      (blankData relativeFilePath) hlast hafter
    refine ⟨h, ?_⟩
    rw [hstored.2, h]

/-- Witness for C26: the second, empty `GroupOwner` replaces the first, and
the stored owner is the placeholder. -/
theorem duplicate_field_last_wins_witness :
    (extractTopLevelFields (some (moduleRoot [] (doubleOwnerDoc.drop 2)))
        (blankData [])).groupOwner = [] ∧
    (parseModuleData [] doubleOwnerDoc).groupOwner = "(no GroupOwner)".toList :=
  (duplicate_field_last_wins [] [Token.startDocument] (doubleOwnerDoc.drop 2) []
    [XmlElement.mk "GroupOwner".toList "hw".toList QMap.empty []] []
    (XmlElement.mk "GroupOwner".toList [] QMap.empty []) (by decide) rfl).1 rfl
    (fun _ h => nomatch h)

/-! ## makevaranalyzer: references and definitions -/

theorem isName_iff (v : QString) :
    isName v = true ↔ v ≠ [] ∧ ∀ x ∈ v, isNameChar x = true := by
  unfold isName
  cases v with
  | nil => simp
  | cons c rest => simp [List.isEmpty]

theorem takeWhile_dropWhile_append (p : Char → Bool) (v : List Char) (c : Char)
    (tail : List Char) (hv : ∀ x ∈ v, p x = true) (hc : p c = false) :
    (v ++ c :: tail).takeWhile p = v ∧ (v ++ c :: tail).dropWhile p = c :: tail := by
  induction v with
  | nil => simp [List.takeWhile_cons, List.dropWhile_cons, hc]
  | cons a v ih =>
    have ha : p a = true := hv a (List.mem_cons_self _ _)
    have ih' := ih (fun x hx => hv x (List.mem_cons_of_mem _ hx))
    simp [List.takeWhile_cons, List.dropWhile_cons, ha, ih'.1, ih'.2]

theorem matchVarTail_some {close : Char} {rest : List Char} {var : QString} {len : Nat}
    (h : matchVarTail close rest = some (var, len)) :
    var ≠ [] ∧ (∀ x ∈ var, isNameChar x = true) ∧ len = var.length + 3 ∧
      ∃ tail, rest = var ++ close :: tail := by
  unfold matchVarTail at h
  dsimp only at h
  cases hd : rest.dropWhile isNameChar with
  | nil => rw [hd] at h; simp at h
  | cons c tail =>
    rw [hd] at h
    dsimp only at h
    split_ifs at h with hc
    simp only [Option.some.injEq, Prod.mk.injEq] at h
    obtain ⟨h1, h2⟩ := h
    refine ⟨h1 ▸ hc.2, ?_, ?_, tail, ?_⟩
    · intro x hx
      rw [← h1] at hx
      exact (List.mem_takeWhile_imp hx)
    · rw [← h2, ← h1]
    · rw [← h1, ← hc.1, ← hd, List.takeWhile_append_dropWhile]

theorem matchVarTail_append (close : Char) (hclose : isNameChar close = false) (v : QString)
    (tail : List Char) (hv : isName v = true) :
    matchVarTail close (v ++ close :: tail) = some (v, v.length + 3) := by
  obtain ⟨hne, hall⟩ := (isName_iff v).1 hv
  obtain ⟨h1, h2⟩ := takeWhile_dropWhile_append isNameChar v close tail hall hclose
  unfold matchVarTail
  dsimp only
  rw [h1, h2]
  dsimp only
  rw [if_pos ⟨rfl, hne⟩]

theorem prefix_of_avoiding {α : Type} (a : α) (pfx tail : List α) :
    ∀ (pre x : List α), pre ++ a :: x = pfx ++ tail → (∀ c ∈ pfx, c ≠ a) →
      ∃ pre', pre = pfx ++ pre' ∧ tail = pre' ++ a :: x := by
  induction pfx with
  | nil =>
    intro pre x h _
    exact ⟨pre, rfl, by simpa using h.symm⟩
  | cons b pfx ih =>
    intro pre x h hp
    cases pre with
    | nil =>
      simp only [List.nil_append, List.cons_append, List.cons.injEq] at h
      exact absurd h.1.symm (hp b (List.mem_cons_self _ _))
    | cons d pre0 =>
      simp only [List.cons_append, List.cons.injEq] at h
      obtain ⟨pre', h1, h2⟩ := ih pre0 x h.2 (fun c hc => hp c (List.mem_cons_of_mem _ hc))
      exact ⟨pre', by rw [h.1, h1]; rfl, h2⟩

/-- The shape of a text on which `varPattern` matches at the start. -/
theorem matchVarAt_some {s : List Char} {var : QString} {len : Nat}
    (h : matchVarAt s = some (var, len)) :
    isName var = true ∧ len = var.length + 3 ∧
      ∃ tail, (s = refParen var ++ tail ∨ s = refBrace var ++ tail) ∧ s.drop len = tail := by
  unfold matchVarAt at h
  split at h
  · obtain ⟨h1, h2, h3, tail, h4⟩ := matchVarTail_some h
    refine ⟨(isName_iff var).2 ⟨h1, h2⟩, h3, tail, Or.inl ?_, ?_⟩
    · rw [h4]; simp [refParen]
    · rw [h4, h3]
      have : ('$' :: '(' :: (var ++ ')' :: tail)) = (('$' :: '(' :: (var ++ [')'])) ++ tail) := by
        simp
      rw [this]
      apply List.drop_left'
      simp
  · obtain ⟨h1, h2, h3, tail, h4⟩ := matchVarTail_some h
    refine ⟨(isName_iff var).2 ⟨h1, h2⟩, h3, tail, Or.inr ?_, ?_⟩
    · rw [h4]; simp [refBrace]
    · rw [h4, h3]
      have : ('$' :: '{' :: (var ++ '}' :: tail)) = (('$' :: '{' :: (var ++ ['}'])) ++ tail) := by
        simp
      rw [this]
      apply List.drop_left'
      simp
  · cases h

theorem matchVarAt_of_start (v : QString) (hv : isName v = true) (post : List Char) :
    matchVarAt (refParen v ++ post) = some (v, v.length + 3) ∧
    matchVarAt (refBrace v ++ post) = some (v, v.length + 3) := by
  constructor
  · have h := matchVarTail_append ')' (by decide) v post hv
    have e : refParen v ++ post = '$' :: '(' :: (v ++ ')' :: post) := by simp [refParen]
    rw [e]
    exact h
  · have h := matchVarTail_append '}' (by decide) v post hv
    have e : refBrace v ++ post = '$' :: '{' :: (v ++ '}' :: post) := by simp [refBrace]
    rw [e]
    exact h
theorem infix_bracket (b close b' close' : Char) (var v tail : List Char)
    (hb : b ≠ '$') (hclose : close ≠ '$') (hcn : isNameChar close = false)
    (hcn' : isNameChar close' = false) (hvar : ∀ x ∈ var, isNameChar x = true)
    (hv : ∀ x ∈ v, isNameChar x = true)
    (h : ('$' :: b' :: (v ++ [close'])) <:+: ('$' :: b :: (var ++ close :: tail))) :
    (b' = b ∧ v = var) ∨ ('$' :: b' :: (v ++ [close'])) <:+: tail := by
  obtain ⟨pre, post, e⟩ := h
  cases pre with
  | nil =>
    simp only [List.nil_append, List.cons_append, List.cons.injEq, true_and,
      List.append_assoc, List.singleton_append] at e
    obtain ⟨e1, e2⟩ := e
    have h1 := (takeWhile_dropWhile_append isNameChar v close' post hv hcn').1
    have h2 := (takeWhile_dropWhile_append isNameChar var close tail hvar hcn).1
    rw [e2, h2] at h1
    exact Or.inl ⟨e1, h1.symm⟩
  | cons c pre0 =>
    simp only [List.cons_append, List.cons.injEq, List.append_assoc] at e
    have e' : pre0 ++ '$' :: (b' :: (v ++ ([close'] ++ post))) = (b :: (var ++ [close])) ++ tail := by
      simpa using e.2
    have hp : ∀ c ∈ b :: (var ++ [close]), c ≠ '$' := by
      intro c hc
      rcases List.mem_cons.1 hc with hc | hc
      · rw [hc]; exact hb
      · rcases List.mem_append.1 hc with hc | hc
        · intro hcd
          have := hvar c hc
          rw [hcd] at this
          exact absurd this (by decide)
        · rw [List.mem_singleton.1 hc]; exact hclose
    obtain ⟨pre', _, h2⟩ := prefix_of_avoiding '$' _ tail pre0 _ e' hp
    refine Or.inr ⟨pre', post, ?_⟩
    rw [h2]
    simp

/-- After a match at the start of `s`, a name is referred to in `s` exactly
when it is the captured name or is referred to after the match. -/
theorem references_head {s : List Char} {var : QString} {len : Nat}
    (h : matchVarAt s = some (var, len)) (v : QString) (hv : isName v = true) :
    references s v ↔ v = var ∨ references (s.drop len) v := by
  obtain ⟨hvar, _, tail, hs, hdrop⟩ := matchVarAt_some h
  rw [hdrop]
  obtain ⟨_, hvarAll⟩ := (isName_iff var).1 hvar
  obtain ⟨_, hvAll⟩ := (isName_iff v).1 hv
  have eP : refParen var ++ tail = '$' :: '(' :: (var ++ ')' :: tail) := by simp [refParen]
  have eB : refBrace var ++ tail = '$' :: '{' :: (var ++ '}' :: tail) := by simp [refBrace]
  constructor
  · intro href
    rcases hs with hs | hs <;> rcases href with href | href <;> rw [hs] at href
    · rw [eP] at href
      rcases infix_bracket '(' ')' '(' ')' var v tail (by decide) (by decide) (by decide)
        (by decide) hvarAll hvAll href with h1 | h1
      · exact Or.inl h1.2
      · exact Or.inr (Or.inl h1)
    · rw [eP] at href
      rcases infix_bracket '(' ')' '{' '}' var v tail (by decide) (by decide) (by decide)
        (by decide) hvarAll hvAll href with h1 | h1
      · exact absurd h1.1 (by decide)
      · exact Or.inr (Or.inr h1)
    · rw [eB] at href
      rcases infix_bracket '{' '}' '(' ')' var v tail (by decide) (by decide) (by decide)
        (by decide) hvarAll hvAll href with h1 | h1
      · exact absurd h1.1 (by decide)
      · exact Or.inr (Or.inl h1)
    · rw [eB] at href
      rcases infix_bracket '{' '}' '{' '}' var v tail (by decide) (by decide) (by decide)
        (by decide) hvarAll hvAll href with h1 | h1
      · exact Or.inl h1.2
      · exact Or.inr (Or.inr h1)
  · rintro (hvv | href)
    · rw [hvv]
      rcases hs with hs | hs
      · exact Or.inl (hs ▸ (List.prefix_append _ _).isInfix)
      · exact Or.inr (hs ▸ (List.prefix_append _ _).isInfix)
    · have hsuf : tail <:+: s := by
        rcases hs with hs | hs <;> exact hs ▸ (List.suffix_append _ _).isInfix
      rcases href with href | href
      · exact Or.inl (href.trans hsuf)
      · exact Or.inr (href.trans hsuf)

/-- Without a match at the start of a text, a reference lies beyond its first
character. -/
theorem references_skip {c : Char} {rest : List Char} (h : matchVarAt (c :: rest) = none)
    (v : QString) (hv : isName v = true) :
    references (c :: rest) v ↔ references rest v := by
  have key : ∀ occ : List Char, (∀ post, matchVarAt (occ ++ post) = some (v, v.length + 3)) →
      occ <:+: c :: rest → occ <:+: rest := by
    intro occ hocc hin
    obtain ⟨pre, post, e⟩ := hin
    cases pre with
    | nil =>
      rw [List.nil_append] at e
      have := hocc post
      rw [e, h] at this
      cases this
    | cons d pre0 =>
      simp only [List.cons_append, List.cons.injEq] at e
      exact ⟨pre0, post, e.2⟩
  constructor
  · rintro (href | href)
    · exact Or.inl (key _ (fun post => (matchVarAt_of_start v hv post).1) href)
    · exact Or.inr (key _ (fun post => (matchVarAt_of_start v hv post).2) href)
  · rintro (href | href)
    · exact Or.inl (List.infix_cons href)
    · exact Or.inr (List.infix_cons href)

theorem references_nil (v : QString) : ¬ references [] v := by
  rintro (h | h)
  · have := List.eq_nil_of_infix_nil h
    cases this
  · have := List.eq_nil_of_infix_nil h
    cases this

/-- What the search of `indexIn` finds: no match means no reference; a match
splits the references into the captured name and those after the match. -/
theorem findVar_spec (s : List Char) :
    (findVar s = none → ∀ v, isName v = true → ¬ references s v) ∧
    (∀ skipped var len, findVar s = some (skipped, var, len) →
      isName var = true ∧ 0 < len ∧ s ≠ [] ∧
      ∀ v, isName v = true → (references s v ↔ v = var ∨ references (s.drop (skipped + len)) v)) := by
  induction s with
  | nil =>
    refine ⟨fun _ v _ => references_nil v, ?_⟩
    intro skipped var len h
    simp [findVar] at h
  | cons c rest ih =>
    cases hm : matchVarAt (c :: rest) with
    | some m =>
      obtain ⟨var', len'⟩ := m
      have hf : findVar (c :: rest) = some (0, var', len') := by
        simp only [findVar, hm]
      refine ⟨fun h => (by rw [hf] at h; cases h), ?_⟩
      intro skipped var len h
      rw [hf] at h
      simp only [Option.some.injEq, Prod.mk.injEq] at h
      obtain ⟨h1, h2, h3⟩ := h
      subst h1 h2 h3
      obtain ⟨hvar, hlen, _⟩ := matchVarAt_some hm
      refine ⟨hvar, by omega, List.cons_ne_nil _ _, ?_⟩
      intro v hv
      rw [Nat.zero_add]
      exact references_head hm v hv
    | none =>
      cases hr : findVar rest with
      | none =>
        have hf : findVar (c :: rest) = none := by
          simp only [findVar, hm, hr]
        refine ⟨?_, fun skipped var len h => by rw [hf] at h; cases h⟩
        intro _ v hv href
        exact ih.1 hr v hv ((references_skip hm v hv).1 href)
      | some r =>
        obtain ⟨skipped', var', len'⟩ := r
        have hf : findVar (c :: rest) = some (skipped' + 1, var', len') := by
          simp only [findVar, hm, hr]
        refine ⟨fun h => (by rw [hf] at h; cases h), ?_⟩
        intro skipped var len h
        rw [hf] at h
        simp only [Option.some.injEq, Prod.mk.injEq] at h
        obtain ⟨h1, h2, h3⟩ := h
        subst h1 h2 h3
        obtain ⟨hvar, hlen, _, hiff⟩ := ih.2 skipped' var' len' hr
        refine ⟨hvar, hlen, List.cons_ne_nil _ _, ?_⟩
        intro v hv
        rw [references_skip hm v hv, hiff v hv]
        have : skipped' + 1 + len' = (skipped' + len') + 1 := by omega
        rw [this, List.drop_succ_cons]

theorem QSet.mem_insert (s : QSet) (x v : QString) :
    v ∈ (s.insert x).elems ↔ v ∈ s.elems ∨ v = x := by
  unfold QSet.insert
  split_ifs with h
  · constructor
    · exact Or.inl
    · rintro (h1 | h1)
      · exact h1
      · rw [h1]; exact h
  · simp

/-- The names `varLoop` adds are the names referred to from `pos` on. -/
theorem varLoop_mem (fuel : Nat) :
    ∀ (content : QString) (pos : Nat) (used : QSet), content.length - pos < fuel →
      ∀ v, v ∈ (varLoop fuel content pos used).elems
        ↔ v ∈ used.elems ∨ (isName v = true ∧ references (content.drop pos) v) := by
  induction fuel with
  | zero => intro content pos used h; omega
  | succ fuel ih =>
    intro content pos used hfuel v
    obtain ⟨hnone, hsome⟩ := findVar_spec (content.drop pos)
    cases hf : findVar (content.drop pos) with
    | none =>
      have hl : varLoop (fuel + 1) content pos used = used := by
        simp only [varLoop, indexInVar, hf]
      rw [hl]
      constructor
      · exact Or.inl
      · rintro (h | h)
        · exact h
        · exact absurd h.2 (hnone hf v h.1)
    | some r =>
      obtain ⟨skipped, var, len⟩ := r
      have hl : varLoop (fuel + 1) content pos used
          = varLoop fuel content (pos + skipped + len) (used.insert var) := by
        simp only [varLoop, indexInVar, hf]
      obtain ⟨hvar, hlen, hne, hiff⟩ := hsome skipped var len hf
      have hpos : pos < content.length := by
        by_contra hge
        exact hne (List.drop_eq_nil_of_le (by omega))
      rw [hl, ih content (pos + skipped + len) (used.insert var) (by omega), QSet.mem_insert]
      have hdrop : List.drop (skipped + len) (List.drop pos content)
          = List.drop (pos + skipped + len) content := by
        rw [List.drop_drop]
        congr 1
        omega
      constructor
      · rintro ((h | h) | h)
        · exact Or.inl h
        · exact Or.inr ⟨h ▸ hvar, (hiff v (h ▸ hvar)).2 (Or.inl h)⟩
        · exact Or.inr ⟨h.1, (hiff v h.1).2 (Or.inr (hdrop ▸ h.2))⟩
      · rintro (h | h)
        · exact Or.inl (Or.inl h)
        · rcases (hiff v h.1).1 h.2 with h1 | h1
          · exact Or.inl (Or.inr h1)
          · exact Or.inr ⟨h.1, hdrop ▸ h1⟩
theorem foldl_defStep_mem (lines : List QString) (defined : QSet) (v : QString) :
    v ∈ (lines.foldl defStep defined).elems
      ↔ v ∈ defined.elems ∨
        v ∈ lines.filterMap (fun rawLine =>
          if (trimmed rawLine).head? = some '#' then none else matchDef (trimmed rawLine)) := by
  induction lines generalizing defined with
  | nil => simp
  | cons rawLine rest ih =>
    rw [List.foldl_cons, ih, List.filterMap_cons]
    unfold defStep
    dsimp only
    by_cases hc : (trimmed rawLine).head? = some '#'
    · rw [if_pos hc, if_pos hc]
    · rw [if_neg hc, if_neg hc]
      cases hm : matchDef (trimmed rawLine) with
      | none => rfl
      | some var =>
        dsimp only
        rw [QSet.mem_insert, List.mem_cons, or_assoc]

theorem analyzeFile_sets (self : MakefileAnalyzer) (content v : QString) :
    (v ∈ (self.analyzeFile (some content)).variablesUsed.elems
      ↔ v ∈ self.variablesUsed.elems ∨ (isName v = true ∧ references content v)) ∧
    (v ∈ (self.analyzeFile (some content)).variablesDefined.elems
      ↔ v ∈ self.variablesDefined.elems ∨ v ∈ definitions content) := by
  constructor
  · show v ∈ (varLoop (content.length + 1) content 0 self.variablesUsed).elems ↔ _
    rw [varLoop_mem _ content 0 _ (by omega), List.drop_zero]
  · exact foldl_defStep_mem _ _ v

/-- The two sets after a run over several files. -/
theorem analyzeFiles_sets (files : List (Option QString)) (self : MakefileAnalyzer)
    (v : QString) :
    (v ∈ (self.analyzeFiles files).variablesUsed.elems
      ↔ v ∈ self.variablesUsed.elems ∨
        (isName v = true ∧ ∃ content, some content ∈ files ∧ references content v)) ∧
    (v ∈ (self.analyzeFiles files).variablesDefined.elems
      ↔ v ∈ self.variablesDefined.elems ∨
        ∃ content, some content ∈ files ∧ v ∈ definitions content) := by
  induction files generalizing self with
  | nil => simp [MakefileAnalyzer.analyzeFiles]
  | cons file rest ih =>
    have hstep : self.analyzeFiles (file :: rest) = (self.analyzeFile file).analyzeFiles rest :=
      rfl
    rw [hstep, (ih _).1, (ih _).2]
    cases file with
    | none =>
      have hself : self.analyzeFile none = self := rfl
      rw [hself]
      simp
    | some content =>
      rw [(analyzeFile_sets self content v).1, (analyzeFile_sets self content v).2]
      constructor
      · constructor
        · rintro ((h | h) | h)
          · exact Or.inl h
          · exact Or.inr ⟨h.1, content, List.mem_cons_self _ _, h.2⟩
          · obtain ⟨hn, c, hc, hr⟩ := h
            exact Or.inr ⟨hn, c, List.mem_cons_of_mem _ hc, hr⟩
        · rintro (h | ⟨hn, c, hc, hr⟩)
          · exact Or.inl (Or.inl h)
          · rcases List.mem_cons.1 hc with hc | hc
            · rw [Option.some.inj hc] at hr
              exact Or.inl (Or.inr ⟨hn, hr⟩)
            · exact Or.inr ⟨hn, c, hc, hr⟩
      · constructor
        · rintro ((h | h) | h)
          · exact Or.inl h
          · exact Or.inr ⟨content, List.mem_cons_self _ _, h⟩
          · obtain ⟨c, hc, hr⟩ := h
            exact Or.inr ⟨c, List.mem_cons_of_mem _ hc, hr⟩
        · rintro (h | ⟨c, hc, hr⟩)
          · exact Or.inl (Or.inl h)
          · rcases List.mem_cons.1 hc with hc | hc
            · rw [Option.some.inj hc] at hr
              exact Or.inl (Or.inr hr)
            · exact Or.inr ⟨c, hc, hr⟩

theorem foldl_remove_mem (l : List QString) (s : QSet) (v : QString) :
    v ∈ (l.foldl (fun undefined builtin => undefined.remove builtin) s).elems
      ↔ v ∈ s.elems ∧ v ∉ l := by
  induction l generalizing s with
  | nil => simp
  | cons b rest ih =>
    rw [List.foldl_cons, ih]
    simp only [QSet.remove, List.mem_filter, decide_eq_true_eq, List.mem_cons, not_or]
    tauto

theorem printReport_eq (self : MakefileAnalyzer) :
    self.printReport = ((undefinedSet self).size, qSort (undefinedSet self).toList) := rfl

/-- What `printReport` writes for a set of used and a set of defined names. -/
theorem printReport_spec (self : MakefileAnalyzer) :
    (∀ v, v ∈ self.printReport.2
      ↔ v ∈ self.variablesUsed.elems ∧ v ∉ self.variablesDefined.elems ∧ v ∉ builtins) ∧
    ascendingOnce self.printReport.2 ∧
    self.printReport.1 = self.printReport.2.length := by
  rw [printReport_eq]
  generalize hu : undefinedSet self = undefined
  have hperm : (qSort undefined.toList).Perm undefined.elems :=
    List.perm_insertionSort (fun a b => a ≤ b) undefined.elems
  have hnodup : (qSort undefined.toList).Nodup := hperm.nodup_iff.2 undefined.nodup
  refine ⟨?_, ⟨?_, hnodup⟩, ?_⟩
  · intro v
    show v ∈ qSort undefined.toList ↔ _
    rw [hperm.mem_iff, ← hu, undefinedSet, foldl_remove_mem]
    simp only [QSet.subtract, QSet.contains, List.mem_filter, Bool.not_eq_true',
      decide_eq_false_iff_not]
    tauto
  · have hs : (qSort undefined.toList).Sorted (fun a b => a ≤ b) :=
      List.sorted_insertionSort (fun a b => a ≤ b) undefined.elems
    exact hs.lt_of_le hnodup
  · exact hperm.length_eq.symm

/-- C24, amended. Undefined-variable report of makevaranalyzer: a name is
listed under UNDEFINED VARIABLES if and only if it consists of letters, digits
and underscores only, is referred to as `$(v)` or `${v}` in some analysed
file, is defined in no analysed file (by a line `v =`, `v :=` or `v ?=` that
is not a comment), and is not one of the 17 built-in names; the list is in
ascending order without duplicates and the printed number is its length. -/
theorem undefined_report (files : List (Option QString)) :
    (∀ v, v ∈ (MakefileAnalyzer.new.analyzeFiles files).printReport.2
      ↔ isName v = true ∧
        (∃ content, some content ∈ files ∧ references content v) ∧
        (∀ content, some content ∈ files → v ∉ definitions content) ∧
        v ∉ builtins) ∧
    ascendingOnce (MakefileAnalyzer.new.analyzeFiles files).printReport.2 ∧
    (MakefileAnalyzer.new.analyzeFiles files).printReport.1
      = (MakefileAnalyzer.new.analyzeFiles files).printReport.2.length := by
  obtain ⟨hmem, hasc, hlen⟩ := printReport_spec (MakefileAnalyzer.new.analyzeFiles files)
  refine ⟨?_, hasc, hlen⟩
  intro v
  rw [hmem, (analyzeFiles_sets files MakefileAnalyzer.new v).1,
    (analyzeFiles_sets files MakefileAnalyzer.new v).2]
  have he : ∀ x : QString, x ∉ MakefileAnalyzer.new.variablesUsed.elems ∧
      x ∉ MakefileAnalyzer.new.variablesDefined.elems :=
    fun x => ⟨List.not_mem_nil x, List.not_mem_nil x⟩
  constructor
  · rintro ⟨h1 | h1, h2, h3⟩
    · exact absurd h1 (he v).1
    · exact ⟨h1.1, h1.2, fun content hc hd => h2 (Or.inr ⟨content, hc, hd⟩), h3⟩
  · rintro ⟨h1, h2, h3, h4⟩
    refine ⟨Or.inr ⟨h1, h2⟩, ?_, h4⟩
    rintro (h | ⟨content, hc, hd⟩)
    · exact (he v).2 h
    · exact h3 content hc hd

/-- Counterexample to C24 as stated: `foo-bar` is referred to as `$(foo-bar)`,
is defined nowhere and is not a built-in name, and is not listed. -/
theorem undefined_report_counterexample :
    references sampleMakefile "foo-bar".toList ∧
    "foo-bar".toList ∉ definitions sampleMakefile ∧
    "foo-bar".toList ∉ builtins ∧
    "foo-bar".toList ∉ (MakefileAnalyzer.new.analyzeFiles [some sampleMakefile]).printReport.2 ∧
    (MakefileAnalyzer.new.analyzeFiles [some sampleMakefile]).printReport
      = (1, ["OUT".toList]) :=
  ⟨Or.inl ⟨"NAME = demo\nall: $(NAME) ".toList, " $\x7bOUT\x7d $(CC)\n".toList, by decide⟩,
    by decide, by decide, by decide, by decide⟩

/-- Witness for C24 (amended): `OUT`, referred to in braces and defined
nowhere, is listed. -/
theorem undefined_report_witness :
    "OUT".toList ∈ (MakefileAnalyzer.new.analyzeFiles [some sampleMakefile]).printReport.2 :=
  ((undefined_report [some sampleMakefile]).1 "OUT".toList).2
    ⟨by decide,
      ⟨sampleMakefile, List.mem_singleton.2 rfl,
        Or.inr ⟨"NAME = demo\nall: $(NAME) $(foo-bar) ".toList, " $(CC)\n".toList, by decide⟩⟩,
      fun content hc => by
        rw [Option.some.inj (List.mem_singleton.1 hc)]
        decide,
      by decide⟩

/-! ## commonanalyzer: cleaned lines and continuation lines -/

theorem mem_of_mem_trimmed {s : QString} {x : Char} (h : x ∈ trimmed s) : x ∈ s := by
  unfold trimmed at h
  rw [List.mem_reverse] at h
  have h1 := (List.dropWhile_suffix isSpace).subset h
  rw [List.mem_reverse] at h1
  exact (List.dropWhile_suffix isSpace).subset h1

theorem dropWhile_of_head {p : Char → Bool} {c : Char} {t : List Char} (h : p c = false) :
    (c :: t).dropWhile p = c :: t := by
  simp [List.dropWhile_cons, h]

/-- A trimmed string does not start with white space. -/
theorem trimmed_head {s : QString} {c : Char} {t : List Char} (h : trimmed s = c :: t) :
    isSpace c = false := by
  have hpre : trimmed s <+: s.dropWhile isSpace := by
    unfold trimmed
    rw [← List.reverse_suffix, List.reverse_reverse]
    exact List.dropWhile_suffix isSpace
  rw [h] at hpre
  obtain ⟨u, hu⟩ := hpre
  have := List.head?_dropWhile_not isSpace s
  rw [← hu] at this
  simpa using this

theorem trimmed_nil : trimmed [] = [] := rfl

/-- Trimming a trimmed string changes nothing. -/
theorem trimmed_trimmed (s : QString) : trimmed (trimmed s) = trimmed s := by
  have h1 : (trimmed s).dropWhile isSpace = trimmed s := by
    cases h : trimmed s with
    | nil => rfl
    | cons c t => exact dropWhile_of_head (trimmed_head h)
  have h2 : trimmed (trimmed s)
      = (((trimmed s).dropWhile isSpace).reverse.dropWhile isSpace).reverse := rfl
  rw [h2, h1]
  unfold trimmed
  rw [List.reverse_reverse, List.dropWhile_idempotent]

/-- Trimming after a text that starts with a visible character and a space. -/
theorem trimmed_append_space {c d : Char} (J y : List Char) (hc : isSpace c = false)
    (hd : isSpace d = false) :
    trimmed ((c :: J) ++ ' ' :: (d :: y)) = (c :: J) ++ ' ' :: trimmed (d :: y) := by
  have hy : (d :: y).dropWhile isSpace = d :: y := dropWhile_of_head hd
  have hne : ((d :: y).reverse.dropWhile isSpace).isEmpty = false := by
    cases hx : (d :: y).reverse.dropWhile isSpace with
    | nil =>
      have hall := List.dropWhile_eq_nil_iff.1 hx d (by simp)
      rw [hd] at hall
      cases hall
    | cons a b => rfl
  unfold trimmed
  rw [hy, List.cons_append, dropWhile_of_head hc]
  have hrev : (c :: (J ++ ' ' :: d :: y)).reverse
      = (d :: y).reverse ++ (' ' :: (c :: J).reverse) := by
    simp
  rw [hrev, List.dropWhile_append, hne]
  simp

theorem getLast?_dropLast_append (P l : List Char) (hl : l ≠ []) :
    (P ++ l).getLast? = l.getLast? ∧ (P ++ l).dropLast = P ++ l.dropLast :=
  ⟨List.getLast?_append_of_ne_nil P hl, List.dropLast_append_of_ne_nil P hl⟩
theorem not_mem_take_indexOf (a : Char) (l : List Char) : a ∉ l.take (List.indexOf a l) := by
  induction l with
  | nil => simp
  | cons b l ih =>
    by_cases hb : b = a
    · simp [List.indexOf_cons, hb]
    · have hba : (b == a) = false := by simpa using hb
      rw [List.indexOf_cons, hba]
      simp only [cond_false, List.take_succ_cons, List.mem_cons, not_or]
      exact ⟨fun h => hb h.symm, ih⟩

theorem cleanLine_spec (raw : QString) :
    trimmed (cleanLine raw) = cleanLine raw ∧ '#' ∉ cleanLine raw := by
  unfold cleanLine
  dsimp only
  refine ⟨trimmed_trimmed _, ?_⟩
  intro hmem
  have h := mem_of_mem_trimmed hmem
  by_cases hc : '#' ∈ raw
  · rw [if_pos hc, if_pos (by exact Int.natCast_nonneg _)] at h
    rw [Int.toNat_natCast] at h
    exact not_mem_take_indexOf '#' raw h
  · rw [if_neg hc, if_neg (by decide)] at h
    exact hc h

theorem cleanLines_foldl_isClean (lines : List QString) (acc : List QString)
    (hacc : ∀ l ∈ acc, isClean l) :
    ∀ l ∈ lines.foldl (fun cleanLines line =>
        if ¬ (cleanLine line).isEmpty then cleanLines ++ [cleanLine line] else cleanLines) acc,
      isClean l := by
  induction lines generalizing acc with
  | nil => exact hacc
  | cons raw rest ih =>
    rw [List.foldl_cons]
    apply ih
    by_cases he : (cleanLine raw).isEmpty = true
    · rw [if_neg (not_not.2 he)]
      exact hacc
    · rw [if_pos he]
      intro l hl
      rcases List.mem_append.1 hl with hl | hl
      · exact hacc l hl
      · rw [List.mem_singleton.1 hl]
        refine ⟨?_, (cleanLine_spec raw).1, (cleanLine_spec raw).2⟩
        intro hnil
        rw [hnil] at he
        exact he rfl

/-- Every line of `cleanLines` is not empty, is trimmed, and holds no `#`. -/
theorem cleanLines_isClean (content : QString) : ∀ l ∈ cleanLines content, isClean l :=
  cleanLines_foldl_isClean _ [] (fun _ h => nomatch h)

theorem isClean_head {l : QString} (h : isClean l) :
    ∃ c t, l = c :: t ∧ isSpace c = false := by
  cases hl : l with
  | nil => exact absurd hl h.1
  | cons c t =>
    refine ⟨c, t, rfl, ?_⟩
    have := h.2.1
    rw [hl] at this
    exact trimmed_head this

theorem runs_ne_nil (line : QString) (rest : List QString) : runs (line :: rest) ≠ [] := by
  unfold runs
  split_ifs
  · cases runs rest <;> simp
  · simp

theorem runs_flatten (lines : List QString) : (runs lines).flatten = lines := by
  induction lines with
  | nil => rfl
  | cons line rest ih =>
    unfold runs
    split_ifs
    · cases hr : runs rest with
      | nil =>
        rw [hr] at ih
        simp only [List.flatten_nil] at ih
        simp [← ih]
      | cons run more =>
        rw [hr] at ih
        simp only [List.flatten_cons] at ih
        simp [ih]
    · simp [ih]

/-- The lines of a run are consecutive lines; all but the last end with a
backslash, and a run is not empty. -/
theorem runs_shape (lines : List QString) :
    ∀ run ∈ runs lines, run ≠ [] ∧ ∀ l ∈ run.dropLast, endsWithBackslash l = true := by
  induction lines with
  | nil => intro run h; cases h
  | cons line rest ih =>
    intro run hrun
    unfold runs at hrun
    split_ifs at hrun with hb
    · cases hr : runs rest with
      | nil =>
        rw [hr] at hrun
        simp only [List.mem_singleton] at hrun
        rw [hrun]
        simp
      | cons run' more =>
        rw [hr] at hrun ih
        simp only [List.mem_cons] at hrun
        rcases hrun with hrun | hrun
        · obtain ⟨hne, hall⟩ := ih run' (List.mem_cons_self _ _)
          rw [hrun]
          refine ⟨List.cons_ne_nil _ _, ?_⟩
          intro l hl
          rw [List.dropLast_cons_of_ne_nil hne] at hl
          rcases List.mem_cons.1 hl with hl | hl
          · rw [hl]; exact hb
          · exact hall l hl
        · exact ih run (List.mem_cons_of_mem _ hrun)
    · simp only [List.mem_cons] at hrun
      rcases hrun with hrun | hrun
      · rw [hrun]
        simp
      · exact ih run hrun
theorem endsWithBackslash_append (P l : QString) (hl : l ≠ []) :
    endsWithBackslash (P ++ l) = endsWithBackslash l := by
  unfold endsWithBackslash
  rw [List.getLast?_append_of_ne_nil P hl]

theorem pieceOf_of_backslash {l : QString} (h : endsWithBackslash l = true) :
    pieceOf l = trimmed l.dropLast := by
  unfold pieceOf
  rw [if_pos h]

theorem pieceOf_of_clean {l : QString} (hl : isClean l) (h : endsWithBackslash l = false) :
    pieceOf l = l := by
  unfold pieceOf
  rw [if_neg (by rw [h]; decide), hl.2.1]

theorem logicalLine_singleton (l : QString) : logicalLine [l] = pieceOf l := rfl

theorem logicalLine_cons (l : QString) {run : List QString} (h : run ≠ []) :
    logicalLine (l :: run) = pieceOf l ++ " ".toList ++ logicalLine run := by
  cases run with
  | nil => exact absurd rfl h
  | cons a b => rfl

theorem completeRun_cons (l : QString) {run : List QString} (h : run ≠ []) :
    completeRun (l :: run) = completeRun run := by
  unfold completeRun
  cases run with
  | nil => exact absurd rfl h
  | cons a b => rw [List.getLast?_cons_cons]

theorem runs_single (l : QString) : runs [l] = [[l]] := by
  unfold runs
  split_ifs <;> rfl

/-- One round of the continuation loop on the text joined so far: the text
before the current line stays, the current line gives its piece. -/
theorem trimmed_dropLast_append (P l : QString)
    (hP : P = [] ∨ ∃ c J, P = (c :: J) ++ [' '] ∧ isSpace c = false) (hl : isClean l)
    (hb : endsWithBackslash l = true) (hpiece : pieceOf l ≠ []) :
    trimmed (P ++ l).dropLast = P ++ pieceOf l ∧
      ∃ c J, P ++ pieceOf l = c :: J ∧ isSpace c = false := by
  rw [List.dropLast_append_of_ne_nil P hl.1, pieceOf_of_backslash hb]
  rw [pieceOf_of_backslash hb] at hpiece
  rcases hP with hP | ⟨c, J, hP, hc⟩
  · rw [hP, List.nil_append]
    refine ⟨rfl, ?_⟩
    cases ht : trimmed l.dropLast with
    | nil => exact absurd ht hpiece
    | cons d y => exact ⟨d, y, rfl, trimmed_head ht⟩
  · obtain ⟨d, t, hdt, hd⟩ := isClean_head hl
    have hdrop : ∃ y, l.dropLast = d :: y := by
      rw [hdt]
      cases t with
      | nil =>
        rw [hdt] at hpiece
        exact absurd rfl hpiece
      | cons a b => exact ⟨(a :: b).dropLast, rfl⟩
    obtain ⟨y, hy⟩ := hdrop
    rw [hP, hy]
    have e : (c :: J) ++ [' '] ++ (d :: y) = (c :: J) ++ ' ' :: (d :: y) := by simp
    rw [e, trimmed_append_space J y hc hd]
    refine ⟨by simp, c, J ++ ' ' :: trimmed (d :: y), by simp, hc⟩

/-- The line the continuation loop hands over for a complete run without an
empty piece is the logical line of the run. -/
theorem joinContinuation_value (pending : List QString) :
    ∀ (P l : QString) (run : List QString) (more : List (List QString)),
      (P = [] ∨ ∃ c J, P = (c :: J) ++ [' '] ∧ isSpace c = false) → isClean l →
      (∀ x ∈ pending, isClean x) → runs (l :: pending) = run :: more →
      completeRun run = true → (∀ x ∈ run.dropLast, pieceOf x ≠ []) →
      (joinContinuation (P ++ l) pending).1 = P ++ logicalLine run := by
  induction pending with
  | nil =>
    intro P l run more _ hl _ hruns hcomplete _
    rw [runs_single] at hruns
    have hrun : run = [l] := (List.cons.inj hruns).1.symm
    rw [hrun] at hcomplete ⊢
    have hb : endsWithBackslash l = false := by
      simpa [completeRun] using hcomplete
    rw [logicalLine_singleton, pieceOf_of_clean hl hb]
    rfl
  | cons next pending ih =>
    intro P l run more hP hl hpending hruns hcomplete hpieces
    have hnext : isClean next := hpending next (List.mem_cons_self _ _)
    by_cases hb : endsWithBackslash l = true
    · have hstep : joinContinuation (P ++ l) (next :: pending)
          = joinContinuation (trimmed (P ++ l).dropLast ++ " ".toList ++ trimmed next)
              pending := by
        rw [joinContinuation, if_pos (by rw [endsWithBackslash_append P l hl.1]; exact hb)]
      cases hr : runs (next :: pending) with
      | nil => exact absurd hr (runs_ne_nil _ _)
      | cons run' more' =>
        have hrun' : run' ≠ [] := (runs_shape _ run' (by rw [hr]; exact List.mem_cons_self _ _)).1
        have hruns' : runs (l :: next :: pending) = (l :: run') :: more' := by
          rw [runs, if_pos hb, hr]
        rw [hruns'] at hruns
        have hrun : run = l :: run' := (List.cons.inj hruns).1.symm
        rw [hrun, completeRun_cons l hrun'] at hcomplete
        rw [hrun, List.dropLast_cons_of_ne_nil hrun'] at hpieces
        obtain ⟨htrim, c, J, hcJ, hc⟩ := trimmed_dropLast_append P l hP hl hb
          (hpieces l (List.mem_cons_self _ _))
        rw [hstep, htrim, hnext.2.1, hrun, logicalLine_cons l hrun']
        have hih := ih ((P ++ pieceOf l) ++ " ".toList) next run' more'
          (Or.inr ⟨c, J, by rw [hcJ]; rfl, hc⟩) hnext
          (fun x hx => hpending x (List.mem_cons_of_mem _ hx)) hr hcomplete
          (fun x hx => hpieces x (List.mem_cons_of_mem _ hx))
        rw [hih]
        simp only [List.append_assoc]
    · have hb' : endsWithBackslash l = false := by simpa using hb
      have hstep : joinContinuation (P ++ l) (next :: pending) = (P ++ l, next :: pending) := by
        rw [joinContinuation, if_neg (by rw [endsWithBackslash_append P l hl.1]; exact hb)]
      have hruns' : runs (l :: next :: pending) = [l] :: runs (next :: pending) := by
        rw [runs, if_neg hb]
      rw [hruns'] at hruns
      have hrun : run = [l] := (List.cons.inj hruns).1.symm
      rw [hstep, hrun, logicalLine_singleton, pieceOf_of_clean hl hb']

/-- The lines the continuation loop takes are the first run, and it leaves
the lines after that run. -/
theorem joinContinuation_rest (pending : List QString) :
    ∀ (acc l : QString), isClean l → (∀ x ∈ pending, isClean x) →
      endsWithBackslash acc = endsWithBackslash l →
      ∃ run rest, runs (l :: pending) = run :: runs rest ∧
        (joinContinuation acc pending).2 = rest ∧ rest.length ≤ pending.length ∧
        ∀ x ∈ rest, isClean x := by
  induction pending with
  | nil =>
    intro acc l _ _ _
    exact ⟨[l], [], runs_single l, rfl, Nat.le_refl _, fun _ h => nomatch h⟩
  | cons next pending ih =>
    intro acc l hl hpending hacc
    have hnext : isClean next := hpending next (List.mem_cons_self _ _)
    by_cases hb : endsWithBackslash l = true
    · have hstep : joinContinuation acc (next :: pending)
          = joinContinuation (trimmed acc.dropLast ++ " ".toList ++ trimmed next) pending := by
        rw [joinContinuation, if_pos (by rw [hacc]; exact hb)]
      obtain ⟨run', rest, hr, hrest, hlen, hclean⟩ :=
        ih (trimmed acc.dropLast ++ " ".toList ++ trimmed next) next hnext
          (fun x hx => hpending x (List.mem_cons_of_mem _ hx))
          (by rw [hnext.2.1]; exact endsWithBackslash_append _ next hnext.1)
      refine ⟨l :: run', rest, ?_, ?_, ?_, hclean⟩
      · rw [runs, if_pos hb, hr]
      · rw [hstep, hrest]
      · exact Nat.le_succ_of_le hlen
    · have hstep : joinContinuation acc (next :: pending) = (acc, next :: pending) := by
        rw [joinContinuation, if_neg (by rw [hacc]; exact hb)]
      refine ⟨[l], next :: pending, ?_, ?_, Nat.le_refl _, hpending⟩
      · rw [runs, if_neg hb]
      · rw [hstep]

/-- The lines handed to `parseVariable` match the runs of the clean lines one
to one, in order. -/
theorem parseLoop_runs (fuel : Nat) :
    ∀ lines : List QString, lines.length ≤ fuel → (∀ x ∈ lines, isClean x) →
      List.Forall₂
        (fun run line =>
          completeRun run = true → (∀ l ∈ run.dropLast, pieceOf l ≠ []) →
            line = logicalLine run)
        (runs lines) (parseLoop fuel lines) := by
  induction fuel with
  | zero =>
    intro lines hlen _
    have : lines = [] := List.length_eq_zero.1 (Nat.le_zero.1 hlen)
    rw [this]
    exact List.Forall₂.nil
  | succ fuel ih =>
    intro lines hlen hclean
    cases lines with
    | nil => exact List.Forall₂.nil
    | cons l pending =>
      have hl : isClean l := hclean l (List.mem_cons_self _ _)
      have hpending : ∀ x ∈ pending, isClean x :=
        fun x hx => hclean x (List.mem_cons_of_mem _ hx)
      obtain ⟨run, rest, hr, hrest, hlen', hclean'⟩ :=
        joinContinuation_rest pending l l hl hpending rfl
      have hloop : parseLoop (fuel + 1) (l :: pending)
          = (joinContinuation l pending).1 :: parseLoop fuel rest := by
        rw [parseLoop, hrest]
      rw [hloop, hr]
      refine List.Forall₂.cons ?_ (ih rest ?_ hclean')
      · intro hcomplete hpieces
        exact joinContinuation_value pending [] l run (runs rest) (Or.inl rfl) hl hpending hr
          hcomplete hpieces
      · simp only [List.length_cons] at hlen
        omega
/-- Every run but the last is complete: runs are maximal. -/
theorem runs_complete (lines : List QString) :
    ∀ run ∈ (runs lines).dropLast, completeRun run = true := by
  induction lines with
  | nil => intro run h; cases h
  | cons line rest ih =>
    intro run hrun
    unfold runs at hrun
    split_ifs at hrun with hb
    · cases hr : runs rest with
      | nil =>
        rw [hr] at hrun
        cases hrun
      | cons run' more =>
        rw [hr] at hrun ih
        have hrun' : run' ≠ [] :=
          (runs_shape rest run' (by rw [hr]; exact List.mem_cons_self _ _)).1
        cases more with
        | nil => cases hrun
        | cons m ms =>
          simp only [List.dropLast_cons₂, List.mem_cons] at hrun ih
          rcases hrun with hrun | hrun
          · rw [hrun, completeRun_cons line hrun']
            exact ih run' (Or.inl rfl)
          · exact ih run (Or.inr hrun)
    · cases hr : runs rest with
      | nil =>
        rw [hr] at hrun
        cases hrun
      | cons run' more =>
        rw [hr] at hrun ih
        simp only [List.dropLast_cons₂, List.mem_cons] at hrun
        rcases hrun with hrun | hrun
        · rw [hrun]
          simpa [completeRun] using hb
        · exact ih run hrun

/-- Counterexample to C25 as stated: in `LIBS = a \`, `\`, `b` the second line
holds a backslash only; the run is complete, its pieces joined with one space
give `LIBS = a  b` with two spaces, and `parseVariable` is handed
`LIBS = a b`. -/
theorem continuation_lines_counterexample :
    runs (cleanLines sparseMakefile)
      = [["LIBS = a \\".toList, "\\".toList, "b".toList], ["NAME = x".toList]] ∧
    completeRun ["LIBS = a \\".toList, "\\".toList, "b".toList] = true ∧
    logicalLine ["LIBS = a \\".toList, "\\".toList, "b".toList] = "LIBS = a  b".toList ∧
    parseFile sparseMakefile = ["LIBS = a b".toList, "NAME = x".toList] := by
  decide

/-- C25, amended. Multi-line definitions in commonanalyzer: no cleaned line is
empty or contains `#`; the cleaned lines fall into consecutive maximal runs in
which every line but the last ends with a backslash; `parseVariable` is called
once per run, in order; and for a run whose last line does not end with a
backslash and none of whose earlier lines holds a backslash only, the line
handed over is the logical line of the run: the lines without their trailing
backslashes, trimmed, joined with one space. -/
theorem continuation_lines (content : QString) :
    (∀ l ∈ cleanLines content, l ≠ [] ∧ '#' ∉ l) ∧
    (runs (cleanLines content)).flatten = cleanLines content ∧
    (∀ run ∈ runs (cleanLines content),
      run ≠ [] ∧ ∀ l ∈ run.dropLast, endsWithBackslash l = true) ∧
    (∀ run ∈ (runs (cleanLines content)).dropLast, completeRun run = true) ∧
    List.Forall₂
      (fun run line =>
        completeRun run = true → (∀ l ∈ run.dropLast, pieceOf l ≠ []) →
          line = logicalLine run)
      (runs (cleanLines content)) (parseFile content) := by
  refine ⟨?_, runs_flatten _, runs_shape _, runs_complete _, ?_⟩
  · intro l hl
    have h := cleanLines_isClean content l hl
    exact ⟨h.1, h.2.2⟩
  · exact parseLoop_runs _ _ (Nat.le_refl _) (cleanLines_isClean content)

/-- Witness for C25 (amended): a definition continued over three lines is
handed over as the logical line of its run. -/
theorem continuation_lines_witness :
    (parseFile continuedMakefile).head?
      = some (logicalLine ["LIBS = a \\".toList, "b \\".toList, "c".toList]) := by
  have h := (continuation_lines continuedMakefile).2.2.2.2
  have e1 : runs (cleanLines continuedMakefile)
      = [["LIBS = a \\".toList, "b \\".toList, "c".toList], ["NAME = x".toList]] := by
    decide
  have e2 : parseFile continuedMakefile = ["LIBS = a b c".toList, "NAME = x".toList] := by
    decide
  rw [e1, e2] at h
  have h1 := (List.forall₂_cons.1 h).1 (by decide) (by decide)
  rw [e2, ← h1]
  rfl

/-! ## commonanalyzer: library usage -/

end LeanOpenQNX
